import Mathlib

/-!
Composite sorted-string index (`src/table/terark_zip_index.cc`).

A shallow embedding of the uint prefixes, the suffixes, the composite index and
its cursor, followed by theorems about them.

Conventions of the embedding.
* A key (`fstring`) is a list of bytes; a byte is a `Fin 256`.
* `size_t` / `uint64_t` values are natural numbers; the operations that can
  wrap are written with `add64` / `sub64`, and `size_t(-1)` is `size_t_max`.
* A rank/select bitmap is a `List Bool`; its primitives live in the terark
  library and are modelled from their contract.
* `assert(...)` statements are compiled out (`NDEBUG`): the functions below are
  the release-build behaviour of the code.
* A call through a null pointer and a read past the end of the input are
  outcomes of their own (`none`, `null_dereference`, `out_of_bounds_read`), not
  values.
-/

namespace TerarkZipIndex

/-- A byte (`byte_t`). -/
abbrev byte_t := Fin 256

/-- A byte string (`fstring`). -/
abbrev fstring := List byte_t

/-- The value `size_t(-1)`, used by the code as the not-found / end sentinel. -/
def size_t_max : Nat := 2 ^ 64 - 1

/-- Addition of two `size_t` values (wraps at `2^64`). -/
def add64 (a b : Nat) : Nat := (a + b) % 2 ^ 64

/-- Subtraction of two `size_t` values (wraps at `2^64`). -/
def sub64 (a b : Nat) : Nat := (a % 2 ^ 64 + 2 ^ 64 - b % 2 ^ 64) % 2 ^ 64

/-! ## Byte strings -/

/-- Modelled from the spec: `fstring::commonPrefixLen` (terark library), the
length of the longest common prefix of two byte strings. -/
def commonPrefixLen : fstring → fstring → Nat
  | a :: as, b :: bs => if a = b then commonPrefixLen as bs + 1 else 0
  | _, _ => 0

/-- Modelled from the spec: the order of `fstring` (`operator<`), unsigned
byte-wise lexicographic order, a proper prefix being smaller. -/
def fstring_lt : fstring → fstring → Bool
  | _, [] => false
  | [], _ :: _ => true
  | a :: as, b :: bs => if a < b then true else if b < a then false else fstring_lt as bs

/-- The big-endian value of a byte string, without truncation. -/
def beValue (data : fstring) : Nat :=
  data.foldl (fun acc b => acc * 256 + b.val) 0

/-- Modelled from the spec: `ReadBigEndianUint64(fstring)`, declared in
`terark_zip_common.h`, which is not under src/. "head is read big-endian into a
u64, padded with leading zeros": every byte of the string it is given is read,
and the result is a 64 bit value. -/
def ReadBigEndianUint64 (data : fstring) : Nat :=
  beValue data % 2 ^ 64

/-- Modelled from the spec: `ReadBigEndianUint64Aligned(buffer, 8)`, the
big-endian value of an 8 byte buffer. -/
def ReadBigEndianUint64Aligned (buffer : fstring) : Nat :=
  beValue (buffer.take 8) % 2 ^ 64

/-- The `len` low-order bytes of `value`, most significant first. -/
def beBytes : Nat → Nat → fstring
  | 0, _ => []
  | len + 1, value => beBytes len (value / 256) ++ [⟨value % 256, Nat.mod_lt _ (by decide)⟩]

/-- Modelled from the spec: `SaveAsBigEndianUint64(beg, len, value)`: the first
`len` bytes of the buffer `beg` are overwritten with the big-endian encoding of
the `len` low-order bytes of `value`; the other bytes are left alone. -/
def SaveAsBigEndianUint64 (beg : fstring) (len value : Nat) : fstring :=
  beBytes len value ++ beg.drop len

/-! ## Rank/select bitmaps -/

/-- Modelled from the spec: `rank_select[i]`, the bit at position `i`. -/
def rs_get (rs : List Bool) (i : Nat) : Bool := rs.getD i false

/-- Modelled from the spec: `rank1(i)`, the count of one bits in `[0, i)`. -/
def rank1 (rs : List Bool) (i : Nat) : Nat := (rs.take i).count true

/-- Modelled from the spec: `rank0(i)`, the count of zero bits in `[0, i)`. -/
def rank0 (rs : List Bool) (i : Nat) : Nat := (rs.take i).count false

/-- Modelled from the spec: `max_rank1()`, the count of one bits. -/
def max_rank1 (rs : List Bool) : Nat := rs.count true

/-- Modelled from the spec: `select0(k)`, the position of the `k`-th zero bit
(counting from 0); the size of the bitmap when there is none. -/
def select0 : List Bool → Nat → Nat
  | [], _ => 0
  | false :: _, 0 => 0
  | false :: rs, k + 1 => select0 rs k + 1
  | true :: rs, k => select0 rs k + 1

/-- Modelled from the spec: `select1(k)`, the position of the `k`-th one bit
(counting from 0); the size of the bitmap when there is none. -/
def select1 : List Bool → Nat → Nat
  | [], _ => 0
  | true :: _, 0 => 0
  | true :: rs, k + 1 => select1 rs k + 1
  | false :: rs, k => select1 rs k + 1

/-- Modelled from the spec: `zero_seq_len(pos)`, the length of the run of zero
bits that starts at `pos`. -/
def zero_seq_len (rs : List Bool) (pos : Nat) : Nat :=
  ((rs.drop pos).takeWhile (fun b => !b)).length

/-- Modelled from the spec: `one_seq_len(pos)`, the length of the run of one
bits that starts at `pos`. -/
def one_seq_len (rs : List Bool) (pos : Nat) : Nat :=
  ((rs.drop pos).takeWhile (fun b => b)).length

/-- Modelled from the spec: `zero_seq_revlen(pos)`, the length of the run of
zero bits that ends just before `pos`. -/
def zero_seq_revlen (rs : List Bool) (pos : Nat) : Nat :=
  (((rs.take pos).reverse).takeWhile (fun b => !b)).length

/-- Modelled from the spec: `one_seq_revlen(pos)`, the length of the run of one
bits that ends just before `pos`. -/
def one_seq_revlen (rs : List Bool) (pos : Nat) : Nat :=
  (((rs.take pos).reverse).takeWhile (fun b => b)).length

/-! ## Suffixes -/

/-- The suffix part of a composite index: `CompositeIndexEmptySuffix` or
`CompositeIndexFixedStringSuffix` (whose `str_pool_` is the list of rows). -/
inductive Suffix where
  | Empty : Suffix
  | FixedString (str_pool_ : List fstring) : Suffix
deriving DecidableEq

/-- Modelled from the spec: `FixedLenStrVec::lower_bound(lo, hi, target)`, "the
smallest id whose stored suffix is ≥ target", `hi` when there is none. The
first argument is the number of ids still to inspect. -/
def lower_bound (str_pool_ : List fstring) (target : fstring) : Nat → Nat → Nat
  | 0, lo => lo
  | n + 1, lo =>
    if fstring_lt (str_pool_.getD lo []) target then lower_bound str_pool_ target n (lo + 1)
    else lo

namespace Suffix

/-- `TotalKeySize()`: 0 for the empty suffix, the size of the pool otherwise. -/
def TotalKeySize : Suffix → Nat
  | Empty => 0
  | FixedString str_pool_ => (str_pool_.map List.length).sum

/-- `LowerBound(target, suffix_id, suffix_count, ctx)`. -/
def LowerBound : Suffix → fstring → Nat → Nat → Nat × fstring
  | Empty, _, suffix_id, _ => (suffix_id, [])
  | FixedString str_pool_, target, suffix_id, suffix_count =>
    let end_ := add64 suffix_id suffix_count
    let suffix_id := lower_bound str_pool_ target (sub64 end_ suffix_id) suffix_id
    if suffix_id = end_ then (suffix_id, [])
    else (suffix_id, str_pool_.getD suffix_id [])

/-- `IterSeek(target, suffix_id, suffix_count, iter)`: the result and the new
`suffix_id`. -/
def IterSeek : Suffix → fstring → Nat → Nat → Bool × Nat
  | Empty, _, suffix_id, _ => (true, suffix_id)
  | FixedString str_pool_, target, suffix_id, suffix_count =>
    let end_ := add64 suffix_id suffix_count
    let suffix_id := lower_bound str_pool_ target (sub64 end_ suffix_id) suffix_id
    (suffix_id != end_, suffix_id)

/-- `IterGetKey(suffix_id, iter)`. -/
def IterGetKey : Suffix → Nat → fstring
  | Empty, _ => []
  | FixedString str_pool_, suffix_id => str_pool_.getD suffix_id []

end Suffix

/-- The per-cursor storage of a uint prefix
(`CompositeIndexUintPrefixIteratorStorage`): the 8 byte key buffer and the
position in the bitmap. -/
structure IteratorStorage where
  buffer : fstring
  pos : Nat
deriving DecidableEq

/-- The 8 byte buffer built by both `SeekImpl`: zeroed, then the first
`min(key_length, target.size())` bytes of the target copied to offset
`8 - key_length`. -/
def seekBuffer (key_length : Nat) (target : fstring) : fstring :=
  let n := min key_length target.length
  List.replicate (8 - key_length) 0 ++ target.take n ++ List.replicate (key_length - n) 0

/-! ## Ascending uint prefix -/

/-- The state of `CompositeIndexAscendingUintPrefix<RankSelect>`. -/
structure CompositeIndexAscendingUintPrefix where
  rank_select : List Bool
  key_length : Nat
  min_value : Nat
  max_value : Nat
deriving DecidableEq

namespace CompositeIndexAscendingUintPrefix

/-- `KeyCount()`. -/
def KeyCount (p : CompositeIndexAscendingUintPrefix) : Nat :=
  max_rank1 p.rank_select

/-- `Find(key, suffix, ctx)`; `suffix = none` is the null pointer. -/
def Find (p : CompositeIndexAscendingUintPrefix) (key : fstring) (suffix : Option Suffix) : Nat :=
  if key.length < p.key_length then size_t_max
  else
    let value := ReadBigEndianUint64 key
    if value < p.min_value ∨ value > p.max_value then size_t_max
    else
      let pos := value - p.min_value
      if !rs_get p.rank_select pos then size_t_max
      else
        let id := rank1 p.rank_select pos
        match suffix with
        | none => if key.length = p.key_length then id else size_t_max
        | some suffix =>
          let key := key.drop p.key_length
          let r := suffix.LowerBound key id 1
          if r.1 ≠ id ∨ r.2 ≠ key then size_t_max else r.1

/-- `SeekImpl(target, id, pos, hint)`: the pair `(seek_result, is_find)`,
then the values of the reference arguments `id` and `pos` on return. `id` is
written on every path, so only `pos` has an incoming value. -/
def SeekImpl (p : CompositeIndexAscendingUintPrefix) (target : fstring) (pos : Nat) :
    (Bool × Bool) × Nat × Nat :=
  let value := ReadBigEndianUint64Aligned (seekBuffer p.key_length target)
  if value > p.max_value then ((false, false), size_t_max, pos)
  else if value < p.min_value then ((true, false), 0, 0)
  else
    let pos := value - p.min_value
    let id := rank1 p.rank_select pos
    if !rs_get p.rank_select pos then
      ((true, false), id, add64 pos (zero_seq_len p.rank_select pos))
    else if target.length > p.key_length then
      if pos = sub64 p.rank_select.length 1 then ((false, false), size_t_max, pos)
      else
        ((true, false), add64 id 1,
          add64 pos (add64 (zero_seq_len p.rank_select (add64 pos 1)) 1))
    else ((true, true), id, pos)

/-- `DictRank(key, suffix, ctx)`. The local `pos` is uninitialised in the
source and is not read. -/
def DictRank (p : CompositeIndexAscendingUintPrefix) (key : fstring) (suffix : Option Suffix) :
    Nat :=
  let r := p.SeekImpl key 0
  let id := r.2.1
  if !r.1.1 then max_rank1 p.rank_select
  else if key.length ≠ p.key_length ∨ !r.1.2 then add64 id 1
  else
    match suffix with
    | none => id
    | some suffix => (suffix.LowerBound (key.drop p.key_length) id 1).1

/-- `UpdateBuffer(id, iter)`. -/
def UpdateBuffer (p : CompositeIndexAscendingUintPrefix) (iter : IteratorStorage) :
    IteratorStorage :=
  { iter with
    buffer := SaveAsBigEndianUint64 iter.buffer p.key_length (add64 iter.pos p.min_value) }

/-- `IterSeekToFirst(id, iter)`: the result, the new `id`, the new storage. -/
def IterSeekToFirst (p : CompositeIndexAscendingUintPrefix) (iter : IteratorStorage) :
    Bool × Nat × IteratorStorage :=
  (true, 0, p.UpdateBuffer { iter with pos := 0 })

/-- `IterSeekToLast(id, iter)`. -/
def IterSeekToLast (p : CompositeIndexAscendingUintPrefix) (iter : IteratorStorage) :
    Bool × Nat × IteratorStorage :=
  (true, sub64 (max_rank1 p.rank_select) 1,
    p.UpdateBuffer { iter with pos := sub64 p.rank_select.length 1 })

/-- `IterSeek(id, count, target, iter)`: the result, then the new `id`,
`count` and storage. -/
def IterSeek (p : CompositeIndexAscendingUintPrefix) (count : Nat) (target : fstring)
    (iter : IteratorStorage) : Bool × Nat × Nat × IteratorStorage :=
  let r := p.SeekImpl target iter.pos
  if !r.1.1 then (false, r.2.1, count, { iter with pos := r.2.2 })
  else (true, r.2.1, 1, p.UpdateBuffer { iter with pos := r.2.2 })

/-- The `do { ... } while (--count > 0)` loop of `IterNext`, for `count ≥ 1`
(the source asserts `count > 0`): result, `id`, `pos`. -/
def IterNextLoop (p : CompositeIndexAscendingUintPrefix) : Nat → Nat → Nat → Bool × Nat × Nat
  | 0, id, pos => (true, id, pos)
  | count + 1, id, pos =>
    if id = sub64 (max_rank1 p.rank_select) 1 then (false, size_t_max, pos)
    else
      p.IterNextLoop count (add64 id 1)
        (add64 (add64 pos (zero_seq_len p.rank_select (add64 pos 1))) 1)

/-- `IterNext(id, count, iter)`. -/
def IterNext (p : CompositeIndexAscendingUintPrefix) (id count : Nat) (iter : IteratorStorage) :
    Bool × Nat × IteratorStorage :=
  let r := p.IterNextLoop count id iter.pos
  if r.1 then (true, r.2.1, p.UpdateBuffer { iter with pos := r.2.2 })
  else (false, r.2.1, { iter with pos := r.2.2 })

/-- `IterPrev(id, iter)`. -/
def IterPrev (p : CompositeIndexAscendingUintPrefix) (id : Nat) (iter : IteratorStorage) :
    Bool × Nat × IteratorStorage :=
  if id = 0 then (false, size_t_max, iter)
  else
    (true, sub64 id 1,
      p.UpdateBuffer
        { iter with
          pos := sub64 (sub64 iter.pos (zero_seq_revlen p.rank_select iter.pos)) 1 })

/-- `IterDictRank(id, iter)`. -/
def IterDictRank (p : CompositeIndexAscendingUintPrefix) (id : Nat) : Nat :=
  if id = size_t_max then max_rank1 p.rank_select else id

/-- `IterGetKey(id, iter)`: the first `key_length` bytes of the buffer. -/
def IterGetKey (p : CompositeIndexAscendingUintPrefix) (iter : IteratorStorage) : fstring :=
  iter.buffer.take p.key_length

end CompositeIndexAscendingUintPrefix

/-! ## Non-descending uint prefix -/

/-- The state of `CompositeIndexNonDescendingUintPrefix<RankSelect>`. -/
structure CompositeIndexNonDescendingUintPrefix where
  rank_select : List Bool
  key_length : Nat
  min_value : Nat
  max_value : Nat
deriving DecidableEq

namespace CompositeIndexNonDescendingUintPrefix

/-- `KeyCount()`. -/
def KeyCount (p : CompositeIndexNonDescendingUintPrefix) : Nat :=
  max_rank1 p.rank_select

/-- `Find(key, suffix, ctx)`; the source asserts that the suffix is not null. -/
def Find (p : CompositeIndexNonDescendingUintPrefix) (key : fstring) (suffix : Suffix) : Nat :=
  if key.length < p.key_length then size_t_max
  else
    let value := ReadBigEndianUint64 key
    if value < p.min_value ∨ value > p.max_value then size_t_max
    else
      let pos := select0 p.rank_select (value - p.min_value)
      let count := one_seq_revlen p.rank_select pos
      if count = 0 then size_t_max
      else
        let id := rank1 p.rank_select (sub64 pos count)
        let key := key.drop p.key_length
        let r := suffix.LowerBound key id count
        if r.1 = add64 id count ∨ r.2 ≠ key then size_t_max else r.1

/-- `SeekImpl(target, id, count, pos, hint)`: the pair
`(seek_result, is_find)`, then the values of the reference arguments `id`,
`count` and `pos` on return. `id` is written on every path, so only `count` and
`pos` have an incoming value. -/
def SeekImpl (p : CompositeIndexNonDescendingUintPrefix) (target : fstring)
    (count pos : Nat) : (Bool × Bool) × Nat × Nat × Nat :=
  let value := ReadBigEndianUint64Aligned (seekBuffer p.key_length target)
  if value > p.max_value then ((false, false), size_t_max, count, pos)
  else if value < p.min_value then ((true, false), 0, count, 0)
  else
    let pos := select0 p.rank_select (value - p.min_value)
    if target.length = p.key_length ∧ rs_get p.rank_select (sub64 pos 1) = true then
      let count := one_seq_revlen p.rank_select pos
      let pos := sub64 pos count
      ((true, true), rank1 p.rank_select pos, count, pos)
    else if pos = sub64 p.rank_select.length 1 then ((false, false), size_t_max, count, pos)
    else
      let pos := add64 pos (zero_seq_len p.rank_select (add64 pos 1))
      ((true, false), rank1 p.rank_select pos, one_seq_len p.rank_select pos, pos)

/-- `DictRank(key, suffix, ctx)`. The locals `count` and `pos` are
uninitialised in the source; `count` is written by `SeekImpl` before it is
read, `pos` is not read. -/
def DictRank (p : CompositeIndexNonDescendingUintPrefix) (key : fstring) (suffix : Suffix) :
    Nat :=
  let r := p.SeekImpl key 0 0
  let id := r.2.1
  let count := r.2.2.1
  if !r.1.1 then max_rank1 p.rank_select
  else if key.length ≠ p.key_length ∨ !r.1.2 then add64 id 1
  else (suffix.LowerBound (key.drop p.key_length) id count).1

/-- `UpdateBuffer(id, iter)`. -/
def UpdateBuffer (p : CompositeIndexNonDescendingUintPrefix) (iter : IteratorStorage) :
    IteratorStorage :=
  { iter with
    buffer :=
      SaveAsBigEndianUint64 iter.buffer p.key_length
        (add64 (rank0 p.rank_select iter.pos) p.min_value) }

/-- `IterSeekToFirst(id, iter)`. -/
def IterSeekToFirst (p : CompositeIndexNonDescendingUintPrefix) (iter : IteratorStorage) :
    Bool × Nat × IteratorStorage :=
  (true, 0, p.UpdateBuffer { iter with pos := 0 })

/-- `IterSeekToLast(id, iter)`. -/
def IterSeekToLast (p : CompositeIndexNonDescendingUintPrefix) (iter : IteratorStorage) :
    Bool × Nat × IteratorStorage :=
  (true, sub64 (max_rank1 p.rank_select) 1,
    p.UpdateBuffer { iter with pos := sub64 p.rank_select.length 2 })

/-- `IterSeek(id, count, target, iter)`: the result, then the new `id`,
`count` and storage. -/
def IterSeek (p : CompositeIndexNonDescendingUintPrefix) (count : Nat) (target : fstring)
    (iter : IteratorStorage) : Bool × Nat × Nat × IteratorStorage :=
  let r := p.SeekImpl target count iter.pos
  if !r.1.1 then (false, r.2.1, r.2.2.1, { iter with pos := r.2.2.2 })
  else (true, r.2.1, r.2.2.1, p.UpdateBuffer { iter with pos := r.2.2.2 })

/-- `IterNext(id, count, iter)`. -/
def IterNext (p : CompositeIndexNonDescendingUintPrefix) (id count : Nat)
    (iter : IteratorStorage) : Bool × Nat × IteratorStorage :=
  if add64 id count ≥ max_rank1 p.rank_select then (false, size_t_max, iter)
  else
    let id := add64 id count
    if count = 1 then
      let zero_seq_len := zero_seq_len p.rank_select (add64 iter.pos 1)
      let iter := { iter with pos := add64 iter.pos (add64 zero_seq_len 1) }
      (true, id, if zero_seq_len > 0 then p.UpdateBuffer iter else iter)
    else
      let one_seq_len := one_seq_len p.rank_select (add64 iter.pos 1)
      if count ≤ one_seq_len then (true, id, { iter with pos := add64 iter.pos count })
      else (true, id, p.UpdateBuffer { iter with pos := select1 p.rank_select id })

/-- `IterPrev(id, iter)`. -/
def IterPrev (p : CompositeIndexNonDescendingUintPrefix) (id : Nat) (iter : IteratorStorage) :
    Bool × Nat × IteratorStorage :=
  if id = 0 then (false, size_t_max, iter)
  else
    let zero_seq_revlen := zero_seq_revlen p.rank_select iter.pos
    let iter := { iter with pos := sub64 iter.pos (add64 zero_seq_revlen 1) }
    (true, sub64 id 1, if zero_seq_revlen > 0 then p.UpdateBuffer iter else iter)

/-- `IterDictRank(id, iter)`. -/
def IterDictRank (p : CompositeIndexNonDescendingUintPrefix) (id : Nat) : Nat :=
  if id = size_t_max then max_rank1 p.rank_select else id

/-- `IterGetKey(id, iter)`: the first `key_length` bytes of the buffer. -/
def IterGetKey (p : CompositeIndexNonDescendingUintPrefix) (iter : IteratorStorage) : fstring :=
  iter.buffer.take p.key_length

/-- `Find(key, nullptr, ctx)`: the source asserts `suffix != nullptr` and then
calls `suffix->LowerBound` without a test of the pointer. The returns before
that call are `size_t(-1)`; `none` is the call through the null pointer, which
is reached when the head of the key is in range and stored. -/
def FindNullSuffix (p : CompositeIndexNonDescendingUintPrefix) (key : fstring) : Option Nat :=
  if key.length < p.key_length then some size_t_max
  else
    let value := ReadBigEndianUint64 key
    if value < p.min_value ∨ value > p.max_value then some size_t_max
    else
      let pos := select0 p.rank_select (value - p.min_value)
      let count := one_seq_revlen p.rank_select pos
      if count = 0 then some size_t_max else none

/-- `DictRank(key, nullptr, ctx)`: the returns before the last line are
`max_rank1()` and `id + 1`; `none` is the call `suffix->LowerBound` of the last
line through the null pointer. -/
def DictRankNullSuffix (p : CompositeIndexNonDescendingUintPrefix) (key : fstring) :
    Option Nat :=
  let r := p.SeekImpl key 0 0
  let id := r.2.1
  if !r.1.1 then some (max_rank1 p.rank_select)
  else if key.length ≠ p.key_length ∨ !r.1.2 then some (add64 id 1)
  else none

end CompositeIndexNonDescendingUintPrefix

/-! ## Composite index -/

/-- The prefix part of a composite index. -/
inductive Prefix where
  | AscendingUint (p : CompositeIndexAscendingUintPrefix) : Prefix
  | NonDescendingUint (p : CompositeIndexNonDescendingUintPrefix) : Prefix
deriving DecidableEq

namespace Prefix

/-- `prefix_.KeyCount()`. -/
def KeyCount : Prefix → Nat
  | AscendingUint p => p.KeyCount
  | NonDescendingUint p => p.KeyCount

/-- Whether `prefix_.Find(key, suffix, ctx)` calls `suffix->LowerBound` through
a null pointer: only the non-descending prefix does, on the keys where
`FindNullSuffix` is `none`. -/
def FindDereferencesNull : Prefix → fstring → Option Suffix → Bool
  | NonDescendingUint p, key, none => (p.FindNullSuffix key).isNone
  | _, _, _ => false

/-- Whether `prefix_.DictRank(key, suffix, ctx)` calls `suffix->LowerBound`
through a null pointer. -/
def DictRankDereferencesNull : Prefix → fstring → Option Suffix → Bool
  | NonDescendingUint p, key, none => (p.DictRankNullSuffix key).isNone
  | _, _, _ => false

/-- `prefix_.Find(key, suffix, ctx)`: the value it returns. With a null
suffix pointer the non-descending prefix returns what `FindNullSuffix` says;
where `FindDereferencesNull` holds the source dereferences the null pointer and
returns nothing, and the value written here is `size_t_max`. -/
def Find : Prefix → fstring → Option Suffix → Nat
  | AscendingUint p, key, suffix => p.Find key suffix
  | NonDescendingUint p, key, some suffix => p.Find key suffix
  | NonDescendingUint p, key, none => (p.FindNullSuffix key).getD size_t_max

/-- `prefix_.DictRank(key, suffix, ctx)`: the value it returns. With a null
suffix pointer the non-descending prefix returns what `DictRankNullSuffix`
says; where `DictRankDereferencesNull` holds the source dereferences the null
pointer and returns nothing, and the value written here is `size_t_max`. -/
def DictRank : Prefix → fstring → Option Suffix → Nat
  | AscendingUint p, key, suffix => p.DictRank key suffix
  | NonDescendingUint p, key, some suffix => p.DictRank key suffix
  | NonDescendingUint p, key, none => (p.DictRankNullSuffix key).getD size_t_max

/-- `prefix().IterSeekToFirst(id, iter)`. -/
def IterSeekToFirst : Prefix → IteratorStorage → Bool × Nat × IteratorStorage
  | AscendingUint p, iter => p.IterSeekToFirst iter
  | NonDescendingUint p, iter => p.IterSeekToFirst iter

/-- `prefix().IterSeekToLast(id, iter)`. -/
def IterSeekToLast : Prefix → IteratorStorage → Bool × Nat × IteratorStorage
  | AscendingUint p, iter => p.IterSeekToLast iter
  | NonDescendingUint p, iter => p.IterSeekToLast iter

/-- `prefix().IterSeek(id, count, target, iter)`. -/
def IterSeek : Prefix → Nat → fstring → IteratorStorage → Bool × Nat × Nat × IteratorStorage
  | AscendingUint p, count, target, iter => p.IterSeek count target iter
  | NonDescendingUint p, count, target, iter => p.IterSeek count target iter

/-- `prefix().IterNext(id, count, iter)`. -/
def IterNext : Prefix → Nat → Nat → IteratorStorage → Bool × Nat × IteratorStorage
  | AscendingUint p, id, count, iter => p.IterNext id count iter
  | NonDescendingUint p, id, count, iter => p.IterNext id count iter

/-- `prefix().IterPrev(id, iter)`. -/
def IterPrev : Prefix → Nat → IteratorStorage → Bool × Nat × IteratorStorage
  | AscendingUint p, id, iter => p.IterPrev id iter
  | NonDescendingUint p, id, iter => p.IterPrev id iter

/-- `prefix().IterDictRank(id, iter)`. -/
def IterDictRank : Prefix → Nat → Nat
  | AscendingUint p, id => p.IterDictRank id
  | NonDescendingUint p, id => p.IterDictRank id

/-- `prefix().IterGetKey(id, iter)`. -/
def IterGetKey : Prefix → IteratorStorage → fstring
  | AscendingUint p, iter => p.IterGetKey iter
  | NonDescendingUint p, iter => p.IterGetKey iter

end Prefix

/-- The parts of `CompositeIndex<Prefix, Suffix>`. -/
structure CompositeIndex where
  common_ : fstring
  prefix_ : Prefix
  suffix_ : Suffix
deriving DecidableEq

namespace CompositeIndex

/-- The suffix pointer handed to the prefix:
`suffix_.TotalKeySize() != 0 ? &suffix_ : nullptr`. -/
def suffixArg (idx : CompositeIndex) : Option Suffix :=
  if idx.suffix_.TotalKeySize ≠ 0 then some idx.suffix_ else none

/-- `NumKeys()`. -/
def NumKeys (idx : CompositeIndex) : Nat :=
  idx.prefix_.KeyCount

/-- `CompositeIndex::Find(key, ctx)`. -/
def Find (idx : CompositeIndex) (key : fstring) : Nat :=
  if commonPrefixLen key idx.common_ ≠ idx.common_.length then size_t_max
  else idx.prefix_.Find (key.drop idx.common_.length) idx.suffixArg

/-- `CompositeIndex::DictRank(key, ctx)`. -/
def DictRank (idx : CompositeIndex) (key : fstring) : Nat :=
  let cplen := commonPrefixLen key idx.common_
  if cplen ≠ idx.common_.length then
    if key.length = cplen ∨ key.getD cplen 0 < idx.common_.getD cplen 0 then 0
    else idx.NumKeys
  else idx.prefix_.DictRank (key.drop idx.common_.length) idx.suffixArg

end CompositeIndex

/-- The state of a `CompositeIndexIterator`: `m_id` and the prefix storage
(the storage of the two suffixes modelled here is `void`). -/
structure CompositeIndexIterator where
  m_id : Nat
  prefix_storage : IteratorStorage
deriving DecidableEq

namespace CompositeIndexIterator

/-- `SeekToFirst()`. -/
def SeekToFirst (idx : CompositeIndex) (it : CompositeIndexIterator) :
    Bool × CompositeIndexIterator :=
  let r := idx.prefix_.IterSeekToFirst it.prefix_storage
  (r.1, ⟨r.2.1, r.2.2⟩)

/-- `SeekToLast()`. -/
def SeekToLast (idx : CompositeIndex) (it : CompositeIndexIterator) :
    Bool × CompositeIndexIterator :=
  let r := idx.prefix_.IterSeekToLast it.prefix_storage
  (r.1, ⟨r.2.1, r.2.2⟩)

/-- `Seek(target)`. The local `suffix_count` is declared without a value in the
source and is only written by some paths of the prefix seek; `suffix_count₀` is
the value it holds before the call. -/
def Seek (idx : CompositeIndex) (it : CompositeIndexIterator) (target : fstring)
    (suffix_count₀ : Nat) : Bool × CompositeIndexIterator :=
  let cplen := commonPrefixLen target idx.common_
  if cplen ≠ idx.common_.length then
    if target.length = cplen ∨ target.getD cplen 0 < idx.common_.getD cplen 0 then
      SeekToFirst idx it
    else (false, { it with m_id := size_t_max })
  else
    let target := target.drop cplen
    let r := idx.prefix_.IterSeek suffix_count₀ target it.prefix_storage
    let m_id := r.2.1
    let suffix_count := r.2.2.1
    let storage := r.2.2.2
    if !r.1 then (false, ⟨m_id, storage⟩)
    else
      let prefix_key := idx.prefix_.IterGetKey storage
      if prefix_key.length ≠ target.length then (true, ⟨m_id, storage⟩)
      else
        let target := target.drop prefix_key.length
        let s := idx.suffix_.IterSeek target m_id suffix_count
        if s.1 then
          let suffix_id := s.2
          if suffix_id > m_id then
            let n := idx.prefix_.IterNext m_id (sub64 suffix_id m_id) storage
            (n.1, ⟨n.2.1, n.2.2⟩)
          else (true, ⟨m_id, storage⟩)
        else
          let n := idx.prefix_.IterNext m_id suffix_count storage
          (n.1, ⟨n.2.1, n.2.2⟩)

/-- `Next()`. -/
def Next (idx : CompositeIndex) (it : CompositeIndexIterator) : Bool × CompositeIndexIterator :=
  let r := idx.prefix_.IterNext it.m_id 1 it.prefix_storage
  if r.1 then (true, ⟨r.2.1, r.2.2⟩) else (false, ⟨size_t_max, r.2.2⟩)

/-- `Prev()`. -/
def Prev (idx : CompositeIndex) (it : CompositeIndexIterator) : Bool × CompositeIndexIterator :=
  let r := idx.prefix_.IterPrev it.m_id it.prefix_storage
  if r.1 then (true, ⟨r.2.1, r.2.2⟩) else (false, ⟨size_t_max, r.2.2⟩)

/-- `DictRank()` of the cursor. -/
def DictRank (idx : CompositeIndex) (it : CompositeIndexIterator) : Nat :=
  idx.prefix_.IterDictRank it.m_id

/-- `key()`: common, then the prefix key, then the suffix key. -/
def key (idx : CompositeIndex) (it : CompositeIndexIterator) : fstring :=
  idx.common_ ++ idx.prefix_.IterGetKey it.prefix_storage ++ idx.suffix_.IterGetKey it.m_id

end CompositeIndexIterator

/-! ## Specification-side definitions

What the claims talk about: the keys an index stores, their order, the number
of keys below a target, and the concrete indexes of the scenarios. -/

/-- The positions of the one bits of a bitmap, in ascending order. -/
def onePositions (rs : List Bool) : List Nat :=
  (List.range rs.length).filter (fun i => rs_get rs i)

/-- The heads stored by an ascending prefix, in ascending order: `h` is stored
exactly when the bit at `h - min_value` is set. -/
def CompositeIndexAscendingUintPrefix.storedHeads (p : CompositeIndexAscendingUintPrefix) :
    List Nat :=
  (onePositions p.rank_select).map (fun pos => pos + p.min_value)

/-- The keys stored by the composite of the common prefix `c`, the ascending
prefix `p` and the empty suffix: `c ++ bigEndian_L(h)` for the stored heads
`h`, in ascending order of `h`. -/
def CompositeIndexAscendingUintPrefix.storedKeys (c : fstring)
    (p : CompositeIndexAscendingUintPrefix) : List fstring :=
  p.storedHeads.map (fun h => c ++ beBytes p.key_length h)

/-- An ascending prefix as the builder leaves it: `key_length` in `1..8`, heads
that fit in `key_length` bytes, a bitmap over `[min_value, max_value]` whose
size is a `size_t`, with its first and last bit set. -/
structure CompositeIndexAscendingUintPrefix.WellFormed (p : CompositeIndexAscendingUintPrefix) :
    Prop where
  key_length_pos : 1 ≤ p.key_length
  key_length_le : p.key_length ≤ 8
  max_lt : p.max_value < 256 ^ p.key_length
  min_le_max : p.min_value ≤ p.max_value
  size_eq : p.rank_select.length = p.max_value - p.min_value + 1
  size_lt : p.rank_select.length < 2 ^ 64
  first_set : rs_get p.rank_select 0 = true
  last_set : rs_get p.rank_select (p.max_value - p.min_value) = true

/-- The value both `SeekImpl` compare with: the first `L` bytes of the target,
padded with zero bytes on the right up to `L` bytes, read big-endian. -/
def seekValue (L : Nat) (t : fstring) : Nat :=
  beValue (t.take L ++ List.replicate (L - t.length) 0)

/-- The number of stored heads whose key is smaller than the (common-stripped)
target `t`, read off the bitmap. -/
def CompositeIndexAscendingUintPrefix.targetRank (p : CompositeIndexAscendingUintPrefix)
    (t : fstring) : Nat :=
  rank1 p.rank_select
    ((if t.length ≤ p.key_length then seekValue p.key_length t
      else seekValue p.key_length t + 1) - p.min_value)

/-- The cursor of an ascending prefix stands on a stored key: the bit at `pos`
is set, its rank is `m_id`, and the key buffer holds the head at `pos`. -/
def CompositeIndexAscendingUintPrefix.OnKey (p : CompositeIndexAscendingUintPrefix)
    (it : CompositeIndexIterator) : Prop :=
  rs_get p.rank_select it.prefix_storage.pos = true ∧
    rank1 p.rank_select it.prefix_storage.pos = it.m_id ∧
    p.IterGetKey it.prefix_storage = beBytes p.key_length (it.prefix_storage.pos + p.min_value)

/-- The number of keys of a list that are lexicographically smaller than
`target`. -/
def countLess (keys : List fstring) (target : fstring) : Nat :=
  keys.countP (fun k => fstring_lt k target)

/-- The composite index made of a common prefix, an ascending uint prefix and
the empty suffix. -/
abbrev ascendingEmptyIndex (c : fstring) (p : CompositeIndexAscendingUintPrefix) :
    CompositeIndex :=
  ⟨c, .AscendingUint p, .Empty⟩

namespace CompositeIndexIterator

/-- The cursor after `n` further calls of `Next()`. -/
def NextN (idx : CompositeIndex) : Nat → CompositeIndexIterator → CompositeIndexIterator
  | 0, it => it
  | n + 1, it => (Next idx (NextN idx n it)).2

end CompositeIndexIterator

/-- The bitmap of a non-descending prefix as the spec encodes it: for each head
in order, `head - previous head` zeros then a one (the first head is measured
from `last`), and one closing zero. -/
def nonDescendingBitmap : Nat → List Nat → List Bool
  | _, [] => [false]
  | last, head :: heads =>
    List.replicate (head - last) false ++ true :: nonDescendingBitmap head heads

/-- Scenario S1, the prefix: the 16 heads `1 .. 16` of length 4. -/
def scenarioS1Prefix : CompositeIndexAscendingUintPrefix :=
  ⟨List.replicate 16 true, 4, 1, 16⟩

/-- Scenario S1: the keys `be4(1) .. be4(16)`, no common prefix, empty suffix. -/
def scenarioS1 : CompositeIndex :=
  ascendingEmptyIndex [] scenarioS1Prefix

/-- An ascending prefix with a gap: the heads `1` and `3` of length 1. -/
def gapPrefix : CompositeIndexAscendingUintPrefix :=
  ⟨[true, false, true], 1, 1, 3⟩

/-- The index of the keys `[1]` and `[3]`. -/
def gapIndex : CompositeIndex :=
  ascendingEmptyIndex [] gapPrefix

/-- Scenario S3: the keys "AAAx", "AAAy", "AABa" with `key_length` 3: a
non-descending prefix over the heads "AAA", "AAA", "AAB" and a fixed-length
suffix holding the tails "x", "y", "a". -/
def scenarioS3 : CompositeIndex :=
  ⟨[], .NonDescendingUint ⟨[true, true, false, true, false], 3, 0x414141, 0x414142⟩,
    .FixedString [[120], [121], [97]]⟩

/-- The keys "Ax" and "By" with `key_length` 1: an ascending prefix over the
distinct heads "A", "B" and a fixed-length suffix holding the tails "x", "y". -/
def ascendingSuffixIndex : CompositeIndex :=
  ⟨[], .AscendingUint ⟨[true, true], 1, 0x41, 0x42⟩, .FixedString [[120], [121]]⟩

/-- A cursor before its first seek: `m_id = size_t(-1)`, a zeroed buffer. -/
def freshIterator : CompositeIndexIterator :=
  ⟨size_t_max, ⟨List.replicate 8 0, 0⟩⟩

/-! ## Build planner -/

/-- Multiplication of two `size_t` values (wraps at `2^64`). -/
def mul64 (a b : Nat) : Nat := (a * b) % 2 ^ 64

/-- Modelled from the spec: the fields of `TerarkIndex::KeyStat` (declared in
`terark_zip_index.h`, not under src/) that `Build` reads. `prefix_m_cnt_sum`
and `prefix_m_total_key_len` are `ks.prefix.m_cnt_sum` (the number of keys) and
`ks.prefix.m_total_key_len`; `diff` lists the `(len, cnt)` pairs that
`ks.diff.for_each` visits. -/
structure KeyStat where
  commonPrefixLen : Nat
  minKeyLen : Nat
  maxKeyLen : Nat
  sumKeyLen : Nat
  minSuffixLen : Nat
  maxSuffixLen : Nat
  minKey : fstring
  maxKey : fstring
  prefix_m_cnt_sum : Nat
  prefix_m_total_key_len : Nat
  diff : List (Nat × Nat)
deriving DecidableEq

/-- The enumeration `UintPrefixBuildInfo::type`. -/
inductive UintPrefixType where
  | fail
  | asc_allone
  | asc_few_zero_32
  | asc_few_zero_64
  | asc_il_256
  | asc_se_512
  | asc_few_one_32
  | asc_few_one_64
  | non_desc_il_256
  | non_desc_se_512
  | non_desc_few_one_32
  | non_desc_few_one_64
deriving DecidableEq

/-- The struct `CompositeIndexFactoryBase::UintPrefixBuildInfo`. -/
structure UintPrefixBuildInfo where
  key_length : Nat
  key_count : Nat
  entry_count : Nat
  bit_count0 : Nat
  bit_count1 : Nat
  min_value : Nat
  max_value : Nat
  type : UintPrefixType
deriving DecidableEq

namespace getFixedPrefixLength

/-- The initial `result`: `{0, 0, 0, 0, 0, 0, 0, UintPrefixBuildInfo::fail}`. -/
def failInfo : UintPrefixBuildInfo :=
  ⟨0, 0, 0, 0, 0, 0, 0, .fail⟩

/-- `maxPrefixLen = std::min<size_t>(8, ks.minKeyLen - cplen)`. -/
def maxPrefixLen (ks : KeyStat) (cplen : Nat) : Nat :=
  min 8 (sub64 ks.minKeyLen cplen)

/-- `totalKeySize = ks.sumKeyLen - keyCount * cplen`. -/
def totalKeySize (ks : KeyStat) (cplen : Nat) : Nat :=
  sub64 ks.sumKeyLen (mul64 ks.prefix_m_cnt_sum cplen)

/-- The initial `bestCost`, the no-prefix baseline: `totalKeySize`, plus
`keyCount` when `ks.minKeyLen != ks.maxKeyLen`. -/
def bestCost₀ (ks : KeyStat) (cplen : Nat) : Nat :=
  if ks.minKeyLen ≠ ks.maxKeyLen then add64 (totalKeySize ks cplen) ks.prefix_m_cnt_sum
  else totalKeySize ks cplen

/-- `targetCost = bestCost * 10 / 6`. -/
def targetCost (ks : KeyStat) (cplen : Nat) : Nat :=
  mul64 (bestCost₀ ks cplen) 10 / 6

/-- `entryCnt[k]` after the two loops over it: `keyCount` minus the sum of the
`cnt` of the histogram entries with `len > cplen + k`. -/
def entryCnt (ks : KeyStat) (cplen k : Nat) : Nat :=
  sub64 ks.prefix_m_cnt_sum
    (ks.diff.foldl (fun acc e => if e.1 > add64 cplen k then add64 acc e.2 else acc) 0)

/-- The fields of `info` that the loop body sets before it chooses a type
(lines 2392-2414), for the head length `i`; `type` is not yet set. -/
def candidateInfo (ks : KeyStat) (cplen i : Nat) : UintPrefixBuildInfo :=
  let keyCount := ks.prefix_m_cnt_sum
  let min_value := ReadBigEndianUint64 ((ks.minKey.drop cplen).take i)
  let max_value := ReadBigEndianUint64 ((ks.maxKey.drop cplen).take i)
  let lo := if min_value > max_value then max_value else min_value
  let hi := if min_value > max_value then min_value else max_value
  let diff := hi - lo
  let entry_count := entryCnt ks cplen (i - 1)
  let bit_count0 :=
    if entry_count = keyCount then add64 (sub64 diff keyCount) 1
    else if add64 keyCount 1 > size_t_max - diff then size_t_max
    else add64 (add64 diff keyCount) 1
  ⟨i, keyCount, entry_count, bit_count0, keyCount, lo, hi, .fail⟩

/-- `fewCount = info.bit_count0 / 100 + info.bit_count1 / 100`. -/
def fewCount (info : UintPrefixBuildInfo) : Nat :=
  add64 (info.bit_count0 / 100) (info.bit_count1 / 100)

/-- The choice of `info.type` and `prefixCost` (lines 2415-2458); `none` is
`continue`, the candidate is skipped. -/
def classify (info : UintPrefixBuildInfo) (keyCount : Nat) : Option (UintPrefixType × Nat) :=
  let diff := info.max_value - info.min_value
  if info.entry_count = diff then some (.asc_allone, 0)
  else if mul64 info.entry_count 2 < keyCount then none
  else if info.bit_count1 < fewCount info ∧ info.bit_count1 < 2 ^ 48 then
    if diff ≤ 2 ^ 32 - 1 then
      some (if info.entry_count = keyCount then .asc_few_one_32 else .non_desc_few_one_32,
        mul64 (mul64 info.bit_count1 4) 33 / 32)
    else
      some (if info.entry_count = keyCount then .asc_few_one_64 else .non_desc_few_one_64,
        mul64 (mul64 info.bit_count1 8) 33 / 32)
  else if info.bit_count0 < fewCount info ∧ info.bit_count0 < 2 ^ 48 then
    if diff ≤ 2 ^ 32 - 1 then some (.asc_few_zero_32, mul64 (mul64 info.bit_count0 4) 33 / 32)
    else some (.asc_few_zero_64, mul64 (mul64 info.bit_count0 8) 33 / 32)
  else if info.bit_count0 ≥ 2 ^ 56 ∨ info.bit_count1 ≥ 2 ^ 56 then none
  else
    let bit_count := add64 info.bit_count0 info.bit_count1
    some
      (if bit_count ≤ 2 ^ 32 - 1 then
          (if info.entry_count = keyCount then .asc_il_256 else .non_desc_il_256)
        else (if info.entry_count = keyCount then .asc_se_512 else .non_desc_se_512),
        mul64 bit_count 21 / 16)

/-- `suffixCost` for the head length `i`. -/
def suffixCost (ks : KeyStat) (cplen i : Nat) : Nat :=
  let c := sub64 (totalKeySize ks cplen) (mul64 i ks.prefix_m_cnt_sum)
  if ks.minSuffixLen ≠ ks.maxSuffixLen then add64 c ks.prefix_m_cnt_sum else c

/-- One pass of the loop body for the head length `i`: the candidate `info`
with its type and `currCost = prefixCost + suffixCost`, or `none` when the
body ends in `continue`. -/
def candidate (ks : KeyStat) (cplen i : Nat) : Option (UintPrefixBuildInfo × Nat) :=
  match classify (candidateInfo ks cplen i) ks.prefix_m_cnt_sum with
  | none => none
  | some (type, prefixCost) =>
    some ({ candidateInfo ks cplen i with type := type },
      add64 prefixCost (suffixCost ks cplen i))

/-- The end of the loop body: the candidate replaces `result` when
`currCost < bestCost && currCost < targetCost`. The state is
`(result, bestCost)`. -/
def step (ks : KeyStat) (cplen : Nat) (st : UintPrefixBuildInfo × Nat) (i : Nat) :
    UintPrefixBuildInfo × Nat :=
  match candidate ks cplen i with
  | none => st
  | some (info, currCost) =>
    if currCost < st.2 ∧ currCost < targetCost ks cplen then (info, currCost) else st

/-- The state `(result, bestCost)` after the passes `i = 1 .. n`. -/
def loop (ks : KeyStat) (cplen n : Nat) : UintPrefixBuildInfo × Nat :=
  (List.range' 1 n).foldl (step ks cplen) (failInfo, bestCost₀ ks cplen)

end getFixedPrefixLength

/-- The lambda `getFixedPrefixLength(ks, cplen)` of `Build`. -/
def getFixedPrefixLength (ks : KeyStat) (cplen : Nat) : UintPrefixBuildInfo :=
  (getFixedPrefixLength.loop ks cplen (getFixedPrefixLength.maxPrefixLen ks cplen)).1

/-- The rank/select classes the prefixes are instantiated with. -/
inductive RankSelectKind where
  | AllOne
  | IL_256_32
  | SE_512_64
  | FewOne32
  | FewOne64
  | FewZero32
  | FewZero64
deriving DecidableEq

/-- The trie classes `CompositeIndexNestLoudsTriePrefix` is instantiated with. -/
inductive TrieKind where
  | NestLoudsTrieDAWG_SE_512_64_FL
  | NestLoudsTrieDAWG_Mixed_XL_256_32_FL
  | MatchingDFA
deriving DecidableEq

/-- The `typeid(...).name()` of a prefix class. -/
inductive PrefixName where
  | AscendingUint (rs : RankSelectKind)
  | NonDescendingUint (rs : RankSelectKind)
  | NestLoudsTrie (trie : TrieKind)
deriving DecidableEq

/-- The `typeid(...).name()` of a suffix class. -/
inductive SuffixName where
  | Empty
  | FixedString
  | BlobStoreDictZip
deriving DecidableEq

/-- The suffix object a `Build*Suffix` call returns. -/
inductive SuffixObject where
  | Empty
  | BlobStoreDictZip
deriving DecidableEq

/-- `BuildEmptySuffix(name)`: the name it stores in `name` and the object. -/
def BuildEmptySuffix : SuffixName × SuffixObject :=
  (.Empty, .Empty)

/-- `BuildBlobStoreSuffix(input, numKeys, sumKeyLen, name)`: it stores
`typeid(CompositeIndexEmptySuffix).name()` in `name` and returns a
`CompositeIndexBlobStoreSuffix<DictZipBlobStore>`. -/
def BuildBlobStoreSuffix : SuffixName × SuffixObject :=
  (.Empty, .BlobStoreDictZip)

/-- `BuildFixedStringSuffix(...)`: `return BuildBlobStoreSuffix(...)`. -/
def BuildFixedStringSuffix : SuffixName × SuffixObject :=
  BuildBlobStoreSuffix

/-- The input adapters of `Build`. -/
inductive InputBufferKind where
  | Default
  | FixPrefix
  | FixPrefixRemaining
  | FixSuffixPrefix
  | FixSuffix
  | MinimizePrefix
  | MinimizePrefixRemaining
deriving DecidableEq

/-- What `Build` assembles before it looks the factory up: the adapter and
class of the prefix, then the adapter (none for `BuildEmptySuffix`), the name
and the object of the suffix. -/
structure BuildParts where
  prefixInput : InputBufferKind
  prefixName : PrefixName
  suffixInput : Option InputBufferKind
  suffixName : SuffixName
  suffixObject : SuffixObject
deriving DecidableEq

namespace CompositeIndexFactoryBase

/-- The prefix class the first `switch` of `Build` instantiates (keys that
are all `cplen + key_length` long); `none` is `assert(false); return nullptr`. -/
def fullKeyPrefixName : UintPrefixType → Option PrefixName
  | .asc_few_zero_32 => some (.AscendingUint .FewZero32)
  | .asc_few_zero_64 => some (.AscendingUint .FewZero64)
  | .asc_allone => some (.AscendingUint .AllOne)
  | .asc_il_256 => some (.AscendingUint .IL_256_32)
  | .asc_se_512 => some (.AscendingUint .SE_512_64)
  | .asc_few_one_32 => some (.AscendingUint .FewOne32)
  | .asc_few_one_64 => some (.AscendingUint .FewOne64)
  | _ => none

/-- The prefix class the second `switch` of `Build` instantiates; `none` is
`assert(false); return nullptr`. -/
def splitPrefixName : UintPrefixType → Option PrefixName
  | .asc_few_zero_32 => some (.AscendingUint .FewZero32)
  | .asc_few_zero_64 => some (.AscendingUint .FewZero64)
  | .asc_allone => some (.AscendingUint .AllOne)
  | .asc_il_256 => some (.AscendingUint .IL_256_32)
  | .asc_se_512 => some (.AscendingUint .SE_512_64)
  | .asc_few_one_32 => some (.AscendingUint .FewOne32)
  | .asc_few_one_64 => some (.AscendingUint .FewOne64)
  | .non_desc_il_256 => some (.NonDescendingUint .IL_256_32)
  | .non_desc_se_512 => some (.NonDescendingUint .SE_512_64)
  | .non_desc_few_one_32 => some (.NonDescendingUint .FewOne32)
  | .non_desc_few_one_64 => some (.NonDescendingUint .FewOne64)
  | .fail => none

/-- The part of `Build` that picks the prefix and the suffix (lines
2361-2631); `none` is `return nullptr`. -/
def Build (ks : KeyStat) : Option BuildParts :=
  let cplen := commonPrefixLen ks.minKey ks.maxKey
  let uint_prefix_info := getFixedPrefixLength ks cplen
  if uint_prefix_info.key_length > 0 then
    if ks.minKeyLen = ks.maxKeyLen ∧ ks.maxKeyLen = add64 cplen uint_prefix_info.key_length then
      match fullKeyPrefixName uint_prefix_info.type with
      | none => none
      | some name => some ⟨.Default, name, none, BuildEmptySuffix.1, BuildEmptySuffix.2⟩
    else
      match splitPrefixName uint_prefix_info.type with
      | none => none
      | some name =>
        if ks.minKeyLen = ks.maxKeyLen then
          some ⟨.FixPrefix, name, some .FixPrefixRemaining,
            BuildFixedStringSuffix.1, BuildFixedStringSuffix.2⟩
        else
          some ⟨.FixPrefix, name, some .FixPrefixRemaining,
            BuildBlobStoreSuffix.1, BuildBlobStoreSuffix.2⟩
  else if sub64 ks.sumKeyLen (mul64 ks.minSuffixLen ks.prefix_m_cnt_sum) <
      mul64 ks.prefix_m_total_key_len 5 / 4 then
    some ⟨.FixSuffixPrefix, .NestLoudsTrie .NestLoudsTrieDAWG_SE_512_64_FL, some .FixSuffix,
      BuildFixedStringSuffix.1, BuildFixedStringSuffix.2⟩
  else if ks.prefix_m_total_key_len < mul64 ks.sumKeyLen 31 / 32 then
    if ks.minSuffixLen = ks.maxSuffixLen then
      some ⟨.MinimizePrefix, .NestLoudsTrie .NestLoudsTrieDAWG_SE_512_64_FL,
        some .MinimizePrefixRemaining, BuildFixedStringSuffix.1, BuildFixedStringSuffix.2⟩
    else
      some ⟨.MinimizePrefix, .NestLoudsTrie .NestLoudsTrieDAWG_SE_512_64_FL,
        some .MinimizePrefixRemaining, BuildBlobStoreSuffix.1, BuildBlobStoreSuffix.2⟩
  else
    some ⟨.Default, .NestLoudsTrie .NestLoudsTrieDAWG_SE_512_64_FL, none,
      BuildEmptySuffix.1, BuildEmptySuffix.2⟩

/-- The combinations entered in `g_TerarkIndexCombin` by the
`RegisterCompositeIndex` lines at the end of the file (`CombinName()` is the
prefix class name followed by the suffix class name). -/
def g_TerarkIndexCombin : List (PrefixName × SuffixName) :=
  [(.AscendingUint .IL_256_32, .Empty),
   (.NonDescendingUint .FewZero32, .FixedString),
   (.NestLoudsTrie .NestLoudsTrieDAWG_Mixed_XL_256_32_FL, .Empty),
   (.NestLoudsTrie .MatchingDFA, .BlobStoreDictZip)]

/-- `GetFactoryByCombinName(name)`: the registered combination, `none` for
`NULL`. -/
def GetFactoryByCombinName (combin : PrefixName × SuffixName) :
    Option (PrefixName × SuffixName) :=
  g_TerarkIndexCombin.find? (fun f => f = combin)

/-- `Build`, up to the factory lookup: `none` when `Build` returns `nullptr`
from a `switch`, or when `GetFactoryByCombinName(combin)` is `NULL` (the source
then calls `CreateIndex` through the null pointer); otherwise the factory that
creates the index. -/
def BuildFactory (ks : KeyStat) : Option (PrefixName × SuffixName) :=
  match Build ks with
  | none => none
  | some parts => GetFactoryByCombinName (parts.prefixName, parts.suffixName)

end CompositeIndexFactoryBase

namespace UintPrefixType

/-- The plan is one of the four `few_one` types. -/
def isFewOne : UintPrefixType → Bool
  | asc_few_one_32 => true
  | asc_few_one_64 => true
  | non_desc_few_one_32 => true
  | non_desc_few_one_64 => true
  | _ => false

end UintPrefixType

/-! ## Persistence -/

namespace CompositeIndexFactoryBase

/-- The virtual `SaveMmap(common, prefix, suffix, write)` of the factory base,
which no composite factory overrides: its body is `// TODO`, so `write` is
never called. The result is the list of the blocks passed to `write`. -/
def SaveMmap (_common : fstring) (_prefix_ : Prefix) (_suffix : Suffix) : List fstring :=
  []

/-- `CompositeIndexFactoryBase::LoadMemory(mem)`: `// TODO; return nullptr;`. -/
def LoadMemory (_mem : fstring) : Option CompositeIndex :=
  none

end CompositeIndexFactoryBase

/-- `CompositeIndex::SaveMmap(write)`: `factory_->SaveMmap(this, write)`. -/
def CompositeIndex.SaveMmap (idx : CompositeIndex) : List fstring :=
  CompositeIndexFactoryBase.SaveMmap idx.common_ idx.prefix_ idx.suffix_

/-- The outcomes of `TerarkIndex::LoadMemory`: an index, a null pointer, the
exception `std::invalid_argument`, a call through a null pointer, a loop that
does not end, and a read of the header past the end of `mem`. -/
inductive LoadMemoryResult where
  | index (idx : CompositeIndex)
  | null
  | invalid_argument
  | null_dereference
  | no_return
  | out_of_bounds_read
deriving DecidableEq

namespace TerarkIndex

/-- `header->class_name` read as a C string: the bytes from offset 20 of the
header up to the first NUL. The read is bounded neither by the 60 byte member
nor by `mem.size()`; `none` when `mem` has no NUL from offset 20 on (an empty,
truncated or unterminated artifact), where the read runs past the end of
`mem`. -/
def headerClassName (mem : fstring) : Option fstring :=
  if (0 : byte_t) ∈ mem.drop 20 then some ((mem.drop 20).takeWhile (fun b => b ≠ 0))
  else none

/-- `header->file_size`: the 8 bytes at offset 96, little-endian; `none` when
`mem` ends before offset 104, where the read runs past the end of `mem`. -/
def headerFileSize (mem : fstring) : Option Nat :=
  if mem.length < 104 then none else some (beValue ((mem.drop 96).take 8).reverse)

/-- `TerarkIndex::LoadMemory(mem)`. `names` are the keys of
`g_TerarkIndexFactroy`; every factory registered in this file is a composite
factory, whose `LoadMemory` is `CompositeIndexFactoryBase::LoadMemory`. The
source does not look at `mem.size()` before it reads `header->class_name` or
`header->file_size`. The loop never moves `header`, so each pass loads the same
index again: it ends after one pass when `file_size ≥ mem.size()`, after
several when `0 < file_size`, and not at all when `file_size = 0`. -/
def LoadMemory (names : List fstring) (mem : fstring) : LoadMemoryResult :=
  match headerClassName mem with
  | none => .out_of_bounds_read
  | some class_name =>
    if class_name ∉ names then .invalid_argument
    else
      match CompositeIndexFactoryBase.LoadMemory mem with
      | none => .null_dereference
      | some idx =>
        match headerFileSize mem with
        | none => .out_of_bounds_read
        | some file_size =>
          if file_size ≥ mem.length then .index idx
          else if file_size = 0 then .no_return
          else .null

end TerarkIndex

/-- The no-overflow side conditions of the trie fallback of `Build`: the tails
split off fit in the keys, and the two products fit in 64 bits. -/
def KeyStat.FitsTrieChoice (ks : KeyStat) : Prop :=
  ks.minSuffixLen * ks.prefix_m_cnt_sum ≤ ks.sumKeyLen ∧
    ks.sumKeyLen * 31 < 2 ^ 64 ∧ ks.prefix_m_total_key_len * 5 < 2 ^ 64

/-- The statistics of scenario S1 (keys `be4(1) .. be4(16)`): the common prefix
of adjacent keys is 3 bytes for each of the 15 pairs. -/
def keyStatS1 : KeyStat :=
  ⟨0, 4, 4, 64, 0, 0, beBytes 4 1, beBytes 4 16, 16, 64, [(3, 15)]⟩

/-- The statistics of scenario S2 (keys `be8(100)`, `be8(1000000)`,
`be8(10000000000)`): adjacent keys share 5 and 3 bytes. -/
def keyStatS2 : KeyStat :=
  ⟨0, 8, 8, 24, 0, 0, beBytes 8 100, beBytes 8 10000000000, 3, 24, [(5, 1), (3, 1)]⟩

/-- The statistics of scenario S4 (keys "apple", "banana", "band", "bandage",
"cat"): adjacent keys share 0, 3, 4 and 0 bytes. -/
def keyStatS4 : KeyStat :=
  ⟨0, 3, 7, 25, 0, 0, [97, 112, 112, 108, 101], [99, 97, 116], 5, 25,
    [(0, 2), (3, 1), (4, 1)]⟩

/-- The statistics of the keys "Ax", "Ay", "Cz": the one-byte heads "A", "A",
"C" are not distinct. -/
def keyStatRepeatedHead : KeyStat :=
  ⟨0, 2, 2, 6, 1, 1, [65, 120], [67, 122], 3, 6, [(1, 1), (0, 1)]⟩

/-- The statistics of the two keys `[0, 0]` and `[1, 44]` (heads 0 and 300 of
length 2). -/
def keyStatTwoKeys : KeyStat :=
  ⟨0, 2, 2, 4, 0, 0, [0, 0], [1, 44], 2, 4, [(0, 1)]⟩

namespace getFixedPrefixLength

/-- The loop invariant of `getFixedPrefixLength` after the passes `1 .. n`:
either no candidate was accepted and none of them is below both the baseline
and the target cost, or `result` is the accepted candidate of head length
`result.key_length`, and its cost is `≤` the cost of every candidate seen and
`<` the cost of those with a shorter head. -/
def Inv (ks : KeyStat) (cplen n : Nat) (st : UintPrefixBuildInfo × Nat) : Prop :=
  (st = (failInfo, bestCost₀ ks cplen) ∧
    ∀ j info c, 1 ≤ j → j ≤ n → candidate ks cplen j = some (info, c) →
      ¬ (c < bestCost₀ ks cplen ∧ c < targetCost ks cplen)) ∨
  (1 ≤ st.1.key_length ∧ st.1.key_length ≤ n ∧
    candidate ks cplen st.1.key_length = some st ∧
    st.2 < targetCost ks cplen ∧ st.2 < bestCost₀ ks cplen ∧
    ∀ j info c, 1 ≤ j → j ≤ n → candidate ks cplen j = some (info, c) →
      st.2 ≤ c ∧ (j < st.1.key_length → st.2 < c))

end getFixedPrefixLength

/-! ## Header layout -/

/-- The members of `struct TerarkIndexHeader`. -/
inductive TerarkIndexHeader.Member where
  | magic_len
  | magic
  | class_name
  | reserved_80_4
  | header_size
  | version
  | reserved_92_4
  | file_size
  | reserved_102_24
deriving DecidableEq

namespace TerarkIndexHeader

/-- The declaration of `struct TerarkIndexHeader`: each member with the size
of its element type (`uint8_t` and `char` 1, `uint32_t` 4, `uint64_t` 8) and its
array length (1 for a scalar), in declaration order. -/
def members : List (Member × Nat × Nat) :=
  [(.magic_len, 1, 1), (.magic, 1, 19), (.class_name, 1, 60),
   (.reserved_80_4, 4, 1), (.header_size, 4, 1), (.version, 4, 1), (.reserved_92_4, 4, 1),
   (.file_size, 8, 1), (.reserved_102_24, 8, 1)]

/-- The next multiple of `align` at or after `offset`. -/
def alignUp (offset align : Nat) : Nat :=
  (offset + align - 1) / align * align

/-- Modelled from the spec: the layout rule of the C ABI. Each member is placed
at the next offset that is a multiple of the size of its element type; the
result lists each member with its offset and its size in bytes. -/
def layout : List (Member × Nat × Nat) → Nat → List (Member × Nat × Nat)
  | [], _ => []
  | (m, elem, count) :: rest, offset =>
    (m, alignUp offset elem, elem * count) ::
      layout rest (alignUp offset elem + elem * count)

/-- `offsetof(TerarkIndexHeader, m)`. -/
def offsetof (m : Member) : Nat :=
  (((layout members 0).find? (fun e => e.1 = m)).map (fun e => e.2.1)).getD 0

/-- `sizeof(header.m)`. -/
def memberSize (m : Member) : Nat :=
  (((layout members 0).find? (fun e => e.1 = m)).map (fun e => e.2.2)).getD 0

/-- `sizeof(TerarkIndexHeader)`: the end of the last member, rounded up to the
largest element size. -/
def sizeof : Nat :=
  alignUp (((layout members 0).map (fun e => e.2.1 + e.2.2)).foldl max 0)
    ((members.map (fun e => e.2.1)).foldl max 1)

end TerarkIndexHeader

/-! ## Input adapters and fills of Build -/

/-- The state of `CompositeIndexBlobStoreSuffix<BlobStoreType>`: the records of
`store_`. -/
structure CompositeIndexBlobStoreSuffix where
  store_ : List fstring
deriving DecidableEq

/-- The state of `MinimizePrefixInputBuffer`; `reader` holds the records not
yet read. -/
structure MinimizePrefixInputBuffer where
  reader : List fstring
  cplen : Nat
  count : Nat
  last : fstring
  buffer : fstring
  lastSamePrefix : Nat
deriving DecidableEq

/-- The state of `MinimizePrefixRemainingInputBuffer`, which has the same
members. -/
abbrev MinimizePrefixRemainingInputBuffer := MinimizePrefixInputBuffer

namespace CompositeIndexFactoryBase

/-- `DefaultInputBuffer::next()`: `reader >> buffer`, then the record without
its first `cplen` bytes. The state is the list of the records not yet read;
`none` is the exception of reading past the end. -/
def DefaultInputBuffer.next (cplen : Nat) : List fstring → Option (fstring × List fstring)
  | [] => none
  | buffer :: reader => some (buffer.drop cplen, reader)

/-- `FixPrefixInputBuffer::next()`: the bytes `[cplen, cplenPrefixSize)` of the
record. -/
def FixPrefixInputBuffer.next (cplen cplenPrefixSize : Nat) :
    List fstring → Option (fstring × List fstring)
  | [] => none
  | buffer :: reader => some ((buffer.take cplenPrefixSize).drop cplen, reader)

/-- `FixPrefixRemainingInputBuffer::next()`: the record from `cplenPrefixSize`
on. -/
def FixPrefixRemainingInputBuffer.next (cplenPrefixSize : Nat) :
    List fstring → Option (fstring × List fstring)
  | [] => none
  | buffer :: reader => some (buffer.drop cplenPrefixSize, reader)

/-- `FixSuffixPrefixInputBuffer::next()`:
`{ buffer.data() + cplen, buffer.size() - cplen - suffixSize }`. The length is
0 here when the record is shorter than `cplen + suffixSize` (the source then
passes a negative length). -/
def FixSuffixPrefixInputBuffer.next (cplen suffixSize : Nat) :
    List fstring → Option (fstring × List fstring)
  | [] => none
  | buffer :: reader =>
    some ((buffer.drop cplen).take (buffer.length - cplen - suffixSize), reader)

/-- `FixSuffixInputBuffer::next()`:
`{ buffer.data() + suffixSize, suffixSize }`. The slice ends with the record
here (the source reads on past `buffer.size()`). -/
def FixSuffixInputBuffer.next (suffixSize : Nat) :
    List fstring → Option (fstring × List fstring)
  | [] => none
  | buffer :: reader => some ((buffer.drop suffixSize).take suffixSize, reader)

/-- The constructor `MinimizePrefixInputBuffer(reader, cplen, keyCount,
maxKeyLen)`: it rewinds the reader and reads the first record into `last`. -/
def MinimizePrefixInputBuffer.new (reader : List fstring) (cplen keyCount : Nat) :
    Option MinimizePrefixInputBuffer :=
  match reader with
  | [] => none
  | last :: reader => some ⟨reader, cplen, keyCount, last, [], 0⟩

/-- The part that `MinimizePrefixInputBuffer::next()` and
`MinimizePrefixRemainingInputBuffer::next()` share: the pair of `maxSamePrefix`
and the new state. -/
def MinimizePrefixInputBuffer.advance (s : MinimizePrefixInputBuffer) :
    Option (Nat × MinimizePrefixInputBuffer) :=
  let count := sub64 s.count 1
  if count = 0 then
    some (add64 s.lastSamePrefix 1, { s with count := count })
  else
    match s.reader with
    | [] => none
    | buffer :: reader =>
      let samePrefix := commonPrefixLen buffer s.last
      some (add64 (max samePrefix s.lastSamePrefix) 1,
        { reader := reader, cplen := s.cplen, count := count, last := buffer,
          buffer := s.last, lastSamePrefix := samePrefix })

/-- `MinimizePrefixInputBuffer::next()`:
`{ last.data() + cplen, min(maxSamePrefix, last.size()) - cplen }`, read after
`last.swap(buffer)`. The length is 0 here when `min(...) < cplen`. -/
def MinimizePrefixInputBuffer.next (s : MinimizePrefixInputBuffer) :
    Option (fstring × MinimizePrefixInputBuffer) :=
  (MinimizePrefixInputBuffer.advance s).map fun r =>
    ((r.2.last.take (min r.1 r.2.last.length)).drop r.2.cplen, r.2)

/-- `MinimizePrefixRemainingInputBuffer::next()`:
`fstring(last).substr(min(maxSamePrefix, last.size()))`. -/
def MinimizePrefixRemainingInputBuffer.next (s : MinimizePrefixRemainingInputBuffer) :
    Option (fstring × MinimizePrefixRemainingInputBuffer) :=
  (MinimizePrefixInputBuffer.advance s).map fun r =>
    (r.2.last.drop (min r.1 r.2.last.length), r.2)

/-- `CompositeIndexFillKeyVector(input, keyVec, numKeys, sumKeyLen, isReverse)`
with `isReverse = false`: `keyVec` after `numKeys` calls of `input.next()`. -/
def CompositeIndexFillKeyVector {σ : Type} (next : σ → Option (fstring × σ)) :
    Nat → σ → Option (List fstring)
  | 0, _ => some []
  | numKeys + 1, input =>
    match next input with
    | none => none
    | some (key, input) =>
      (CompositeIndexFillKeyVector next numKeys input).map (fun keyVec => key :: keyVec)

/-- The local `keyVec` of `BuildBlobStoreSuffix(input, numKeys, sumKeyLen,
name)` when the function returns; it is not handed to the suffix. -/
def BuildBlobStoreSuffix.keyVec {σ : Type} (next : σ → Option (fstring × σ)) (input : σ)
    (numKeys : Nat) : Option (List fstring) :=
  CompositeIndexFillKeyVector next numKeys input

/-- The object `BuildBlobStoreSuffix(input, numKeys, sumKeyLen, name)` returns,
`new CompositeIndexBlobStoreSuffix<DictZipBlobStore>()`: a default-constructed
blob store, which holds no record. `none` when reading the input fails. -/
def BuildBlobStoreSuffix.object {σ : Type} (next : σ → Option (fstring × σ)) (input : σ)
    (numKeys : Nat) : Option CompositeIndexBlobStoreSuffix :=
  (BuildBlobStoreSuffix.keyVec next input numKeys).map (fun _ => ⟨[]⟩)

/-- The object `BuildFixedStringSuffix(input, numKeys, sumKeyLen, fixedLen,
name)` returns: `return BuildBlobStoreSuffix(input, numKeys, sumKeyLen, name)`;
the statements after it are not reached. -/
def BuildFixedStringSuffix.object {σ : Type} (next : σ → Option (fstring × σ)) (input : σ)
    (numKeys : Nat) : Option CompositeIndexBlobStoreSuffix :=
  BuildBlobStoreSuffix.object next input numKeys

end CompositeIndexFactoryBase

/-- `NonDescendingUintPrefixFillRankSelect(info, ks, rs, input)` for a bitmap
class: `rs` after `rs.resize(bit_count)` (all bits zero) and the loop, and the
final value of `pos`. `input` lists the values of the successive
`input.next()`; `rs.set1(pos)` past the end of the bitmap changes nothing
here. -/
def NonDescendingUintPrefixFillRankSelect (info : UintPrefixBuildInfo) (ks : KeyStat)
    (input : List fstring) : List Bool × Nat :=
  let bit_count := add64 info.bit_count0 info.bit_count1
  let rs := List.replicate bit_count false
  if ¬ fstring_lt ks.maxKey ks.minKey then
    let r := (input.take info.key_count).foldl
      (fun (st : List Bool × Nat × Nat) key =>
        let cur := ReadBigEndianUint64 key
        let pos := add64 st.2.1 (sub64 cur st.2.2)
        (st.1.set pos true, add64 pos 1, cur))
      (rs, 0, info.min_value)
    (r.1, r.2.1)
  else
    let r := (input.take info.key_count).foldl
      (fun (st : List Bool × Nat × Nat) key =>
        let cur := ReadBigEndianUint64 key
        let pos := sub64 (sub64 st.2.1 (sub64 st.2.2 cur)) 1
        (st.1.set pos true, pos, cur))
      (rs, sub64 bit_count 1, info.max_value)
    (r.1, r.2.1)

/-- The minimal discriminating prefix length of the `i`-th key as the spec
words it: `min(|k_i|, m_i + 1)`, `m_i` the larger of the common-prefix lengths
of `k_i` with `k_{i-1}` and with `k_{i+1}`, a missing neighbour counting 0. -/
def discriminatingLen (keys : List fstring) (i : Nat) : Nat :=
  let k := keys.getD i []
  let prev := if i = 0 then 0 else commonPrefixLen k (keys.getD (i - 1) [])
  let next := if i + 1 < keys.length then commonPrefixLen k (keys.getD (i + 1) []) else 0
  min k.length (max prev next + 1)

/-- The keys of scenario S4: "apple", "banana", "band", "bandage", "cat". -/
def keysS4 : List fstring :=
  [[97, 112, 112, 108, 101], [98, 97, 110, 97, 110, 97], [98, 97, 110, 100],
   [98, 97, 110, 100, 97, 103, 101], [99, 97, 116]]

/-- Four keys of 3 bytes with the distinct 2-byte heads `00 FE`, `00 FF`,
`01 00`, `01 01` and the tails "x", "y", "z", "w". -/
def keysFixedTails : List fstring :=
  [[0, 254, 120], [0, 255, 121], [1, 0, 122], [1, 1, 119]]

/-- The statistics of `keysFixedTails`: adjacent keys share 1, 0 and 1 bytes;
the minimal discriminating prefix of every key is 2 bytes long. -/
def keyStatFixedTails : KeyStat :=
  ⟨0, 3, 3, 12, 1, 1, [0, 254, 120], [1, 1, 119], 4, 8, [(1, 2), (0, 1)]⟩

/-- Eight keys of 4 and 5 bytes whose 4-byte heads come in pairs:
`00 FF FF FD`, `00 FF FF FE`, `00 FF FF FF`, `01 00 00 02`, each once alone and
once followed by the byte `01`. -/
def keysPairedHeads : List fstring :=
  [[0, 255, 255, 253], [0, 255, 255, 253, 1], [0, 255, 255, 254], [0, 255, 255, 254, 1],
   [0, 255, 255, 255], [0, 255, 255, 255, 1], [1, 0, 0, 2], [1, 0, 0, 2, 1]]

/-- The statistics of `keysPairedHeads`: adjacent keys share 4, 3, 4, 3, 4, 0
and 4 bytes; every key is its own minimal discriminating prefix. -/
def keyStatPairedHeads : KeyStat :=
  ⟨0, 4, 5, 36, 0, 0, [0, 255, 255, 253], [1, 0, 0, 2, 1], 8, 36, [(4, 4), (3, 2), (0, 1)]⟩

/-- Six keys of 8 and 9 bytes whose 8-byte heads span the whole 64-bit range:
`00^8`, `00^8 01`, `00^7 01`, `00^7 02`, `FF^8`, `FF^8 00`. -/
def keysFullRange : List fstring :=
  [List.replicate 8 0, List.replicate 8 0 ++ [1], List.replicate 7 0 ++ [1],
   List.replicate 7 0 ++ [2], List.replicate 8 255, List.replicate 8 255 ++ [0]]

/-- The statistics of `keysFullRange`: adjacent keys share 8, 7, 7, 0 and 8
bytes; every key is its own minimal discriminating prefix. -/
def keyStatFullRange : KeyStat :=
  ⟨0, 8, 9, 50, 0, 0, List.replicate 8 0, List.replicate 8 255 ++ [0], 6, 50,
    [(8, 2), (7, 2), (0, 1)]⟩

/-- The statistics of the `2^31` four-byte keys `be4(0), be4(2), ...,
be4(2^32 - 4), be4(2^32 - 1)`: adjacent keys share 3, 2, 1 or 0 bytes. -/
def keyStatDense32 : KeyStat :=
  ⟨0, 4, 4, 2 ^ 33, 0, 0, beBytes 4 0, beBytes 4 (2 ^ 32 - 1), 2 ^ 31, 2 ^ 33,
    [(3, 2 ^ 31 - 2 ^ 24), (2, 2 ^ 24 - 2 ^ 16), (1, 2 ^ 16 - 2 ^ 8), (0, 2 ^ 8 - 1)]⟩

namespace UintPrefixType

/-- The plan is one of the two `il_256` types. -/
def isIL256 : UintPrefixType → Bool
  | asc_il_256 => true
  | non_desc_il_256 => true
  | _ => false

/-- The plan is one of the two `se_512` types. -/
def isSE512 : UintPrefixType → Bool
  | asc_se_512 => true
  | non_desc_se_512 => true
  | _ => false

/-- The plan is one of the two `few_zero` types. -/
def isFewZero : UintPrefixType → Bool
  | asc_few_zero_32 => true
  | asc_few_zero_64 => true
  | _ => false

/-- The plan is one of the four `non_desc` types. -/
def isNonDesc : UintPrefixType → Bool
  | non_desc_il_256 => true
  | non_desc_se_512 => true
  | non_desc_few_one_32 => true
  | non_desc_few_one_64 => true
  | _ => false

end UintPrefixType

/-! ## Trie prefix -/

/-- Modelled from the spec: the trie of `CompositeIndexNestLoudsTriePrefix`
(terark library) by its black-box contract, the sorted list of its distinct
heads; the id of a head is its position in that list. -/
structure CompositeIndexNestLoudsTriePrefix where
  heads : List fstring
deriving DecidableEq

namespace CompositeIndexNestLoudsTriePrefix

/-- Modelled from the spec: `iter->Seek(id, key)`, that is
`iter_.seek_lower_bound(key)` followed by `state_to_word_id`: the id of the
smallest head `≥ key`, `none` when every head is smaller. -/
def Seek (p : CompositeIndexNestLoudsTriePrefix) (key : fstring) : Option Nat :=
  if lower_bound p.heads key p.heads.length 0 = p.heads.length then none
  else some (lower_bound p.heads key p.heads.length 0)

/-- Modelled from the spec: `iter->GetKey(id)`, the head at the cursor. -/
def GetKey (p : CompositeIndexNestLoudsTriePrefix) (id : Nat) : fstring :=
  p.heads.getD id []

/-- Modelled from the spec: `dawg_->index(key)`, the id of `key` when it is a
head, `size_t(-1)` otherwise. -/
def index (p : CompositeIndexNestLoudsTriePrefix) (key : fstring) : Nat :=
  if key ∈ p.heads then p.heads.indexOf key else size_t_max

/-- `Find(key, suffix, ctx)`; `suffix = none` is the null pointer. -/
def Find (p : CompositeIndexNestLoudsTriePrefix) (key : fstring) (suffix : Option Suffix) :
    Nat :=
  match suffix with
  | none => p.index key
  | some suffix =>
    match p.Seek key with
    | none => size_t_max
    | some id =>
      let prefix_key := p.GetKey id
      if commonPrefixLen prefix_key key ≠ prefix_key.length then size_t_max
      else
        let key := key.drop prefix_key.length
        let r := suffix.LowerBound key id 1
        if r.1 ≠ id ∨ r.2 ≠ key then size_t_max else id

end CompositeIndexNestLoudsTriePrefix

/-- The trie over the heads "a", "b". -/
def trieAB : CompositeIndexNestLoudsTriePrefix :=
  ⟨[[97], [98]]⟩

/-! ## Cursors of the uint prefixes -/

/-- The cursor of a non-descending prefix stands on a stored key: the bit at
`pos` is set, its rank is `id`, and the key buffer holds the head at `pos`,
`rank0(pos) + min_value`. -/
def CompositeIndexNonDescendingUintPrefix.OnKey (p : CompositeIndexNonDescendingUintPrefix)
    (id : Nat) (iter : IteratorStorage) : Prop :=
  rs_get p.rank_select iter.pos = true ∧ rank1 p.rank_select iter.pos = id ∧
    p.IterGetKey iter = beBytes p.key_length (add64 (rank0 p.rank_select iter.pos) p.min_value)

/-- The cursor after `n` successive calls `IterNext(id, 1, iter)` of a
non-descending prefix; a failing call ends the sequence. -/
def CompositeIndexNonDescendingUintPrefix.IterNextTimes
    (p : CompositeIndexNonDescendingUintPrefix) :
    Nat → Nat → IteratorStorage → Bool × Nat × IteratorStorage
  | 0, id, iter => (true, id, iter)
  | n + 1, id, iter =>
    if (p.IterNext id 1 iter).1 = true then
      p.IterNextTimes n (p.IterNext id 1 iter).2.1 (p.IterNext id 1 iter).2.2
    else p.IterNext id 1 iter

/-- The order `prefix_key <= target` of `fstring`. -/
def fstring_le (a b : fstring) : Bool :=
  !fstring_lt b a

/-- The non-descending prefix of scenario S3: the heads "AAA", "AAA", "AAB". -/
def scenarioS3Prefix : CompositeIndexNonDescendingUintPrefix :=
  ⟨[true, true, false, true, false], 3, 0x414141, 0x414142⟩

/-! ## The AllOne build -/

/-- `AscendingUintPrefixFillRankSelect(info, ks, rs, input)` for
`rank_select_allone`: `rs.resize(info.max_value - info.min_value + 1)`; every
bit of a `rank_select_allone` is set. -/
def AscendingUintPrefixFillRankSelect.allone (info : UintPrefixBuildInfo) : List Bool :=
  List.replicate (add64 (sub64 info.max_value info.min_value) 1) true

/-- `BuildAscendingUintPrefix<rank_select_allone>(input, tzopt, ks, info,
ioption, name)`: the prefix it returns. -/
def CompositeIndexFactoryBase.BuildAscendingUintPrefix.allone (info : UintPrefixBuildInfo) :
    CompositeIndexAscendingUintPrefix :=
  ⟨AscendingUintPrefixFillRankSelect.allone info, info.key_length, info.min_value,
    info.max_value⟩

/-- The statistics of the three one-byte keys `[1]`, `[2]`, `[4]`. -/
def keyStatOneGap : KeyStat :=
  ⟨0, 1, 1, 3, 0, 0, [1], [4], 3, 3, [(0, 2)]⟩

/-! ## The planner without the target test -/

namespace getFixedPrefixLength

/-- The end of the loop body with the test `currCost < targetCost` removed: the
candidate replaces `result` when `currCost < bestCost`. -/
def stepWithoutTarget (ks : KeyStat) (cplen : Nat) (st : UintPrefixBuildInfo × Nat) (i : Nat) :
    UintPrefixBuildInfo × Nat :=
  match candidate ks cplen i with
  | none => st
  | some (info, currCost) => if currCost < st.2 then (info, currCost) else st

/-- The state `(result, bestCost)` after the passes `i = 1 .. n` of the loop
without the target test. -/
def loopWithoutTarget (ks : KeyStat) (cplen n : Nat) : UintPrefixBuildInfo × Nat :=
  (List.range' 1 n).foldl (stepWithoutTarget ks cplen) (failInfo, bestCost₀ ks cplen)

end getFixedPrefixLength

/-- The planner `getFixedPrefixLength(ks, cplen)` with the test
`currCost < targetCost` removed. -/
def getFixedPrefixLengthWithoutTarget (ks : KeyStat) (cplen : Nat) : UintPrefixBuildInfo :=
  (getFixedPrefixLength.loopWithoutTarget ks cplen
    (getFixedPrefixLength.maxPrefixLen ks cplen)).1

/-! ## Cursor storage -/

/-- `sizeof(CompositeIndexUintPrefixIteratorStorage<WithHint>)`: `buffer[8]` and
`pos`, 16 bytes, in the primary template; the specialisation for
`std::false_type`, which the bitmap classes without a hint of their own select,
adds the member `hint`, 24 bytes. -/
def CompositeIndexUintPrefixIteratorStorage.sizeof (withHintMember : Bool) : Nat :=
  if withHintMember then 24 else 16

namespace composite_index_detail.IteratorStorage

/-- `GetIteratorStorageSize(index)`, from the `IteratorStorageSize()` of the
prefix and of the suffix; `sizeof(size_t)` is 8. `AllocIteratorStorage_`
allocates that many bytes. -/
def GetIteratorStorageSize (prefixSize suffixSize : Nat) : Nat :=
  add64 (add64 0 (sub64 (add64 prefixSize 8) 1 / 8)) (sub64 (add64 suffixSize 8) 1 / 8)

/-- The byte offset of `suffix_storage_` from `prefix_storage_` that the
constructor of `IteratorStorage` computes. -/
def suffixStorageOffset (prefixSize : Nat) : Nat :=
  sub64 (add64 prefixSize 8) 1 / 8

end composite_index_detail.IteratorStorage

/-! ## Lemmas -/

theorem add64_eq {a b : Nat} (h : a + b < 2 ^ 64) : add64 a b = a + b := by
  unfold add64; exact Nat.mod_eq_of_lt h

theorem sub64_eq {a b : Nat} (hb : b ≤ a) (ha : a < 2 ^ 64) : sub64 a b = a - b := by
  unfold sub64
  have h1 : a % 2 ^ 64 = a := Nat.mod_eq_of_lt ha
  have h2 : b % 2 ^ 64 = b := Nat.mod_eq_of_lt (by omega)
  rw [h1, h2]
  omega

theorem beValue_append_singleton (l : fstring) (b : byte_t) :
    beValue (l ++ [b]) = beValue l * 256 + b.val := by
  simp [beValue, List.foldl_append]

theorem beValue_nil : beValue [] = 0 := rfl

theorem beBytes_length (n v : Nat) : (beBytes n v).length = n := by
  induction n generalizing v with
  | zero => rfl
  | succ n ih => simp [beBytes, ih]

theorem beValue_lt (l : fstring) : beValue l < 256 ^ l.length := by
  induction l using List.reverseRecOn with
  | nil => simp [beValue]
  | append_singleton l b ih =>
    rw [beValue_append_singleton, List.length_append, List.length_singleton, pow_succ]
    have := b.isLt
    omega

theorem beValue_beBytes (n v : Nat) : beValue (beBytes n v) = v % 256 ^ n := by
  induction n generalizing v with
  | zero => simp [beBytes, beValue, Nat.mod_one]
  | succ n ih =>
    simp only [beBytes, beValue_append_singleton, ih]
    rw [pow_succ, Nat.mul_comm (256 ^ n) 256, Nat.mod_mul]
    omega

theorem beValue_beBytes_of_lt {n v : Nat} (h : v < 256 ^ n) : beValue (beBytes n v) = v := by
  rw [beValue_beBytes, Nat.mod_eq_of_lt h]

theorem beBytes_beValue (l : fstring) : beBytes l.length (beValue l) = l := by
  induction l using List.reverseRecOn with
  | nil => rfl
  | append_singleton l b ih =>
    rw [beValue_append_singleton, List.length_append, List.length_singleton]
    simp only [beBytes]
    have hb := b.isLt
    have h1 : (beValue l * 256 + b.val) / 256 = beValue l := by omega
    have h2 : (beValue l * 256 + b.val) % 256 = b.val := by omega
    rw [h1, ih]
    congr 2
    exact Fin.ext h2

theorem beValue_cons (a : byte_t) (l : fstring) :
    beValue (a :: l) = a.val * 256 ^ l.length + beValue l := by
  induction l using List.reverseRecOn with
  | nil => simp [beValue]
  | append_singleton l b ih =>
    rw [← List.cons_append, beValue_append_singleton, ih, beValue_append_singleton,
      List.length_append, List.length_singleton, pow_succ]
    ring

theorem beValue_replicate_zero (k : Nat) : beValue (List.replicate k (0 : byte_t)) = 0 := by
  induction k with
  | zero => rfl
  | succ k ih => rw [List.replicate_succ, beValue_cons, ih]; simp

theorem beValue_append (l m : fstring) :
    beValue (l ++ m) = beValue l * 256 ^ m.length + beValue m := by
  induction l with
  | nil => simp [beValue_nil]
  | cons a l ih =>
    rw [List.cons_append, beValue_cons, ih, beValue_cons, List.length_append, pow_add]
    ring

theorem beValue_zeros_append (k : Nat) (l : fstring) :
    beValue (List.replicate k (0 : byte_t) ++ l) = beValue l := by
  rw [beValue_append, beValue_replicate_zero]; simp

/-! ### Rank and positions of the one bits -/

theorem rs_get_of_ge {rs : List Bool} {i : Nat} (h : rs.length ≤ i) : rs_get rs i = false := by
  simp [rs_get, List.getD, List.getElem?_eq_none h]

theorem rs_get_lt {rs : List Bool} {i : Nat} (h : rs_get rs i = true) : i < rs.length := by
  by_contra hc
  rw [rs_get_of_ge (by omega)] at h
  cases h

theorem rank1_succ (rs : List Bool) (i : Nat) :
    rank1 rs (i + 1) = rank1 rs i + (if rs_get rs i then 1 else 0) := by
  unfold rank1 rs_get
  rw [List.take_succ, List.count_append]
  cases h : rs[i]? with
  | none => simp [List.getD, h]
  | some b => cases b <;> simp [List.getD, h]

theorem rank1_mono (rs : List Bool) {i j : Nat} (h : i ≤ j) : rank1 rs i ≤ rank1 rs j := by
  induction j with
  | zero => have : i = 0 := by omega
            subst this; exact le_refl _
  | succ j ih =>
    rcases Nat.eq_or_lt_of_le h with h1 | h1
    · subst h1; exact le_refl _
    · have := ih (by omega)
      rw [rank1_succ]; omega

theorem rank1_length (rs : List Bool) : rank1 rs rs.length = max_rank1 rs := by
  simp [rank1, max_rank1]

theorem rank1_le_max (rs : List Bool) (i : Nat) : rank1 rs i ≤ max_rank1 rs := by
  unfold rank1 max_rank1
  exact List.Sublist.count_le (List.take_sublist i rs) true

theorem rank1_le (rs : List Bool) (i : Nat) : rank1 rs i ≤ i := by
  unfold rank1
  calc (rs.take i).count true ≤ (rs.take i).length := List.count_le_length _ _
    _ ≤ i := by simp [List.length_take]

theorem filter_range_length (rs : List Bool) (n : Nat) :
    ((List.range n).filter (fun i => rs_get rs i)).length = rank1 rs n := by
  induction n with
  | zero => simp [rank1]
  | succ n ih =>
    rw [List.range_succ, List.filter_append, List.length_append, ih, rank1_succ]
    cases h : rs_get rs n <;> simp [h]

theorem onePositions_length (rs : List Bool) : (onePositions rs).length = max_rank1 rs := by
  rw [onePositions, filter_range_length, rank1_length]

theorem onePositions_sorted (rs : List Bool) : (onePositions rs).Sorted (· < ·) :=
  (List.sorted_lt_range rs.length).filter _

theorem mem_onePositions {rs : List Bool} {pos : Nat} :
    pos ∈ onePositions rs ↔ rs_get rs pos = true := by
  unfold onePositions
  rw [List.mem_filter, List.mem_range]
  constructor
  · exact fun h => h.2
  · exact fun h => ⟨rs_get_lt h, h⟩

theorem onePositions_getElem?_rank1 {rs : List Bool} {pos : Nat} (h : rs_get rs pos = true) :
    (onePositions rs)[rank1 rs pos]? = some pos := by
  have hlt := rs_get_lt h
  unfold onePositions
  have hsplit : List.range rs.length =
      List.range pos ++ pos :: List.range' (pos + 1) (rs.length - (pos + 1)) := by
    have e : rs.length = (rs.length - (pos + 1) + 1) + pos := by omega
    rw [List.range_eq_range', List.range_eq_range']
    conv_lhs => rw [e, ← List.range'_append 0 pos (rs.length - (pos + 1) + 1) 1]
    simp [List.range'_succ]
  rw [hsplit, List.filter_append, List.filter_cons_of_pos (by simpa using h)]
  rw [← filter_range_length rs pos, List.getElem?_append_right (le_refl _)]
  simp

theorem onePositions_getElem?_iff {rs : List Bool} {i pos : Nat} :
    (onePositions rs)[i]? = some pos ↔ rs_get rs pos = true ∧ rank1 rs pos = i := by
  constructor
  · intro h
    have hmem : pos ∈ onePositions rs := List.getElem?_mem h
    have hget := mem_onePositions.1 hmem
    refine ⟨hget, ?_⟩
    have h2 := onePositions_getElem?_rank1 hget
    obtain ⟨hi, hi'⟩ := List.getElem?_eq_some.1 h
    obtain ⟨hj, hj'⟩ := List.getElem?_eq_some.1 h2
    exact ((onePositions_sorted rs).nodup.getElem_inj_iff).1 (hj'.trans hi'.symm)
  · rintro ⟨h, rfl⟩
    exact onePositions_getElem?_rank1 h

theorem pow256_le {L : Nat} (h : L ≤ 8) : 256 ^ L ≤ 2 ^ 64 :=
  calc 256 ^ L ≤ 256 ^ 8 := Nat.pow_le_pow_right (by decide) h
    _ = 2 ^ 64 := by norm_num

theorem commonPrefixLen_le_right (a b : fstring) : commonPrefixLen a b ≤ b.length := by
  induction a generalizing b with
  | nil => simp [commonPrefixLen]
  | cons x a ih =>
    cases b with
    | nil => simp [commonPrefixLen]
    | cons y b =>
      simp only [commonPrefixLen]
      split
      · simpa using ih b
      · simp

theorem commonPrefixLen_append_left (c r : fstring) : commonPrefixLen (c ++ r) c = c.length := by
  induction c with
  | nil => cases r <;> simp [commonPrefixLen]
  | cons x c ih => simp [commonPrefixLen, ih]

theorem eq_append_of_commonPrefixLen {key c : fstring} (h : commonPrefixLen key c = c.length) :
    key = c ++ key.drop c.length := by
  induction c generalizing key with
  | nil => simp
  | cons x c ih =>
    cases key with
    | nil => simp [commonPrefixLen] at h
    | cons y key =>
      simp only [commonPrefixLen] at h
      split at h
      · rename_i hxy
        subst hxy
        simp only [List.length_cons, add_left_inj] at h
        simpa using ih h
      · simp at h

open CompositeIndexAscendingUintPrefix in
theorem asc_Find_none (p : CompositeIndexAscendingUintPrefix) (hwf : p.WellFormed)
    (rest : fstring) :
    p.Find rest none =
      if rest.length = p.key_length ∧ p.min_value ≤ beValue rest ∧ beValue rest ≤ p.max_value ∧
          rs_get p.rank_select (beValue rest - p.min_value) = true
      then rank1 p.rank_select (beValue rest - p.min_value) else size_t_max := by
  unfold Find
  by_cases hlen : rest.length = p.key_length
  · have hv : ReadBigEndianUint64 rest = beValue rest := by
      unfold ReadBigEndianUint64
      apply Nat.mod_eq_of_lt
      have := beValue_lt rest
      rw [hlen] at this
      exact lt_of_lt_of_le this (pow256_le hwf.key_length_le)
    simp only [hv, hlen, lt_irrefl, if_false, if_true, true_and]
    by_cases h1 : beValue rest < p.min_value
    · simp [h1, Nat.not_le.2 h1]
    · by_cases h2 : beValue rest > p.max_value
      · simp [h2, Nat.not_le.2 h2]
      · by_cases h3 : rs_get p.rank_select (beValue rest - p.min_value) = true
        · simp [h1, h2, h3, Nat.not_lt.1 h1, Nat.not_lt.1 h2]
        · simp [h1, h2, h3, Nat.not_lt.1 h1, Nat.not_lt.1 h2]
  · simp only [hlen, false_and, if_false]
    split_ifs <;> rfl

theorem CompositeIndex.Find_asc_empty (c : fstring) (p : CompositeIndexAscendingUintPrefix)
    (key : fstring) :
    CompositeIndex.Find ⟨c, .AscendingUint p, .Empty⟩ key =
      if commonPrefixLen key c ≠ c.length then size_t_max
      else p.Find (key.drop c.length) none := by
  simp [CompositeIndex.Find, CompositeIndex.suffixArg, Prefix.Find, Suffix.TotalKeySize]

theorem max_rank1_le_length (rs : List Bool) : max_rank1 rs ≤ rs.length :=
  List.count_le_length _ _

theorem storedKeys_getElem? (c : fstring) (p : CompositeIndexAscendingUintPrefix) (i : Nat)
    (key : fstring) :
    (p.storedKeys c)[i]? = some key ↔
      ∃ pos, rs_get p.rank_select pos = true ∧ rank1 p.rank_select pos = i ∧
        key = c ++ beBytes p.key_length (pos + p.min_value) := by
  unfold CompositeIndexAscendingUintPrefix.storedKeys
    CompositeIndexAscendingUintPrefix.storedHeads
  rw [List.map_map, List.getElem?_map]
  constructor
  · intro h
    cases hp : (onePositions p.rank_select)[i]? with
    | none => simp [hp] at h
    | some pos =>
      rw [hp] at h
      have := onePositions_getElem?_iff.1 hp
      refine ⟨pos, this.1, this.2, ?_⟩
      simpa using h.symm
  · rintro ⟨pos, h1, h2, rfl⟩
    rw [onePositions_getElem?_iff.2 ⟨h1, h2⟩]
    rfl

/-! ### Lexicographic order against the big-endian value -/

theorem fstring_lt_cons (a b : byte_t) (x t : fstring) :
    fstring_lt (a :: x) (b :: t) = true ↔ a < b ∨ (a = b ∧ fstring_lt x t = true) := by
  simp only [fstring_lt]
  by_cases h1 : a < b
  · simp [h1]
  · by_cases h2 : b < a
    · have : a ≠ b := fun h => by subst h; exact h1 h2
      simp [h1, h2, this]
    · have : a = b := le_antisymm (not_lt.1 h2) (not_lt.1 h1)
      simp [h1, this]

theorem fstring_lt_append_left (c x t : fstring) :
    fstring_lt (c ++ x) (c ++ t) = fstring_lt x t := by
  induction c with
  | nil => rfl
  | cons a c ih => simp [fstring_lt, ih]

theorem lt_iff_of_digits {P a b u v : Nat} (hu : u < P) (hv : v < P) :
    a * P + u < b * P + v ↔ a < b ∨ (a = b ∧ u < v) := by
  rcases Nat.lt_trichotomy a b with h1 | h1 | h1
  · have : (a + 1) * P ≤ b * P := Nat.mul_le_mul_right P h1
    rw [Nat.add_mul] at this
    constructor
    · exact fun _ => Or.inl h1
    · intro _; omega
  · subst h1
    constructor
    · intro h; right; exact ⟨rfl, by omega⟩
    · rintro (h | ⟨_, h⟩) <;> omega
  · have : (b + 1) * P ≤ a * P := Nat.mul_le_mul_right P h1
    rw [Nat.add_mul] at this
    constructor
    · intro h; omega
    · rintro (h | ⟨h, _⟩) <;> omega

theorem le_iff_of_digits {P a b u v : Nat} (hu : u < P) (hv : v < P) :
    a * P + u ≤ b * P + v ↔ a < b ∨ (a = b ∧ u ≤ v) := by
  rcases Nat.lt_trichotomy a b with h1 | h1 | h1
  · have : (a + 1) * P ≤ b * P := Nat.mul_le_mul_right P h1
    rw [Nat.add_mul] at this
    constructor
    · exact fun _ => Or.inl h1
    · intro _; omega
  · subst h1
    constructor
    · intro h; right; exact ⟨rfl, by omega⟩
    · rintro (h | ⟨_, h⟩) <;> omega
  · have : (b + 1) * P ≤ a * P := Nat.mul_le_mul_right P h1
    rw [Nat.add_mul] at this
    constructor
    · intro h; omega
    · rintro (h | ⟨h, _⟩) <;> omega

theorem seekValue_lt (L : Nat) (t : fstring) : seekValue L t < 256 ^ L := by
  have := beValue_lt (t.take L ++ List.replicate (L - t.length) 0)
  have e : (t.take L ++ List.replicate (L - t.length) (0 : byte_t)).length = L := by
    simp [List.length_take]; omega
  rw [e] at this
  exact this

theorem fstring_lt_iff_short (x t : fstring) (h : t.length ≤ x.length) :
    fstring_lt x t = true ↔ beValue x < seekValue x.length t := by
  unfold seekValue
  induction x generalizing t with
  | nil =>
    cases t with
    | nil => simp [fstring_lt, beValue]
    | cons b t => simp at h
  | cons a x ih =>
    cases t with
    | nil =>
      simp only [fstring_lt, List.take_nil, List.nil_append, beValue_replicate_zero]
      simp
    | cons b t =>
      have h' : t.length ≤ x.length := by simpa using h
      rw [fstring_lt_cons, ih t h']
      simp only [List.length_cons, List.take_succ_cons, List.cons_append, Nat.add_sub_add_right]
      rw [beValue_cons, beValue_cons]
      have e : (t.take x.length ++ List.replicate (x.length - t.length) (0 : byte_t)).length =
          x.length := by simp [List.length_take]; omega
      rw [e, lt_iff_of_digits (beValue_lt x) (by have := beValue_lt (t.take x.length ++ List.replicate (x.length - t.length) (0 : byte_t)); rwa [e] at this)]
      simp only [Fin.lt_def, Fin.ext_iff]

theorem fstring_lt_iff_long (x t : fstring) (h : x.length < t.length) :
    fstring_lt x t = true ↔ beValue x ≤ seekValue x.length t := by
  unfold seekValue
  induction x generalizing t with
  | nil =>
    cases t with
    | nil => simp at h
    | cons b t => simp [fstring_lt, beValue]
  | cons a x ih =>
    cases t with
    | nil => simp at h
    | cons b t =>
      have h' : x.length < t.length := by simpa using h
      rw [fstring_lt_cons, ih t h']
      simp only [List.length_cons, List.take_succ_cons, List.cons_append, Nat.add_sub_add_right]
      rw [beValue_cons, beValue_cons]
      have e : (t.take x.length ++ List.replicate (x.length - t.length) (0 : byte_t)).length =
          x.length := by simp [List.length_take]; omega
      rw [e, le_iff_of_digits (beValue_lt x) (by have := beValue_lt (t.take x.length ++ List.replicate (x.length - t.length) (0 : byte_t)); rwa [e] at this)]
      simp only [Fin.lt_def, Fin.ext_iff]

theorem seekBuffer_value {L : Nat} (hL : L ≤ 8) (t : fstring) :
    ReadBigEndianUint64Aligned (seekBuffer L t) = seekValue L t := by
  unfold ReadBigEndianUint64Aligned seekBuffer
  have hmin : t.take (min L t.length) = t.take L := by
    rcases Nat.le_total L t.length with h | h
    · rw [Nat.min_eq_left h]
    · rw [Nat.min_eq_right h, List.take_of_length_le (le_refl _), List.take_of_length_le h]
  have hsub : L - min L t.length = L - t.length := by omega
  simp only [hmin, hsub]
  have hlen : (List.replicate (8 - L) (0 : byte_t) ++ t.take L ++
      List.replicate (L - t.length) 0).length = 8 := by
    simp [List.length_take]; omega
  rw [List.take_of_length_le (by omega), List.append_assoc, beValue_zeros_append]
  exact Nat.mod_eq_of_lt (lt_of_lt_of_le (seekValue_lt L t) (pow256_le hL))

/-! ### Runs of zero bits -/

theorem takeWhile_not_spec (l : List Bool) (h : true ∈ l) :
    (l.takeWhile (fun b => !b)).length < l.length ∧
      l.getD (l.takeWhile (fun b => !b)).length false = true ∧
      (l.take (l.takeWhile (fun b => !b)).length).count true = 0 := by
  induction l with
  | nil => simp at h
  | cons b l ih =>
    cases b with
    | true => simp
    | false =>
      have h' : true ∈ l := by simpa using h
      obtain ⟨h1, h2, h3⟩ := ih h'
      simp only [List.takeWhile_cons, Bool.not_false, if_true, List.length_cons,
        List.getD_cons_succ, List.take_succ_cons]
      refine ⟨by omega, h2, ?_⟩
      rw [List.count_cons_of_ne (by decide)]
      exact h3

theorem rs_get_drop (rs : List Bool) (q k : Nat) :
    (rs.drop q).getD k false = rs_get rs (q + k) := by
  simp [rs_get, List.getD_eq_getElem?_getD, List.getElem?_drop]

theorem zero_seq_len_spec (rs : List Bool) (q : Nat)
    (h : ∃ j, q ≤ j ∧ rs_get rs j = true) :
    rs_get rs (q + zero_seq_len rs q) = true ∧
      rank1 rs (q + zero_seq_len rs q) = rank1 rs q := by
  obtain ⟨j, hj, hjt⟩ := h
  have hmem : true ∈ rs.drop q := by
    rw [List.mem_iff_getElem?]
    refine ⟨j - q, ?_⟩
    have hlt := rs_get_lt hjt
    have e : q + (j - q) = j := by omega
    rw [List.getElem?_drop, e]
    unfold rs_get at hjt
    rw [List.getD_eq_getElem?_getD] at hjt
    cases hx : rs[j]? with
    | none => simp [hx] at hjt
    | some b => simp [hx] at hjt; rw [hjt]
  obtain ⟨_, h2, h3⟩ := takeWhile_not_spec (rs.drop q) hmem
  unfold zero_seq_len
  refine ⟨?_, ?_⟩
  · rw [← rs_get_drop]; exact h2
  · unfold rank1
    rw [List.take_add, List.count_append, h3]
    rfl

theorem rank1_lt_max {rs : List Bool} {pos : Nat} (h : rs_get rs pos = true) :
    rank1 rs pos < max_rank1 rs := by
  have h1 := rank1_succ rs pos
  rw [h, if_pos rfl] at h1
  have := rank1_le_max rs (pos + 1)
  omega

theorem rank1_of_length_le {rs : List Bool} {q : Nat} (h : rs.length ≤ q) :
    rank1 rs q = max_rank1 rs := by
  unfold rank1 max_rank1
  rw [List.take_of_length_le h]

theorem exists_one_after {rs : List Bool} {q : Nat} (h : rank1 rs q < max_rank1 rs) :
    ∃ j, q ≤ j ∧ rs_get rs j = true := by
  by_contra hc
  push_neg at hc
  have key : ∀ n, q ≤ n → rank1 rs n = rank1 rs q := by
    intro n hn
    induction n with
    | zero => have : q = 0 := by omega
              subst this; rfl
    | succ n ih =>
      rcases Nat.eq_or_lt_of_le hn with h1 | h1
      · rw [h1]
      · have h2 := hc n (by omega)
        rw [rank1_succ, ih (by omega)]
        simp [h2]
  have h1 := key (max q rs.length) (le_max_left _ _)
  rw [rank1_of_length_le (le_max_right _ _)] at h1
  omega

theorem countP_lt_onePositions (rs : List Bool) (q : Nat) :
    (onePositions rs).countP (fun pos => decide (pos < q)) = rank1 rs q := by
  have key : ∀ n, ((List.range n).filter (fun i => rs_get rs i)).countP
      (fun pos => decide (pos < q)) = rank1 rs (min q n) := by
    intro n
    induction n with
    | zero => simp [rank1]
    | succ n ih =>
      rw [List.range_succ, List.filter_append, List.countP_append, ih]
      by_cases hn : n < q
      · rw [Nat.min_eq_right (by omega : n ≤ q), Nat.min_eq_right (by omega : n + 1 ≤ q),
          rank1_succ]
        cases hb : rs_get rs n <;> simp [hb, hn]
      · rw [Nat.min_eq_left (by omega : q ≤ n), Nat.min_eq_left (by omega : q ≤ n + 1)]
        cases hb : rs_get rs n <;> simp [hb, hn]
  unfold onePositions
  rw [key]
  rcases Nat.le_total q rs.length with h | h
  · rw [Nat.min_eq_left h]
  · rw [Nat.min_eq_right h, rank1_length, rank1_of_length_le h]

theorem fstring_lt_beBytes_iff (p : CompositeIndexAscendingUintPrefix) (t : fstring)
    {h : Nat} (hh : h < 256 ^ p.key_length) :
    fstring_lt (beBytes p.key_length h) t = true ↔
      h < (if t.length ≤ p.key_length then seekValue p.key_length t
        else seekValue p.key_length t + 1) := by
  have hl := beBytes_length p.key_length h
  have hv := beValue_beBytes_of_lt hh
  by_cases hlen : t.length ≤ p.key_length
  · rw [if_pos hlen, fstring_lt_iff_short _ _ (by omega), hl, hv]
  · rw [if_neg hlen, fstring_lt_iff_long _ _ (by omega), hl, hv]
    omega

theorem countP_storedKeys (c : fstring) (p : CompositeIndexAscendingUintPrefix)
    (hwf : p.WellFormed) (t : fstring) :
    (p.storedKeys c).countP (fun k => fstring_lt k (c ++ t)) = p.targetRank t := by
  unfold CompositeIndexAscendingUintPrefix.storedKeys
    CompositeIndexAscendingUintPrefix.storedHeads
    CompositeIndexAscendingUintPrefix.targetRank
  rw [List.map_map, List.countP_map, ← countP_lt_onePositions]
  apply List.countP_congr
  intro pos hpos
  have hlt := rs_get_lt (mem_onePositions.1 hpos)
  have hsz := hwf.size_eq
  have hmm := hwf.min_le_max
  have hmax := hwf.max_lt
  simp only [Function.comp_apply, fstring_lt_append_left, decide_eq_true_eq]
  rw [fstring_lt_beBytes_iff p t (by omega)]
  omega

open CompositeIndexAscendingUintPrefix in
theorem asc_SeekImpl_spec (p : CompositeIndexAscendingUintPrefix) (hwf : p.WellFormed)
    (t : fstring) (pos₀ : Nat) :
    ((p.SeekImpl t pos₀).1.1 = true ∧ (p.SeekImpl t pos₀).2.1 = p.targetRank t ∧
        rs_get p.rank_select (p.SeekImpl t pos₀).2.2 = true ∧
        rank1 p.rank_select (p.SeekImpl t pos₀).2.2 = p.targetRank t) ∨
    ((p.SeekImpl t pos₀).1.1 = false ∧ (p.SeekImpl t pos₀).2.1 = size_t_max ∧
        p.targetRank t = max_rank1 p.rank_select) := by
  have hsz := hwf.size_eq
  have hszlt := hwf.size_lt
  have hmm := hwf.min_le_max
  have hlast := hwf.last_set
  unfold SeekImpl targetRank
  rw [seekBuffer_value hwf.key_length_le]
  generalize seekValue p.key_length t = v
  simp only
  by_cases h1 : v > p.max_value
  · right
    rw [if_pos h1]
    refine ⟨rfl, rfl, ?_⟩
    apply rank1_of_length_le
    split_ifs <;> omega
  · rw [if_neg h1]
    by_cases h2 : v < p.min_value
    · left
      rw [if_pos h2]
      have e : (if t.length ≤ p.key_length then v else v + 1) - p.min_value = 0 := by
        split_ifs <;> omega
      rw [e]
      exact ⟨rfl, rfl, hwf.first_set, rfl⟩
    · rw [if_neg h2]
      have hpos : v - p.min_value < p.rank_select.length := by omega
      by_cases h3 : rs_get p.rank_select (v - p.min_value) = true
      · simp only [h3, Bool.not_true, Bool.false_eq_true, if_false]
        by_cases h4 : t.length > p.key_length
        · rw [if_pos h4, if_neg (by omega : ¬ t.length ≤ p.key_length)]
          have e : v + 1 - p.min_value = v - p.min_value + 1 := by omega
          rw [e, sub64_eq (by omega) hszlt]
          by_cases h5 : v - p.min_value = p.rank_select.length - 1
          · right
            rw [if_pos h5]
            refine ⟨rfl, rfl, ?_⟩
            apply rank1_of_length_le
            omega
          · left
            rw [if_neg h5]
            have hr := rank1_succ p.rank_select (v - p.min_value)
            rw [h3, if_pos rfl] at hr
            have hz := zero_seq_len_spec p.rank_select (v - p.min_value + 1)
              ⟨p.max_value - p.min_value, by omega, hlast⟩
            have hb := rs_get_lt hz.1
            have hle := rank1_le p.rank_select (v - p.min_value)
            have e1 : add64 (v - p.min_value) 1 = v - p.min_value + 1 := add64_eq (by omega)
            have e2 : add64 (zero_seq_len p.rank_select (v - p.min_value + 1)) 1 =
                zero_seq_len p.rank_select (v - p.min_value + 1) + 1 := add64_eq (by omega)
            have e3 : add64 (v - p.min_value)
                (zero_seq_len p.rank_select (v - p.min_value + 1) + 1) =
                v - p.min_value + 1 + zero_seq_len p.rank_select (v - p.min_value + 1) := by
              rw [add64_eq (by omega)]; omega
            have e4 : add64 (rank1 p.rank_select (v - p.min_value)) 1 =
                rank1 p.rank_select (v - p.min_value) + 1 := add64_eq (by omega)
            rw [e1, e2, e3, e4]
            exact ⟨rfl, hr.symm, hz.1, hz.2⟩
        · left
          rw [if_neg h4, if_pos (by omega : t.length ≤ p.key_length)]
          exact ⟨rfl, rfl, h3, rfl⟩
      · left
        have h3' : rs_get p.rank_select (v - p.min_value) = false := by
          simpa using h3
        simp only [h3', Bool.not_false, if_true]
        have hz := zero_seq_len_spec p.rank_select (v - p.min_value)
          ⟨p.max_value - p.min_value, by omega, hlast⟩
        have hb := rs_get_lt hz.1
        rw [add64_eq (by omega)]
        have e : rank1 p.rank_select ((if t.length ≤ p.key_length then v else v + 1) -
            p.min_value) = rank1 p.rank_select (v - p.min_value) := by
          split_ifs
          · rfl
          · have e2 : v + 1 - p.min_value = v - p.min_value + 1 := by omega
            rw [e2, rank1_succ, h3']
            simp
        rw [e]
        exact ⟨trivial, rfl, hz.1, hz.2⟩

theorem fstring_lt_of_mismatch (key c x : fstring)
    (h : commonPrefixLen key c ≠ c.length) :
    fstring_lt (c ++ x) key =
      !(decide (key.length = commonPrefixLen key c ∨
        key.getD (commonPrefixLen key c) 0 < c.getD (commonPrefixLen key c) 0)) := by
  induction c generalizing key with
  | nil => cases key <;> simp [commonPrefixLen] at h
  | cons a c ih =>
    cases key with
    | nil => simp [commonPrefixLen, fstring_lt]
    | cons b key =>
      by_cases hab : b = a
      · subst hab
        have h' : commonPrefixLen key c ≠ c.length := by
          intro hc; apply h; simp [commonPrefixLen, hc]
        have := ih key h'
        simp only [commonPrefixLen, if_true, List.cons_append, fstring_lt, lt_irrefl, if_false,
          List.length_cons, add_left_inj, List.getD_cons_succ]
        exact this
      · simp only [commonPrefixLen, hab, if_false, List.cons_append, fstring_lt,
          List.length_cons, List.getD_cons_zero]
        by_cases h1 : a < b
        · have : ¬ b < a := not_lt.2 (le_of_lt h1)
          simp [h1, this]
        · have h2 : b < a := lt_of_le_of_ne (not_lt.1 h1) hab
          simp [h1, h2]

theorem SaveAsBigEndianUint64_take (beg : fstring) (len value : Nat) :
    (SaveAsBigEndianUint64 beg len value).take len = beBytes len value := by
  unfold SaveAsBigEndianUint64
  rw [List.take_append_of_le_length (by rw [beBytes_length]),
    List.take_of_length_le (by rw [beBytes_length])]

open CompositeIndexAscendingUintPrefix in
theorem asc_IterGetKey_UpdateBuffer (p : CompositeIndexAscendingUintPrefix)
    (iter : IteratorStorage) :
    p.IterGetKey (p.UpdateBuffer iter) = beBytes p.key_length (add64 iter.pos p.min_value) := by
  simp [IterGetKey, UpdateBuffer, SaveAsBigEndianUint64_take]

open CompositeIndexIterator CompositeIndexAscendingUintPrefix in
theorem Seek_asc_empty_eq (c : fstring) (p : CompositeIndexAscendingUintPrefix)
    (it : CompositeIndexIterator) (target : fstring) (sc₀ : Nat)
    (h : commonPrefixLen target c = c.length) :
    Seek ⟨c, .AscendingUint p, .Empty⟩ it target sc₀ =
      if (p.SeekImpl (target.drop c.length) it.prefix_storage.pos).1.1 = true then
        (true, ⟨(p.SeekImpl (target.drop c.length) it.prefix_storage.pos).2.1,
          p.UpdateBuffer { it.prefix_storage with
            pos := (p.SeekImpl (target.drop c.length) it.prefix_storage.pos).2.2 }⟩)
      else
        (false, ⟨(p.SeekImpl (target.drop c.length) it.prefix_storage.pos).2.1,
          { it.prefix_storage with
            pos := (p.SeekImpl (target.drop c.length) it.prefix_storage.pos).2.2 }⟩) := by
  unfold Seek
  simp only [h, ne_eq, not_true_eq_false, if_false, Prefix.IterSeek, IterSeek,
    Prefix.IterGetKey, Suffix.IterSeek]
  cases hs : (p.SeekImpl (target.drop c.length) it.prefix_storage.pos).1.1
  · simp
  · simp

theorem key_of_onKey (c : fstring) (p : CompositeIndexAscendingUintPrefix)
    (it : CompositeIndexIterator) (h : p.OnKey it) :
    (p.storedKeys c)[it.m_id]? =
      some (CompositeIndexIterator.key ⟨c, .AscendingUint p, .Empty⟩ it) := by
  obtain ⟨h1, h2, h3⟩ := h
  rw [storedKeys_getElem?]
  refine ⟨it.prefix_storage.pos, h1, h2, ?_⟩
  simp [CompositeIndexIterator.key, Prefix.IterGetKey, Suffix.IterGetKey, h3]

theorem onKey_update (p : CompositeIndexAscendingUintPrefix) (hwf : p.WellFormed)
    (st : IteratorStorage) (id pos : Nat) (h1 : rs_get p.rank_select pos = true)
    (h2 : rank1 p.rank_select pos = id) :
    p.OnKey ⟨id, p.UpdateBuffer { st with pos := pos }⟩ := by
  have hlt := rs_get_lt h1
  have hsz := hwf.size_eq
  have hmm := hwf.min_le_max
  have hmax := lt_of_lt_of_le hwf.max_lt (pow256_le hwf.key_length_le)
  refine ⟨h1, h2, ?_⟩
  rw [asc_IterGetKey_UpdateBuffer]
  simp only [CompositeIndexAscendingUintPrefix.UpdateBuffer]
  rw [add64_eq (by omega)]

theorem mem_storedKeys (c : fstring) (p : CompositeIndexAscendingUintPrefix) (k : fstring) :
    k ∈ p.storedKeys c ↔
      ∃ pos, rs_get p.rank_select pos = true ∧
        k = c ++ beBytes p.key_length (pos + p.min_value) := by
  rw [List.mem_iff_getElem?]
  constructor
  · rintro ⟨i, hi⟩
    obtain ⟨pos, h1, _, h3⟩ := (storedKeys_getElem? c p i k).1 hi
    exact ⟨pos, h1, h3⟩
  · rintro ⟨pos, h1, h3⟩
    exact ⟨_, (storedKeys_getElem? c p _ k).2 ⟨pos, h1, rfl, h3⟩⟩

theorem storedKeys_length (c : fstring) (p : CompositeIndexAscendingUintPrefix) :
    (p.storedKeys c).length = max_rank1 p.rank_select := by
  unfold CompositeIndexAscendingUintPrefix.storedKeys
    CompositeIndexAscendingUintPrefix.storedHeads
  rw [List.length_map, List.length_map, onePositions_length]

theorem countLess_of_threshold (c : fstring) (p : CompositeIndexAscendingUintPrefix)
    (target : fstring) (q : Nat)
    (hq : ∀ pos, rs_get p.rank_select pos = true →
      (fstring_lt (c ++ beBytes p.key_length (pos + p.min_value)) target = true ↔ pos < q)) :
    countLess (p.storedKeys c) target = rank1 p.rank_select q := by
  unfold countLess CompositeIndexAscendingUintPrefix.storedKeys
    CompositeIndexAscendingUintPrefix.storedHeads
  rw [List.map_map, List.countP_map, ← countP_lt_onePositions]
  apply List.countP_congr
  intro pos hpos
  simp only [Function.comp_apply, decide_eq_true_eq]
  exact hq pos (mem_onePositions.1 hpos)

open CompositeIndexIterator in
theorem seek_threshold (c : fstring) (p : CompositeIndexAscendingUintPrefix)
    (hwf : p.WellFormed) (it : CompositeIndexIterator) (target : fstring) (sc₀ : Nat) :
    ∃ q, (∀ pos, rs_get p.rank_select pos = true →
        (fstring_lt (c ++ beBytes p.key_length (pos + p.min_value)) target = true ↔ pos < q)) ∧
      (((Seek (ascendingEmptyIndex c p) it target sc₀).1 = true ∧
          p.OnKey (Seek (ascendingEmptyIndex c p) it target sc₀).2 ∧
          (Seek (ascendingEmptyIndex c p) it target sc₀).2.m_id = rank1 p.rank_select q) ∨
        ((Seek (ascendingEmptyIndex c p) it target sc₀).1 = false ∧
          (Seek (ascendingEmptyIndex c p) it target sc₀).2.m_id = size_t_max ∧
          rank1 p.rank_select q = max_rank1 p.rank_select)) := by
  have hsz := hwf.size_eq
  have hmm := hwf.min_le_max
  have hmax := hwf.max_lt
  by_cases hcp : commonPrefixLen target c = c.length
  · refine ⟨(if (target.drop c.length).length ≤ p.key_length
        then seekValue p.key_length (target.drop c.length)
        else seekValue p.key_length (target.drop c.length) + 1) - p.min_value, ?_, ?_⟩
    · intro pos hpos
      have hlt := rs_get_lt hpos
      have e := eq_append_of_commonPrefixLen hcp
      conv_lhs => rw [e]
      rw [fstring_lt_append_left, fstring_lt_beBytes_iff p _ (by omega)]
      omega
    · rw [Seek_asc_empty_eq c p it target sc₀ hcp]
      rcases asc_SeekImpl_spec p hwf (target.drop c.length) it.prefix_storage.pos with
        ⟨h1, h2, h3, h4⟩ | ⟨h1, h2, h3⟩
      · left
        rw [if_pos h1]
        exact ⟨rfl, onKey_update p hwf _ _ _ h3 (h4.trans h2.symm), h2⟩
      · right
        rw [if_neg (by simp [h1])]
        exact ⟨rfl, h2, h3⟩
  · by_cases hcond : target.length = commonPrefixLen target c ∨
        target.getD (commonPrefixLen target c) 0 < c.getD (commonPrefixLen target c) 0
    · refine ⟨0, ?_, ?_⟩
      · intro pos _
        rw [fstring_lt_of_mismatch target c _ hcp, decide_eq_true hcond]
        simp
      · left
        have e : Seek (ascendingEmptyIndex c p) it target sc₀ =
            (true, ⟨0, p.UpdateBuffer { it.prefix_storage with pos := 0 }⟩) := by
          unfold Seek
          simp only [ne_eq, hcp, not_false_eq_true, if_true, hcond, SeekToFirst,
            Prefix.IterSeekToFirst, CompositeIndexAscendingUintPrefix.IterSeekToFirst]
        rw [e]
        exact ⟨rfl, onKey_update p hwf _ _ _ hwf.first_set rfl, rfl⟩
    · refine ⟨p.rank_select.length, ?_, ?_⟩
      · intro pos hpos
        rw [fstring_lt_of_mismatch target c _ hcp, decide_eq_false hcond]
        simp [rs_get_lt hpos]
      · right
        have e : Seek (ascendingEmptyIndex c p) it target sc₀ =
            (false, { it with m_id := size_t_max }) := by
          unfold Seek
          simp only [ne_eq, hcp, not_false_eq_true, if_true, hcond, if_false]
        rw [e]
        exact ⟨rfl, rfl, rank1_length _⟩

theorem fstring_lt_beBytes_beBytes (L : Nat) {h₁ h₂ : Nat} (b₁ : h₁ < 256 ^ L)
    (b₂ : h₂ < 256 ^ L) :
    fstring_lt (beBytes L h₁) (beBytes L h₂) = true ↔ h₁ < h₂ := by
  rw [fstring_lt_iff_short _ _ (by simp [beBytes_length]), beBytes_length,
    beValue_beBytes_of_lt b₁]
  unfold seekValue
  rw [beBytes_length, Nat.sub_self, List.replicate_zero, List.append_nil,
    List.take_of_length_le (by rw [beBytes_length]), beValue_beBytes_of_lt b₂]

theorem not_lt_of_rank1_eq {rs : List Bool} {a q : Nat} (ha : rs_get rs a = true)
    (h : rank1 rs q ≤ rank1 rs a) : ¬ a < q := by
  intro hlt
  have h1 := rank1_succ rs a
  rw [ha, if_pos rfl] at h1
  have h2 := rank1_mono rs (by omega : a + 1 ≤ q)
  omega

open CompositeIndexAscendingUintPrefix in
theorem asc_SeekImpl_stored (p : CompositeIndexAscendingUintPrefix) (hwf : p.WellFormed)
    {pos : Nat} (hbit : rs_get p.rank_select pos = true) (pos₀ : Nat) :
    p.SeekImpl (beBytes p.key_length (pos + p.min_value)) pos₀ =
      ((true, true), rank1 p.rank_select pos, pos) := by
  have hlt := rs_get_lt hbit
  have hsz := hwf.size_eq
  have hmm := hwf.min_le_max
  have hmax := hwf.max_lt
  have hv : seekValue p.key_length (beBytes p.key_length (pos + p.min_value)) =
      pos + p.min_value := by
    unfold seekValue
    rw [beBytes_length, Nat.sub_self, List.replicate_zero, List.append_nil,
      List.take_of_length_le (by rw [beBytes_length]), beValue_beBytes_of_lt (by omega)]
  unfold SeekImpl
  rw [seekBuffer_value hwf.key_length_le, hv, beBytes_length]
  have e : pos + p.min_value - p.min_value = pos := by omega
  simp only [e, hbit]
  rw [if_neg (by omega), if_neg (by omega)]
  simp

theorem DictRank_asc_empty_stored (c : fstring) (p : CompositeIndexAscendingUintPrefix)
    (hwf : p.WellFormed) (i : Nat) (key : fstring)
    (hk : (p.storedKeys c)[i]? = some key) :
    (ascendingEmptyIndex c p).DictRank key = i := by
  obtain ⟨pos, h1, h2, rfl⟩ := (storedKeys_getElem? c p i key).1 hk
  simp only [CompositeIndex.DictRank, commonPrefixLen_append_left, ne_eq, not_true_eq_false,
    if_false, List.drop_left, Prefix.DictRank, CompositeIndex.suffixArg,
    Suffix.TotalKeySize, CompositeIndexAscendingUintPrefix.DictRank,
    asc_SeekImpl_stored p hwf h1, beBytes_length]
  simpa using h2

theorem storedKeys_pairwise (c : fstring) (p : CompositeIndexAscendingUintPrefix)
    (hwf : p.WellFormed) :
    (p.storedKeys c).Pairwise (fun a b => fstring_lt a b = true) := by
  unfold CompositeIndexAscendingUintPrefix.storedKeys
    CompositeIndexAscendingUintPrefix.storedHeads
  rw [List.map_map, List.pairwise_map]
  have hs : (onePositions p.rank_select).Pairwise (· < ·) := onePositions_sorted _
  refine hs.imp_of_mem ?_
  intro a b ha hb hab
  have hla := rs_get_lt (mem_onePositions.1 ha)
  have hlb := rs_get_lt (mem_onePositions.1 hb)
  have hsz := hwf.size_eq
  have hmm := hwf.min_le_max
  have hmax := hwf.max_lt
  simp only [Function.comp_apply, fstring_lt_append_left]
  exact (fstring_lt_beBytes_beBytes p.key_length (by omega) (by omega)).2 (by omega)

open CompositeIndexIterator in
theorem asc_Next_spec (c : fstring) (p : CompositeIndexAscendingUintPrefix)
    (hwf : p.WellFormed) (it : CompositeIndexIterator) (h : p.OnKey it) :
    (it.m_id + 1 < max_rank1 p.rank_select →
      (Next (ascendingEmptyIndex c p) it).1 = true ∧
      p.OnKey (Next (ascendingEmptyIndex c p) it).2 ∧
      (Next (ascendingEmptyIndex c p) it).2.m_id = it.m_id + 1) ∧
    (it.m_id + 1 = max_rank1 p.rank_select →
      (Next (ascendingEmptyIndex c p) it).1 = false ∧
      (Next (ascendingEmptyIndex c p) it).2.m_id = size_t_max) := by
  obtain ⟨hbit, hrank, _⟩ := h
  have hlt := rank1_lt_max hbit
  have hN : max_rank1 p.rank_select < 2 ^ 64 :=
    lt_of_le_of_lt (max_rank1_le_length _) hwf.size_lt
  have hposlt := rs_get_lt hbit
  have hszlt := hwf.size_lt
  have hsub : sub64 (max_rank1 p.rank_select) 1 = max_rank1 p.rank_select - 1 :=
    sub64_eq (by omega) hN
  have hsucc := rank1_succ p.rank_select it.prefix_storage.pos
  rw [hbit, if_pos rfl, hrank] at hsucc
  constructor
  · intro hnext
    have hz := zero_seq_len_spec p.rank_select (it.prefix_storage.pos + 1)
      (exists_one_after (by omega))
    have hb := rs_get_lt hz.1
    have e1 : add64 it.prefix_storage.pos 1 = it.prefix_storage.pos + 1 :=
      add64_eq (by omega)
    have e2 : add64 (add64 it.prefix_storage.pos
        (zero_seq_len p.rank_select (it.prefix_storage.pos + 1))) 1 =
        it.prefix_storage.pos + 1 + zero_seq_len p.rank_select (it.prefix_storage.pos + 1) := by
      have e2a : add64 it.prefix_storage.pos
          (zero_seq_len p.rank_select (it.prefix_storage.pos + 1)) =
          it.prefix_storage.pos + zero_seq_len p.rank_select (it.prefix_storage.pos + 1) :=
        add64_eq (by omega)
      rw [e2a, add64_eq (by omega)]; omega
    have e3 : add64 it.m_id 1 = it.m_id + 1 := add64_eq (by omega)
    have e : Next (ascendingEmptyIndex c p) it =
        (true, ⟨it.m_id + 1, p.UpdateBuffer { it.prefix_storage with
          pos := it.prefix_storage.pos + 1 +
            zero_seq_len p.rank_select (it.prefix_storage.pos + 1) }⟩) := by
      simp only [Next, Prefix.IterNext, CompositeIndexAscendingUintPrefix.IterNext,
        CompositeIndexAscendingUintPrefix.IterNextLoop, hsub, e1, e2, e3]
      rw [if_neg (show ¬ it.m_id = max_rank1 p.rank_select - 1 by omega)]
      simp
    rw [e]
    exact ⟨rfl, onKey_update p hwf _ _ _ hz.1 (by rw [hz.2, hsucc]), rfl⟩
  · intro hend
    have e : Next (ascendingEmptyIndex c p) it =
        (false, ⟨size_t_max, { it.prefix_storage with pos := it.prefix_storage.pos }⟩) := by
      simp only [Next, Prefix.IterNext, CompositeIndexAscendingUintPrefix.IterNext,
        CompositeIndexAscendingUintPrefix.IterNextLoop, hsub]
      rw [if_pos (show it.m_id = max_rank1 p.rank_select - 1 by omega)]
      simp
    rw [e]
    exact ⟨rfl, rfl⟩

open CompositeIndexIterator in
theorem asc_NextN_onKey (c : fstring) (p : CompositeIndexAscendingUintPrefix)
    (hwf : p.WellFormed) (it : CompositeIndexIterator) (i : Nat)
    (hi : i < max_rank1 p.rank_select) :
    p.OnKey (NextN (ascendingEmptyIndex c p) i (SeekToFirst (ascendingEmptyIndex c p) it).2) ∧
      (NextN (ascendingEmptyIndex c p) i (SeekToFirst (ascendingEmptyIndex c p) it).2).m_id =
        i := by
  induction i with
  | zero =>
    simp only [NextN, SeekToFirst, Prefix.IterSeekToFirst,
      CompositeIndexAscendingUintPrefix.IterSeekToFirst]
    exact ⟨onKey_update p hwf _ _ _ hwf.first_set rfl, trivial⟩
  | succ i ih =>
    obtain ⟨h1, h2⟩ := ih (by omega)
    have := (asc_Next_spec c p hwf _ h1).1 (by omega)
    simp only [NextN]
    exact ⟨this.2.1, by rw [this.2.2, h2]⟩

/-! ## The scenarios -/

theorem scenarioS1Prefix_wellFormed : scenarioS1Prefix.WellFormed :=
  ⟨by decide, by decide, by decide, by decide, by decide, by decide, by decide, by decide⟩

theorem gapPrefix_wellFormed : gapPrefix.WellFormed :=
  ⟨by decide, by decide, by decide, by decide, by decide, by decide, by decide, by decide⟩

theorem seekValue_beBytes {L h : Nat} (hh : h < 256 ^ L) : seekValue L (beBytes L h) = h := by
  unfold seekValue
  rw [beBytes_length, Nat.sub_self, List.replicate_zero, List.append_nil,
    List.take_of_length_le (by rw [beBytes_length]), beValue_beBytes_of_lt hh]

theorem countLess_stored (c : fstring) (p : CompositeIndexAscendingUintPrefix)
    (hwf : p.WellFormed) (i : Nat) (key : fstring)
    (hk : (p.storedKeys c)[i]? = some key) :
    countLess (p.storedKeys c) key = i := by
  obtain ⟨pos, h1, h2, rfl⟩ := (storedKeys_getElem? c p i key).1 hk
  have hlt := rs_get_lt h1
  have hsz := hwf.size_eq
  have hmm := hwf.min_le_max
  have hmax := hwf.max_lt
  unfold countLess
  rw [countP_storedKeys c p hwf, CompositeIndexAscendingUintPrefix.targetRank,
    beBytes_length, if_pos (le_refl _), seekValue_beBytes (by omega)]
  have e : pos + p.min_value - p.min_value = pos := by omega
  rw [e, h2]

theorem nonDesc_SeekImpl_count (p : CompositeIndexNonDescendingUintPrefix) (t : fstring)
    (s pos : Nat)
    (h : p.min_value ≤ ReadBigEndianUint64Aligned (seekBuffer p.key_length t) ∧
      ReadBigEndianUint64Aligned (seekBuffer p.key_length t) ≤ p.max_value)
    (h2 : select0 p.rank_select
      (ReadBigEndianUint64Aligned (seekBuffer p.key_length t) - p.min_value) ≠
        sub64 p.rank_select.length 1) :
    p.SeekImpl t s pos = p.SeekImpl t 0 pos := by
  unfold CompositeIndexNonDescendingUintPrefix.SeekImpl
  simp only
  split_ifs <;> first | rfl | (exfalso; omega)

open CompositeIndexIterator in
theorem Seek_nonDesc_count (c : fstring) (p : CompositeIndexNonDescendingUintPrefix)
    (sfx : Suffix) (it : CompositeIndexIterator) (target : fstring) (s : Nat)
    (h : p.min_value ≤ ReadBigEndianUint64Aligned
        (seekBuffer p.key_length (target.drop (commonPrefixLen target c))) ∧
      ReadBigEndianUint64Aligned
        (seekBuffer p.key_length (target.drop (commonPrefixLen target c))) ≤ p.max_value)
    (h2 : select0 p.rank_select
      (ReadBigEndianUint64Aligned
        (seekBuffer p.key_length (target.drop (commonPrefixLen target c))) - p.min_value) ≠
        sub64 p.rank_select.length 1) :
    Seek ⟨c, .NonDescendingUint p, sfx⟩ it target s =
      Seek ⟨c, .NonDescendingUint p, sfx⟩ it target 0 := by
  unfold Seek
  simp only [Prefix.IterSeek, CompositeIndexNonDescendingUintPrefix.IterSeek]
  rw [nonDesc_SeekImpl_count p _ s _ h h2]

/-! ## The claims -/

/-- C1. For a composite index with common prefix `c`, a well-formed ascending
uint prefix and the empty suffix, and for every byte string `key`: `Find(key)`
returns `i` when `key` is the `i`-th stored key `c ++ bigEndian_L(h_i)`, and the
sentinel `size_t(-1)` when `key` is not stored; the number of keys is at most
`size_t(-1)`, so no id is the sentinel. -/
theorem Find_ascending_empty_suffix (c : fstring) (p : CompositeIndexAscendingUintPrefix)
    (hwf : p.WellFormed) (key : fstring) :
    (∀ i, (p.storedKeys c)[i]? = some key →
        (ascendingEmptyIndex c p).Find key = i) ∧
    (key ∉ p.storedKeys c → (ascendingEmptyIndex c p).Find key = size_t_max) ∧
    (p.storedKeys c).length ≤ size_t_max := by
  have hpow := pow256_le hwf.key_length_le
  refine ⟨?_, ?_, ?_⟩
  · intro i hi
    obtain ⟨pos, h1, h2, rfl⟩ := (storedKeys_getElem? c p i key).1 hi
    have hpos := rs_get_lt h1
    have hsz := hwf.size_eq
    have hmm := hwf.min_le_max
    have hmax := hwf.max_lt
    have hv : beValue (beBytes p.key_length (pos + p.min_value)) = pos + p.min_value :=
      beValue_beBytes_of_lt (by omega)
    rw [CompositeIndex.Find_asc_empty, commonPrefixLen_append_left]
    simp only [ne_eq, not_true_eq_false, if_false, List.drop_left]
    rw [asc_Find_none p hwf, hv, beBytes_length]
    have e : pos + p.min_value - p.min_value = pos := by omega
    rw [e, if_pos ⟨rfl, by omega, by omega, h1⟩, h2]
  · intro hnot
    rw [CompositeIndex.Find_asc_empty]
    by_cases hc : commonPrefixLen key c = c.length
    · rw [if_neg (by simpa using hc), asc_Find_none p hwf]
      split_ifs with h
      · exfalso
        apply hnot
        obtain ⟨hl, hmin, hmax, hbit⟩ := h
        apply List.getElem?_mem
        apply (storedKeys_getElem? c p (rank1 p.rank_select (beValue (key.drop c.length) - p.min_value)) key).2
        refine ⟨_, hbit, rfl, ?_⟩
        have e : beValue (key.drop c.length) - p.min_value + p.min_value =
            beValue (key.drop c.length) := by omega
        rw [e, ← hl, beBytes_beValue]
        exact eq_append_of_commonPrefixLen hc
      · rfl
    · rw [if_pos hc]
  · unfold CompositeIndexAscendingUintPrefix.storedKeys
      CompositeIndexAscendingUintPrefix.storedHeads
    rw [List.length_map, List.length_map, onePositions_length]
    have := max_rank1_le_length p.rank_select
    have := hwf.size_lt
    unfold size_t_max
    omega

/-- Witness of C1 on scenario S1: `be4(5)` is the stored key of index 4. -/
theorem Find_ascending_empty_suffix_witness :
    scenarioS1Prefix.WellFormed ∧
      (scenarioS1Prefix.storedKeys [])[4]? = some (beBytes 4 5) ∧
      (ascendingEmptyIndex [] scenarioS1Prefix).Find (beBytes 4 5) = 4 :=
  ⟨scenarioS1Prefix_wellFormed, by decide,
    (Find_ascending_empty_suffix [] scenarioS1Prefix scenarioS1Prefix_wellFormed
      (beBytes 4 5)).1 4 (by decide)⟩

/-- C2, evaluated on the code. On scenario S1 (keys `be4(1) .. be4(16)`) the
key `be4(0)` is not stored and no stored key is smaller, yet `DictRank` returns
1; on the index of the keys `[1]`, `[3]` the absent key `[2]` (clear bit) has
one smaller key and `DictRank` returns 2. -/
theorem DictRank_absent_key_off_by_one :
    beBytes 4 0 ∉ scenarioS1Prefix.storedKeys [] ∧
      countLess (scenarioS1Prefix.storedKeys []) (beBytes 4 0) = 0 ∧
      scenarioS1.DictRank (beBytes 4 0) = 1 ∧
      [2] ∉ gapPrefix.storedKeys [] ∧
      countLess (gapPrefix.storedKeys []) [2] = 1 ∧
      gapIndex.DictRank [2] = 2 := by
  decide

/-- C3. For a composite index with a well-formed ascending uint prefix and the
empty suffix, every stored key `k` at sorted position `i` has `DictRank(k) = i`,
which is the number of stored keys smaller than `k`; and on scenario S1, whose
keys are `be4(1) .. be4(16)`, `DictRank(be4(17)) = 16` and `Find(be4(5)) = 4`. -/
theorem DictRank_ascending_stored_key :
    (∀ (c : fstring) (p : CompositeIndexAscendingUintPrefix), p.WellFormed →
      ∀ (i : Nat) (key : fstring), (p.storedKeys c)[i]? = some key →
        (ascendingEmptyIndex c p).DictRank key = i ∧ countLess (p.storedKeys c) key = i) ∧
    scenarioS1Prefix.storedKeys [] = (List.range 16).map (fun i => beBytes 4 (i + 1)) ∧
    scenarioS1.DictRank (beBytes 4 17) = 16 ∧
    scenarioS1.Find (beBytes 4 5) = 4 :=
  ⟨fun c p hwf i key hk =>
      ⟨DictRank_asc_empty_stored c p hwf i key hk, countLess_stored c p hwf i key hk⟩,
    by decide, by decide, by decide⟩

/-- Witness of C3 on scenario S1: `be4(5)` is at position 4 and has rank 4. -/
theorem DictRank_ascending_stored_key_witness :
    (scenarioS1Prefix.storedKeys [])[4]? = some (beBytes 4 5) ∧
      (ascendingEmptyIndex [] scenarioS1Prefix).DictRank (beBytes 4 5) = 4 :=
  ⟨by decide,
    (DictRank_ascending_stored_key.1 [] scenarioS1Prefix scenarioS1Prefix_wellFormed 4
      (beBytes 4 5) (by decide)).1⟩

/-- C4, evaluated on the code. On the index of the keys `[1]`, `[3]`:
`[2] < [3]` but `DictRank([2]) = 2 > 1 = DictRank([3])`; and on scenario S1
`be4(0) < be4(1)` but `DictRank(be4(0)) = 1 > 0 = DictRank(be4(1))`. -/
theorem DictRank_not_monotone :
    fstring_lt [2] [3] = true ∧ gapIndex.DictRank [2] = 2 ∧ gapIndex.DictRank [3] = 1 ∧
      fstring_lt (beBytes 4 0) (beBytes 4 1) = true ∧
      scenarioS1.DictRank (beBytes 4 0) = 1 ∧ scenarioS1.DictRank (beBytes 4 1) = 0 := by
  decide

open CompositeIndexIterator in
/-- C5. For a composite index with common prefix `c`, a well-formed ascending
uint prefix and the empty suffix, holding `N` keys: `N ≥ 1`; `SeekToFirst`
succeeds with id 0; after `i < N` calls of `Next` the cursor has id `i` and
`key()` is the `i`-th stored key `c ++ bigEndian_L(h_i)`; the next `Next`
succeeds with id `i + 1` when `i + 1 < N`, and returns false with id
`size_t(-1)` when `i + 1 = N`; and the stored keys are strictly ascending in
lexicographic order. -/
theorem iteration_ascending_empty_suffix (c : fstring) (p : CompositeIndexAscendingUintPrefix)
    (hwf : p.WellFormed) (it : CompositeIndexIterator) :
    1 ≤ (p.storedKeys c).length ∧
    (SeekToFirst (ascendingEmptyIndex c p) it).1 = true ∧
    (SeekToFirst (ascendingEmptyIndex c p) it).2.m_id = 0 ∧
    (∀ i, i < (p.storedKeys c).length →
      (NextN (ascendingEmptyIndex c p) i (SeekToFirst (ascendingEmptyIndex c p) it).2).m_id = i ∧
      (p.storedKeys c)[i]? = some (key (ascendingEmptyIndex c p)
        (NextN (ascendingEmptyIndex c p) i (SeekToFirst (ascendingEmptyIndex c p) it).2)) ∧
      (i + 1 < (p.storedKeys c).length →
        (Next (ascendingEmptyIndex c p)
          (NextN (ascendingEmptyIndex c p) i
            (SeekToFirst (ascendingEmptyIndex c p) it).2)).1 = true ∧
        (Next (ascendingEmptyIndex c p)
          (NextN (ascendingEmptyIndex c p) i
            (SeekToFirst (ascendingEmptyIndex c p) it).2)).2.m_id = i + 1) ∧
      (i + 1 = (p.storedKeys c).length →
        (Next (ascendingEmptyIndex c p)
          (NextN (ascendingEmptyIndex c p) i
            (SeekToFirst (ascendingEmptyIndex c p) it).2)).1 = false ∧
        (Next (ascendingEmptyIndex c p)
          (NextN (ascendingEmptyIndex c p) i
            (SeekToFirst (ascendingEmptyIndex c p) it).2)).2.m_id = size_t_max)) ∧
    (p.storedKeys c).Pairwise (fun a b => fstring_lt a b = true) := by
  rw [storedKeys_length]
  refine ⟨?_, rfl, rfl, ?_, storedKeys_pairwise c p hwf⟩
  · have := rank1_lt_max hwf.first_set
    omega
  · intro i hi
    obtain ⟨h1, h2⟩ := asc_NextN_onKey c p hwf it i hi
    have hn := asc_Next_spec c p hwf _ h1
    rw [h2] at hn
    refine ⟨h2, ?_, fun h => ⟨(hn.1 h).1, (hn.1 h).2.2⟩, hn.2⟩
    have := key_of_onKey c p _ h1
    rw [h2] at this
    exact this

open CompositeIndexIterator in
/-- Witness of C5 on scenario S1: after `SeekToFirst` and 15 calls of `Next`
the cursor has id 15, and the 16th `Next` fails with id `size_t(-1)`. -/
theorem iteration_ascending_empty_suffix_witness :
    scenarioS1Prefix.WellFormed ∧
      (NextN (ascendingEmptyIndex [] scenarioS1Prefix) 15
        (SeekToFirst (ascendingEmptyIndex [] scenarioS1Prefix) freshIterator).2).m_id = 15 ∧
      (Next (ascendingEmptyIndex [] scenarioS1Prefix)
        (NextN (ascendingEmptyIndex [] scenarioS1Prefix) 15
          (SeekToFirst (ascendingEmptyIndex [] scenarioS1Prefix) freshIterator).2)).2.m_id =
        size_t_max :=
  ⟨scenarioS1Prefix_wellFormed,
    ((iteration_ascending_empty_suffix [] scenarioS1Prefix scenarioS1Prefix_wellFormed
      freshIterator).2.2.2.1 15 (by decide)).1,
    (((iteration_ascending_empty_suffix [] scenarioS1Prefix scenarioS1Prefix_wellFormed
      freshIterator).2.2.2.1 15 (by decide)).2.2.2 (by decide)).2⟩

open CompositeIndexIterator in
/-- C6. For a composite index with common prefix `c`, a well-formed ascending
uint prefix and the empty suffix, for every target and whatever the
uninitialised `suffix_count` holds: when some stored key is `≥ target`,
`Seek(target)` returns true, the id is the number of stored keys `< target`,
`key()` is the stored key at that position, it is `≥ target` and no stored key
`≥ target` is smaller; when every stored key is `< target`, `Seek` returns
false with id `size_t(-1)`; in both cases `DictRank()` of the cursor is the
number of stored keys `< target`. -/
theorem Seek_ascending_empty_suffix (c : fstring) (p : CompositeIndexAscendingUintPrefix)
    (hwf : p.WellFormed) (it : CompositeIndexIterator) (target : fstring) (sc₀ : Nat) :
    ((∃ k ∈ p.storedKeys c, fstring_lt k target = false) →
      (Seek (ascendingEmptyIndex c p) it target sc₀).1 = true ∧
      (Seek (ascendingEmptyIndex c p) it target sc₀).2.m_id =
        countLess (p.storedKeys c) target ∧
      (p.storedKeys c)[countLess (p.storedKeys c) target]? =
        some (key (ascendingEmptyIndex c p) (Seek (ascendingEmptyIndex c p) it target sc₀).2) ∧
      fstring_lt (key (ascendingEmptyIndex c p)
        (Seek (ascendingEmptyIndex c p) it target sc₀).2) target = false ∧
      ∀ k ∈ p.storedKeys c, fstring_lt k target = false →
        fstring_lt k (key (ascendingEmptyIndex c p)
          (Seek (ascendingEmptyIndex c p) it target sc₀).2) = false) ∧
    ((∀ k ∈ p.storedKeys c, fstring_lt k target = true) →
      (Seek (ascendingEmptyIndex c p) it target sc₀).1 = false ∧
      (Seek (ascendingEmptyIndex c p) it target sc₀).2.m_id = size_t_max) ∧
    DictRank (ascendingEmptyIndex c p) (Seek (ascendingEmptyIndex c p) it target sc₀).2 =
      countLess (p.storedKeys c) target := by
  obtain ⟨q, hq, hres⟩ := seek_threshold c p hwf it target sc₀
  have hcount := countLess_of_threshold c p target q hq
  have hlen := storedKeys_length c p
  have hN : max_rank1 p.rank_select < 2 ^ 64 :=
    lt_of_le_of_lt (max_rank1_le_length _) hwf.size_lt
  have hsz := hwf.size_eq
  have hmm := hwf.min_le_max
  have hmax := hwf.max_lt
  generalize Seek (ascendingEmptyIndex c p) it target sc₀ = r at hres ⊢
  rw [hcount]
  rcases hres with ⟨h1, h2, h3⟩ | ⟨h1, h2, h3⟩
  · have hkey := key_of_onKey c p r.2 h2
    obtain ⟨hbit, hrank, hbuf⟩ := h2
    have hnlt : ¬ r.2.prefix_storage.pos < q :=
      not_lt_of_rank1_eq hbit (by omega)
    have hkeyeq : key (ascendingEmptyIndex c p) r.2 =
        c ++ beBytes p.key_length (r.2.prefix_storage.pos + p.min_value) := by
      simp [key, Prefix.IterGetKey, Suffix.IterGetKey, hbuf]
    have hposlt := rs_get_lt hbit
    refine ⟨fun _ => ⟨h1, h3, ?_, ?_, ?_⟩, ?_, ?_⟩
    · rw [← h3]; exact hkey
    · rw [hkeyeq]
      have := (hq _ hbit).not.2 hnlt
      simpa using this
    · intro k hk hkt
      obtain ⟨pos, hpbit, rfl⟩ := (mem_storedKeys c p k).1 hk
      have hpl := rs_get_lt hpbit
      have hpq : ¬ pos < q := by
        intro hlt
        rw [(hq pos hpbit).2 hlt] at hkt
        cases hkt
      rw [hkeyeq, fstring_lt_append_left]
      have hiff := @fstring_lt_beBytes_beBytes p.key_length
        (pos + p.min_value) (r.2.prefix_storage.pos + p.min_value) (by omega) (by omega)
      have hnot : ¬ (pos + p.min_value < r.2.prefix_storage.pos + p.min_value) := by
        intro hlt
        have h4 := rank1_succ p.rank_select pos
        rw [hpbit, if_pos rfl] at h4
        have h5 := rank1_mono p.rank_select (by omega : pos + 1 ≤ r.2.prefix_storage.pos)
        have h6 := rank1_mono p.rank_select (by omega : q ≤ pos)
        omega
      have := hiff.not.2 hnot
      simpa using this
    · intro hall
      exfalso
      have := (hq _ hbit).1 (hall _ (List.getElem?_mem hkey) |> fun h => by rw [hkeyeq] at h; exact h)
      exact hnlt this
    · have hlt := rank1_lt_max hbit
      simp only [DictRank, Prefix.IterDictRank,
        CompositeIndexAscendingUintPrefix.IterDictRank]
      rw [if_neg (by unfold size_t_max; omega), h3]
  · refine ⟨?_, fun _ => ⟨h1, h2⟩, ?_⟩
    · rintro ⟨k, hk, hkt⟩
      exfalso
      obtain ⟨pos, hpbit, rfl⟩ := (mem_storedKeys c p k).1 hk
      have hpq : ¬ pos < q := by
        intro hlt
        rw [(hq pos hpbit).2 hlt] at hkt
        cases hkt
      have h4 := rank1_lt_max hpbit
      have h6 := rank1_mono p.rank_select (by omega : q ≤ pos)
      omega
    · simp only [DictRank, Prefix.IterDictRank,
        CompositeIndexAscendingUintPrefix.IterDictRank]
      rw [if_pos h2, h3]

open CompositeIndexIterator in
/-- Witness of C6 on the index of the keys `[1]`, `[3]`: `Seek([2])` stands on
`[3]`, id 1, and `Seek([4])` fails. -/
theorem Seek_ascending_empty_suffix_witness :
    gapPrefix.WellFormed ∧
      (Seek (ascendingEmptyIndex [] gapPrefix) freshIterator [2] 0).1 = true ∧
      (Seek (ascendingEmptyIndex [] gapPrefix) freshIterator [2] 0).2.m_id =
        countLess (gapPrefix.storedKeys []) [2] ∧
      (Seek (ascendingEmptyIndex [] gapPrefix) freshIterator [4] 0).1 = false :=
  ⟨gapPrefix_wellFormed,
    ((Seek_ascending_empty_suffix [] gapPrefix gapPrefix_wellFormed freshIterator [2] 0).1
      ⟨[3], by decide, by decide⟩).1,
    ((Seek_ascending_empty_suffix [] gapPrefix gapPrefix_wellFormed freshIterator [2] 0).1
      ⟨[3], by decide, by decide⟩).2.1,
    ((Seek_ascending_empty_suffix [] gapPrefix gapPrefix_wellFormed freshIterator [4] 0).2.1
      (by decide)).1⟩

/-- C7, evaluated on the code. Scenario S3 (keys "AAAx", "AAAy", "AABa",
`key_length` 3) has the bitmap the spec prescribes, "AAAy" is its key of id 1,
and `Find("AAAy")` returns `size_t(-1)`: `Find` hands the whole key to
`ReadBigEndianUint64`, which reads `0x41414179 > max_value`, where the first
`key_length` bytes read `0x414141`. No stored key of S3 is found. -/
theorem nonDescending_Find_misses_stored_key :
    nonDescendingBitmap 0x414141 [0x414141, 0x414141, 0x414142] =
        [true, true, false, true, false] ∧
      scenarioS3.Find [65, 65, 65, 121] = size_t_max ∧
      ReadBigEndianUint64 [65, 65, 65, 121] = 0x41414179 ∧
      ReadBigEndianUint64 (List.take 3 [65, 65, 65, 121]) = 0x414141 ∧
      scenarioS3.Find [65, 65, 65, 120] = size_t_max ∧
      scenarioS3.Find [65, 65, 66, 97] = size_t_max := by
  decide

open CompositeIndexIterator in
/-- C8, evaluated on the code. On scenario S3, whatever the uninitialised
`suffix_count` holds, `Seek("AAAw")` returns true with id 2 and a cursor on
bitmap position 2, which is a zero bit; `key()` is then "AAAa", which is not a
stored key. The smallest stored key `≥ "AAAw"` is "AAAx", id 0. -/
theorem nonDescending_Seek_skips_group :
    (∀ sc₀ : Nat, Seek scenarioS3 freshIterator [65, 65, 65, 119] sc₀ =
        (true, ⟨2, ⟨[65, 65, 65, 0, 0, 0, 0, 0], 2⟩⟩)) ∧
      key scenarioS3 ⟨2, ⟨[65, 65, 65, 0, 0, 0, 0, 0], 2⟩⟩ = [65, 65, 65, 97] ∧
      rs_get [true, true, false, true, false] 2 = false ∧
      countLess [[65, 65, 65, 120], [65, 65, 65, 121], [65, 65, 66, 97]] [65, 65, 65, 119] = 0 :=
  ⟨fun sc₀ =>
      (Seek_nonDesc_count [] _ _ freshIterator [65, 65, 65, 119] sc₀ (by decide)
        (by decide)).trans (by decide),
    by decide, by decide, by decide⟩

/-- C9, evaluated on the code. The index of the keys "Ax", "By" (`key_length`
1, distinct heads, tails in a fixed-length suffix) does not find its own keys:
`Find("Ax")` and `Find("By")` return `size_t(-1)`, because `Find` hands the
whole key to `ReadBigEndianUint64`, which reads `0x4178 > max_value`. -/
theorem ascending_Find_with_suffix_misses_stored_key :
    ascendingSuffixIndex.Find [65, 120] = size_t_max ∧
      ascendingSuffixIndex.Find [66, 121] = size_t_max ∧
      ReadBigEndianUint64 [65, 120] = 0x4178 ∧
      ReadBigEndianUint64 (List.take 1 [65, 120]) = 0x41 := by
  decide

/-- C10, evaluated on the code. On scenario S3 `DictRank` returns 3 for each of
the stored keys "AAAx", "AAAy", "AABa", whose sorted positions are 0, 1, 2. -/
theorem nonDescending_DictRank_stored_key :
    scenarioS3.DictRank [65, 65, 65, 120] = 3 ∧
      scenarioS3.DictRank [65, 65, 65, 121] = 3 ∧
      scenarioS3.DictRank [65, 65, 66, 97] = 3 ∧
      countLess [[65, 65, 65, 120], [65, 65, 65, 121], [65, 65, 66, 97]] [65, 65, 65, 121] = 1 := by
  decide

/-! ## Lemmas on the build planner -/

namespace getFixedPrefixLength

theorem loop_zero (ks : KeyStat) (cplen : Nat) :
    loop ks cplen 0 = (failInfo, bestCost₀ ks cplen) := rfl

theorem loop_succ (ks : KeyStat) (cplen n : Nat) :
    loop ks cplen (n + 1) = step ks cplen (loop ks cplen n) (1 + n) := by
  unfold loop
  rw [List.range'_concat, List.foldl_append, Nat.one_mul]
  rfl

theorem candidate_key_length {ks : KeyStat} {cplen i : Nat} {info : UintPrefixBuildInfo}
    {c : Nat} (h : candidate ks cplen i = some (info, c)) : info.key_length = i := by
  unfold candidate at h
  split at h
  · cases h
  · simp only [Option.some.injEq, Prod.mk.injEq] at h
    rw [← h.1]
    rfl

theorem inv_loop (ks : KeyStat) (cplen n : Nat) : Inv ks cplen n (loop ks cplen n) := by
  induction n with
  | zero =>
    left
    exact ⟨rfl, fun j _ _ h1 h2 => by omega⟩
  | succ n ih =>
    rw [loop_succ, Nat.add_comm 1 n]
    generalize loop ks cplen n = st at ih
    unfold step
    cases hc : candidate ks cplen (n + 1) with
    | none =>
      simp only
      rcases ih with ⟨h1, h2⟩ | ⟨h1, h2, h3, h4, h5, h6⟩
      · left
        refine ⟨h1, fun j info c hj1 hj2 hj => ?_⟩
        rcases Nat.eq_or_lt_of_le hj2 with e | e
        · rw [e, hc] at hj; cases hj
        · exact h2 j info c hj1 (by omega) hj
      · right
        refine ⟨h1, by omega, h3, h4, h5, fun j info c hj1 hj2 hj => ?_⟩
        rcases Nat.eq_or_lt_of_le hj2 with e | e
        · rw [e, hc] at hj; cases hj
        · exact h6 j info c hj1 (by omega) hj
    | some ic =>
      obtain ⟨info, cost⟩ := ic
      have hkl := candidate_key_length hc
      simp only
      by_cases hacc : cost < st.2 ∧ cost < targetCost ks cplen
      · rw [if_pos hacc]
        right
        have hlt : cost < bestCost₀ ks cplen := by
          rcases ih with ⟨h1, _⟩ | ⟨_, _, _, _, h5, _⟩
          · rw [h1] at hacc; exact hacc.1
          · omega
        refine ⟨by simp only [hkl]; omega, by simp only [hkl]; omega, by simp only [hkl]; exact hc,
          hacc.2, hlt, fun j info' c hj1 hj2 hj => ?_⟩
        simp only [hkl]
        rcases Nat.eq_or_lt_of_le hj2 with e | e
        · rw [e, hc] at hj
          simp only [Option.some.injEq, Prod.mk.injEq] at hj
          exact ⟨by omega, fun h => by omega⟩
        · rcases ih with ⟨h1, h2⟩ | ⟨_, _, _, _, _, h6⟩
          · have := h2 j info' c hj1 (by omega) hj
            have : cost < c := by
              by_contra hcon
              exact this ⟨by omega, by omega⟩
            exact ⟨by omega, fun _ => this⟩
          · have := (h6 j info' c hj1 (by omega) hj).1
            exact ⟨by omega, fun _ => by omega⟩
      · rw [if_neg hacc]
        rcases ih with ⟨h1, h2⟩ | ⟨h1, h2, h3, h4, h5, h6⟩
        · left
          refine ⟨h1, fun j info' c hj1 hj2 hj => ?_⟩
          rcases Nat.eq_or_lt_of_le hj2 with e | e
          · rw [e, hc] at hj
            simp only [Option.some.injEq, Prod.mk.injEq] at hj
            rw [h1] at hacc
            rw [← hj.2]
            exact hacc
          · exact h2 j info' c hj1 (by omega) hj
        · right
          refine ⟨h1, by omega, h3, h4, h5, fun j info' c hj1 hj2 hj => ?_⟩
          rcases Nat.eq_or_lt_of_le hj2 with e | e
          · rw [e, hc] at hj
            simp only [Option.some.injEq, Prod.mk.injEq] at hj
            rw [← hj.2]
            have : st.2 ≤ cost := by
              by_contra hcon
              exact hacc ⟨by omega, by omega⟩
            exact ⟨this, fun h => by omega⟩
          · exact h6 j info' c hj1 (by omega) hj

end getFixedPrefixLength

namespace getFixedPrefixLength

theorem fewCount_eq (info : UintPrefixBuildInfo) (hb0 : info.bit_count0 < 2 ^ 64)
    (hb1 : info.bit_count1 < 2 ^ 64) :
    fewCount info = info.bit_count0 / 100 + info.bit_count1 / 100 := by
  unfold fewCount
  exact add64_eq (by omega)

theorem candidateInfo_bit_count0_lt (ks : KeyStat) (cplen i : Nat) :
    (candidateInfo ks cplen i).bit_count0 < 2 ^ 64 := by
  unfold candidateInfo
  simp only
  split_ifs <;> first
    | exact Nat.mod_lt _ (by norm_num)
    | (unfold size_t_max; norm_num)

theorem classify_isFewOne (info : UintPrefixBuildInfo) (keyCount : Nat)
    (h1 : info.entry_count ≠ info.max_value - info.min_value)
    (h2 : ¬ mul64 info.entry_count 2 < keyCount) :
    (∃ t c, classify info keyCount = some (t, c) ∧ t.isFewOne = true) ↔
      (info.bit_count1 < fewCount info ∧ info.bit_count1 < 2 ^ 48) := by
  unfold classify
  simp only [h1, h2, if_false]
  by_cases h3 : info.bit_count1 < fewCount info ∧ info.bit_count1 < 2 ^ 48
  · simp only [h3, and_self, if_true, iff_true]
    split_ifs <;> exact ⟨_, _, rfl, rfl⟩
  · simp only [h3, if_false, iff_false]
    rintro ⟨t, c, h, ht⟩
    split_ifs at h <;>
      (cases h; exact absurd ht (by decide))

theorem classify_asc_few_one_64 {info : UintPrefixBuildInfo} {keyCount c : Nat}
    (h : classify info keyCount = some (.asc_few_one_64, c)) :
    c = mul64 (mul64 info.bit_count1 8) 33 / 32 := by
  simp only [classify] at h
  split_ifs at h <;>
    (cases h <;> rfl)

theorem candidate_asc_few_one_64 {ks : KeyStat} {cplen i : Nat} {info : UintPrefixBuildInfo}
    {c : Nat} (h : candidate ks cplen i = some (info, c))
    (ht : info.type = .asc_few_one_64) :
    c = add64 (mul64 (mul64 ks.prefix_m_cnt_sum 8) 33 / 32) (suffixCost ks cplen i) := by
  unfold candidate at h
  split at h
  · cases h
  · rename_i type prefixCost hcl
    simp only [Option.some.injEq, Prod.mk.injEq] at h
    have e : type = .asc_few_one_64 := by
      rw [← h.1] at ht
      exact ht
    rw [e] at hcl
    rw [← h.2, classify_asc_few_one_64 hcl]
    rfl

end getFixedPrefixLength

/-- The result of the planner and what the loop invariant says about it. -/
theorem getFixedPrefixLength_inv (ks : KeyStat) (cplen : Nat) :
    getFixedPrefixLength.Inv ks cplen (getFixedPrefixLength.maxPrefixLen ks cplen)
      (getFixedPrefixLength.loop ks cplen (getFixedPrefixLength.maxPrefixLen ks cplen)) :=
  getFixedPrefixLength.inv_loop ks cplen _

theorem getFixedPrefixLength_cases (ks : KeyStat) (cplen : Nat) :
    getFixedPrefixLength ks cplen = getFixedPrefixLength.failInfo ∨
      (1 ≤ (getFixedPrefixLength ks cplen).key_length ∧
        (getFixedPrefixLength ks cplen).key_length ≤
          getFixedPrefixLength.maxPrefixLen ks cplen ∧
        ∃ c, getFixedPrefixLength.candidate ks cplen (getFixedPrefixLength ks cplen).key_length =
            some (getFixedPrefixLength ks cplen, c) ∧
          c < getFixedPrefixLength.bestCost₀ ks cplen) := by
  unfold getFixedPrefixLength
  rcases getFixedPrefixLength_inv ks cplen with ⟨h1, _⟩ | ⟨h1, h2, h3, _, h5, _⟩
  · left; rw [h1]
  · right
    exact ⟨h1, h2, _, h3, h5⟩

/-! ### Rank bounds -/

theorem lower_bound_one (rows : List fstring) (t : fstring) (id : Nat) :
    lower_bound rows t 1 id = id ∨ lower_bound rows t 1 id = id + 1 := by
  simp only [lower_bound]
  split_ifs
  · right; rfl
  · left; rfl

theorem Suffix.LowerBound_one (s : Suffix) (t : fstring) (id : Nat) (h : id + 1 < 2 ^ 64) :
    (s.LowerBound t id 1).1 = id ∨ (s.LowerBound t id 1).1 = id + 1 := by
  cases s with
  | Empty => left; rfl
  | FixedString rows =>
    have e1 : add64 id 1 = id + 1 := add64_eq h
    have e2 : sub64 (id + 1) id = 1 := by rw [sub64_eq (by omega) h]; omega
    simp only [Suffix.LowerBound, e1, e2]
    rcases lower_bound_one rows t id with e | e
    · left; rw [e]; split_ifs <;> rfl
    · right; rw [e]; split_ifs <;> rfl

open CompositeIndexAscendingUintPrefix in
theorem asc_DictRank_le (p : CompositeIndexAscendingUintPrefix) (hwf : p.WellFormed)
    (key : fstring) (suffix : Option Suffix) :
    p.DictRank key suffix ≤ max_rank1 p.rank_select := by
  have hN : max_rank1 p.rank_select < 2 ^ 64 :=
    lt_of_le_of_lt (max_rank1_le_length _) hwf.size_lt
  unfold DictRank
  simp only
  rcases asc_SeekImpl_spec p hwf key 0 with ⟨h1, h2, h3, h4⟩ | ⟨h1, _, _⟩
  · have hlt := rank1_lt_max h3
    rw [h4, ← h2] at hlt
    simp only [h1, Bool.not_true, Bool.false_eq_true, if_false]
    split_ifs
    · rw [add64_eq (by omega)]; omega
    · cases suffix with
      | none => simp only; omega
      | some s =>
        simp only
        rcases Suffix.LowerBound_one s (key.drop p.key_length) (p.SeekImpl key 0).2.1
          (by omega) with e | e <;> rw [e] <;> omega
  · simp [h1]

/-! ## The claims on rank bounds, the planner and persistence -/

/-- C11. `CompositeIndex::DictRank` on a key that does not start with the
common prefix: with `cp` the length of the longest common prefix of the key and
`common_` (so `cp < |common_|`), it returns 0 when `|key| = cp` or
`key[cp] < common_[cp]` (bytes compared unsigned) and `NumKeys()` otherwise;
and for every list of `NumKeys()` stored keys that all start with `common_`,
this value is the number of stored keys smaller than the key. -/
theorem DictRank_common_mismatch (idx : CompositeIndex) (key : fstring)
    (h : commonPrefixLen key idx.common_ ≠ idx.common_.length) :
    commonPrefixLen key idx.common_ < idx.common_.length ∧
    idx.DictRank key =
      (if key.length = commonPrefixLen key idx.common_ ∨
          key.getD (commonPrefixLen key idx.common_) 0 <
            idx.common_.getD (commonPrefixLen key idx.common_) 0
        then 0 else idx.NumKeys) ∧
    ∀ keys : List fstring, keys.length = idx.NumKeys →
      (∀ k ∈ keys, ∃ x, k = idx.common_ ++ x) → idx.DictRank key = countLess keys key := by
  have hle := commonPrefixLen_le_right key idx.common_
  have hval : idx.DictRank key =
      (if key.length = commonPrefixLen key idx.common_ ∨
          key.getD (commonPrefixLen key idx.common_) 0 <
            idx.common_.getD (commonPrefixLen key idx.common_) 0
        then 0 else idx.NumKeys) := by
    simp only [CompositeIndex.DictRank, ne_eq, h, not_false_eq_true, if_true]
  refine ⟨by omega, hval, fun keys hlen hkeys => ?_⟩
  rw [hval]
  unfold countLess
  by_cases hc : key.length = commonPrefixLen key idx.common_ ∨
      key.getD (commonPrefixLen key idx.common_) 0 <
        idx.common_.getD (commonPrefixLen key idx.common_) 0
  · rw [if_pos hc]
    symm
    rw [List.countP_eq_zero]
    intro k hk
    obtain ⟨x, rfl⟩ := hkeys k hk
    rw [fstring_lt_of_mismatch key idx.common_ x h, decide_eq_true hc]
    simp
  · rw [if_neg hc, ← hlen]
    symm
    rw [List.countP_eq_length]
    intro k hk
    obtain ⟨x, rfl⟩ := hkeys k hk
    rw [fstring_lt_of_mismatch key idx.common_ x h, decide_eq_false hc]
    rfl

/-- Witness of C11 on an index with common prefix "AB" over scenario S1's
prefix: the key "AA" sorts before every stored key and has rank 0. -/
theorem DictRank_common_mismatch_witness :
    commonPrefixLen [65, 65] [65, 66] ≠ [65, 66].length ∧
      (ascendingEmptyIndex [65, 66] scenarioS1Prefix).DictRank [65, 65] = 0 :=
  ⟨by decide,
    (DictRank_common_mismatch (ascendingEmptyIndex [65, 66] scenarioS1Prefix) [65, 65]
      (by decide)).2.1.trans (by decide)⟩

/-- C12. For a composite index with a well-formed ascending uint prefix
(`N ≥ 1` keys, first and last bit set), with either suffix (the empty suffix is
passed as the null pointer; `LowerBound(target, id, 1)` of a suffix returns
`id` or `id + 1`), and for every key: `DictRank(key) ≤ N`. -/
theorem DictRank_ascending_le_NumKeys (c : fstring) (p : CompositeIndexAscendingUintPrefix)
    (hwf : p.WellFormed) (suffix : Suffix) (key : fstring) :
    1 ≤ (CompositeIndex.mk c (.AscendingUint p) suffix).NumKeys ∧
    (CompositeIndex.mk c (.AscendingUint p) suffix).DictRank key ≤
      (CompositeIndex.mk c (.AscendingUint p) suffix).NumKeys ∧
    (∀ (t : fstring) (id : Nat), id + 1 < 2 ^ 64 →
      (suffix.LowerBound t id 1).1 = id ∨ (suffix.LowerBound t id 1).1 = id + 1) := by
  refine ⟨?_, ?_, fun t id h => Suffix.LowerBound_one suffix t id h⟩
  · have := rank1_lt_max hwf.first_set
    simp only [CompositeIndex.NumKeys, Prefix.KeyCount,
      CompositeIndexAscendingUintPrefix.KeyCount]
    omega
  · simp only [CompositeIndex.DictRank, CompositeIndex.NumKeys, Prefix.KeyCount,
      CompositeIndexAscendingUintPrefix.KeyCount, Prefix.DictRank]
    split_ifs
    · exact Nat.zero_le _
    · exact le_refl _
    · exact asc_DictRank_le p hwf _ _

/-- Witness of C12 on the index of the keys "Ax", "By" (ascending prefix with a
fixed-length suffix): `DictRank("Ax") ≤ 2`. -/
theorem DictRank_ascending_le_NumKeys_witness :
    CompositeIndexAscendingUintPrefix.WellFormed ⟨[true, true], 1, 0x41, 0x42⟩ ∧
      ascendingSuffixIndex.DictRank [65, 120] ≤ ascendingSuffixIndex.NumKeys :=
  ⟨⟨by decide, by decide, by decide, by decide, by decide, by decide, by decide, by decide⟩,
    (DictRank_ascending_le_NumKeys [] ⟨[true, true], 1, 0x41, 0x42⟩
      ⟨by decide, by decide, by decide, by decide, by decide, by decide, by decide, by decide⟩
      (.FixedString [[120], [121]]) [65, 120]).2.1⟩

open getFixedPrefixLength in
/-- C13. If `getFixedPrefixLength` returns a plan with `key_length = L > 0`,
then `L ≤ min(8, minKeyLen - cplen)`, the plan is the candidate of head length
`L` with its estimated cost `prefixCost + suffixCost`, and that cost is `≤` the
cost of every candidate `L'` in `1 .. min(8, minKeyLen - cplen)` that was not
skipped and `<` the cost of every such candidate with `L' < L`. -/
theorem planner_optimal (ks : KeyStat) (cplen : Nat)
    (h : 0 < (getFixedPrefixLength ks cplen).key_length) :
    (getFixedPrefixLength ks cplen).key_length ≤ maxPrefixLen ks cplen ∧
    ∃ cost, candidate ks cplen (getFixedPrefixLength ks cplen).key_length =
        some (getFixedPrefixLength ks cplen, cost) ∧
      ∀ L' info c, 1 ≤ L' → L' ≤ maxPrefixLen ks cplen →
        candidate ks cplen L' = some (info, c) →
        cost ≤ c ∧ (L' < (getFixedPrefixLength ks cplen).key_length → cost < c) := by
  unfold getFixedPrefixLength at h ⊢
  rcases getFixedPrefixLength_inv ks cplen with ⟨h1, _⟩ | ⟨_, h2, h3, _, _, h6⟩
  · rw [h1] at h
    exact absurd h (Nat.lt_irrefl 0)
  · exact ⟨h2, _, h3, h6⟩

open getFixedPrefixLength in
/-- Witness of C13 on the statistics of the keys "Ax", "Ay", "Cz": the plan has
head length 1 and cost 3, below the cost 12 of head length 2. -/
theorem planner_optimal_witness :
    0 < (getFixedPrefixLength keyStatRepeatedHead 0).key_length ∧
      ∃ cost, candidate keyStatRepeatedHead 0
          (getFixedPrefixLength keyStatRepeatedHead 0).key_length =
          some (getFixedPrefixLength keyStatRepeatedHead 0, cost) ∧
        ∀ L' info c, 1 ≤ L' → L' ≤ maxPrefixLen keyStatRepeatedHead 0 →
          candidate keyStatRepeatedHead 0 L' = some (info, c) →
          cost ≤ c ∧ (L' < (getFixedPrefixLength keyStatRepeatedHead 0).key_length → cost < c) :=
  ⟨by decide, (planner_optimal keyStatRepeatedHead 0 (by decide)).2⟩

/-- C14, evaluated on the code. For the statistics of the keys "Ax", "Ay", "Cz"
(one-byte heads "A", "A", "C") the planner returns a plan of type `asc_allone`
with `key_length` 1 whose `entry_count` 2 is not its `key_count` 3; the same
happens on the statistics of scenario S2 (heads `00`, `00`, `02`). -/
theorem planner_allone_not_ascending :
    getFixedPrefixLength keyStatRepeatedHead
        (commonPrefixLen keyStatRepeatedHead.minKey keyStatRepeatedHead.maxKey) =
      ⟨1, 3, 2, 6, 3, 65, 67, .asc_allone⟩ ∧
    getFixedPrefixLength keyStatS2 (commonPrefixLen keyStatS2.minKey keyStatS2.maxKey) =
      ⟨1, 3, 2, 6, 3, 0, 2, .asc_allone⟩ := by
  decide

open getFixedPrefixLength in
/-- C15, the claim fails. For the two keys `[0, 0]`, `[1, 44]` the candidate of
head length 2 has `bit_count0 = 299`, `bit_count1 = 2`; it is not AllOne and is
not skipped for collisions, and `bit_count1 < (bit_count0 + bit_count1) / 100`
and `bit_count1 < 2^48` hold, yet its type is `asc_il_256`, not a FewOne
variant. -/
theorem planner_few_one_counterexample :
    (candidateInfo keyStatTwoKeys 0 2).bit_count0 = 299 ∧
    (candidateInfo keyStatTwoKeys 0 2).bit_count1 = 2 ∧
    (candidateInfo keyStatTwoKeys 0 2).entry_count ≠
      (candidateInfo keyStatTwoKeys 0 2).max_value - (candidateInfo keyStatTwoKeys 0 2).min_value ∧
    ¬ mul64 (candidateInfo keyStatTwoKeys 0 2).entry_count 2 < keyStatTwoKeys.prefix_m_cnt_sum ∧
    ((candidateInfo keyStatTwoKeys 0 2).bit_count1 <
        ((candidateInfo keyStatTwoKeys 0 2).bit_count0 +
          (candidateInfo keyStatTwoKeys 0 2).bit_count1) / 100 ∧
      (candidateInfo keyStatTwoKeys 0 2).bit_count1 < 2 ^ 48) ∧
    candidate keyStatTwoKeys 0 2 = some (⟨2, 2, 2, 299, 2, 0, 300, .asc_il_256⟩, 395) ∧
    UintPrefixType.asc_il_256.isFewOne = false := by
  decide

open getFixedPrefixLength in
/-- C15, amended. For a candidate that is neither AllOne nor skipped for
collisions (and a key count that is a `size_t`), the planner selects a FewOne
variant exactly when `bit_count1 < bit_count0 / 100 + bit_count1 / 100` (each
count divided on its own) and `bit_count1 < 2^48`. -/
theorem planner_few_one_iff (ks : KeyStat) (cplen i : Nat)
    (hN : ks.prefix_m_cnt_sum < 2 ^ 64)
    (h1 : (candidateInfo ks cplen i).entry_count ≠
      (candidateInfo ks cplen i).max_value - (candidateInfo ks cplen i).min_value)
    (h2 : ¬ mul64 (candidateInfo ks cplen i).entry_count 2 < ks.prefix_m_cnt_sum) :
    (∃ info c, candidate ks cplen i = some (info, c) ∧ info.type.isFewOne = true) ↔
      ((candidateInfo ks cplen i).bit_count1 <
          (candidateInfo ks cplen i).bit_count0 / 100 +
            (candidateInfo ks cplen i).bit_count1 / 100 ∧
        (candidateInfo ks cplen i).bit_count1 < 2 ^ 48) := by
  rw [← fewCount_eq _ (candidateInfo_bit_count0_lt ks cplen i) hN,
    ← classify_isFewOne _ ks.prefix_m_cnt_sum h1 h2]
  unfold candidate
  constructor
  · rintro ⟨info, c, h, ht⟩
    split at h
    · cases h
    · rename_i type prefixCost hcl
      simp only [Option.some.injEq, Prod.mk.injEq] at h
      refine ⟨type, prefixCost, hcl, ?_⟩
      rw [← h.1] at ht
      exact ht
  · rintro ⟨t, c, h, ht⟩
    rw [h]
    exact ⟨_, _, rfl, ht⟩

open getFixedPrefixLength in
/-- Witness of C15 (amended) on the two keys `[0, 0]`, `[1, 44]`, head length
2: no FewOne variant, and `2 < 299 / 100 + 2 / 100` fails. -/
theorem planner_few_one_iff_witness :
    keyStatTwoKeys.prefix_m_cnt_sum < 2 ^ 64 ∧
      ¬ ∃ info c, candidate keyStatTwoKeys 0 2 = some (info, c) ∧ info.type.isFewOne = true :=
  ⟨by decide, fun h =>
    absurd ((planner_few_one_iff keyStatTwoKeys 0 2 (by decide) (by decide) (by decide)).1 h)
      (by decide)⟩

open getFixedPrefixLength CompositeIndexFactoryBase in
/-- C16, the claim fails. For the statistics of scenario S1 the common prefix of
`minKey` and `maxKey` is 3 bytes long, the only candidate is head length 1, of
type `asc_il_256` and cost 21, which is not below the baseline 16: the planner
returns the `fail` plan with `key_length` 0, not `asc_allone` with `key_length`
4, and `Build` goes on to a trie. -/
theorem planner_S1_counterexample :
    commonPrefixLen keyStatS1.minKey keyStatS1.maxKey = 3 ∧
    maxPrefixLen keyStatS1 3 = 1 ∧
    candidate keyStatS1 3 1 = some (⟨1, 16, 16, 0, 16, 1, 16, .asc_il_256⟩, 21) ∧
    bestCost₀ keyStatS1 3 = 16 ∧
    getFixedPrefixLength keyStatS1 (commonPrefixLen keyStatS1.minKey keyStatS1.maxKey) =
      ⟨0, 0, 0, 0, 0, 0, 0, .fail⟩ ∧
    (Build keyStatS1).map (fun parts => parts.prefixName) =
      some (.NestLoudsTrie .NestLoudsTrieDAWG_SE_512_64_FL) := by
  decide

open getFixedPrefixLength CompositeIndexFactoryBase in
/-- C16, amended. For every `KeyStat` with the statistics of scenario S1
(`minKey = 00 00 00 01`, `maxKey = 00 00 00 10`, `minKeyLen = maxKeyLen = 4`),
whatever its other fields: the common prefix of `minKey` and `maxKey` is 3 bytes
long, the plan of `getFixedPrefixLength` has `key_length ≤ 1`, and when it has
`key_length = 1` and `Build` gets past its `switch`, `Build` reads the keys
through `DefaultInputBuffer` and pairs the prefix with the empty suffix. -/
theorem planner_S1 (ks : KeyStat) (h1 : ks.minKey = beBytes 4 1)
    (h2 : ks.maxKey = beBytes 4 16) (h3 : ks.minKeyLen = 4) (h4 : ks.maxKeyLen = 4) :
    commonPrefixLen ks.minKey ks.maxKey = 3 ∧
    (getFixedPrefixLength ks (commonPrefixLen ks.minKey ks.maxKey)).key_length ≤ 1 ∧
    ((getFixedPrefixLength ks (commonPrefixLen ks.minKey ks.maxKey)).key_length = 1 →
      ∀ parts, Build ks = some parts →
        parts.prefixInput = .Default ∧ parts.suffixInput = none ∧
          parts.suffixName = .Empty ∧ parts.suffixObject = .Empty) := by
  have hcp : commonPrefixLen ks.minKey ks.maxKey = 3 := by rw [h1, h2]; decide
  have hmax : maxPrefixLen ks 3 = 1 := by unfold maxPrefixLen; rw [h3]; decide
  rw [hcp]
  refine ⟨rfl, ?_, ?_⟩
  · rcases getFixedPrefixLength_cases ks 3 with h | ⟨_, h, _⟩
    · rw [h]; decide
    · rw [hmax] at h; exact h
  · intro hk parts hparts
    unfold CompositeIndexFactoryBase.Build at hparts
    simp only [hcp, hk, h3, h4] at hparts
    rw [if_pos (by decide), if_pos (by decide)] at hparts
    split at hparts
    · cases hparts
    · cases hparts
      exact ⟨rfl, rfl, rfl, rfl⟩

open getFixedPrefixLength CompositeIndexFactoryBase in
/-- Witness of C16 (amended) on the statistics of scenario S1. -/
theorem planner_S1_witness :
    keyStatS1.minKey = beBytes 4 1 ∧ keyStatS1.maxKey = beBytes 4 16 ∧
      (getFixedPrefixLength keyStatS1
        (commonPrefixLen keyStatS1.minKey keyStatS1.maxKey)).key_length ≤ 1 :=
  ⟨rfl, rfl, (planner_S1 keyStatS1 rfl rfl rfl rfl).2.1⟩

/-- C17, the claim fails. For the statistics of scenario S2 the planner returns
a plan of head length 1, not of type `asc_few_one_64`; the candidate of type
`asc_few_one_64` is head length 5, and its cost 24 is above the baseline 15. -/
theorem planner_S2_counterexample :
    (getFixedPrefixLength keyStatS2
        (commonPrefixLen keyStatS2.minKey keyStatS2.maxKey)).key_length = 1 ∧
    (getFixedPrefixLength keyStatS2
        (commonPrefixLen keyStatS2.minKey keyStatS2.maxKey)).type ≠ .asc_few_one_64 ∧
    getFixedPrefixLength.candidate keyStatS2 3 5 =
      some (⟨5, 3, 3, 9999999898, 3, 100, 10000000000, .asc_few_one_64⟩, 24) ∧
    getFixedPrefixLength.bestCost₀ keyStatS2 3 = 15 := by
  decide

open getFixedPrefixLength in
/-- C17, amended. For every `KeyStat` with the statistics of scenario S2
(`minKey = be8(100)`, `maxKey = be8(10000000000)`, `minKeyLen = maxKeyLen = 8`,
`N = 3`, `sumKeyLen = 24`), whatever its other fields, the planner does not
return a plan of type `asc_few_one_64`: such a candidate costs at least 24 and
the baseline is 15. -/
theorem planner_S2 (ks : KeyStat) (h1 : ks.minKey = beBytes 8 100)
    (h2 : ks.maxKey = beBytes 8 10000000000) (h3 : ks.minKeyLen = 8) (h4 : ks.maxKeyLen = 8)
    (h5 : ks.prefix_m_cnt_sum = 3) (h6 : ks.sumKeyLen = 24) :
    commonPrefixLen ks.minKey ks.maxKey = 3 ∧
    bestCost₀ ks 3 = 15 ∧
    (getFixedPrefixLength ks (commonPrefixLen ks.minKey ks.maxKey)).type ≠ .asc_few_one_64 := by
  have hcp : commonPrefixLen ks.minKey ks.maxKey = 3 := by rw [h1, h2]; decide
  have hmax : maxPrefixLen ks 3 = 5 := by unfold maxPrefixLen; rw [h3]; decide
  have htot : totalKeySize ks 3 = 15 := by unfold totalKeySize; rw [h5, h6]; decide
  have hbest : bestCost₀ ks 3 = 15 := by
    unfold bestCost₀
    rw [if_neg (by rw [h3, h4]; exact fun h => h rfl), htot]
  rw [hcp]
  refine ⟨rfl, hbest, ?_⟩
  rcases getFixedPrefixLength_cases ks 3 with h | ⟨hL1, hL2, c, hc, hlt⟩
  · rw [h]; decide
  · intro ht
    have hcost := candidate_asc_few_one_64 hc ht
    rw [hmax] at hL2
    rw [hbest] at hlt
    rw [h5] at hcost
    generalize (getFixedPrefixLength ks 3).key_length = L at hL1 hL2 hcost
    unfold suffixCost at hcost
    rw [htot, h5] at hcost
    have hge : 24 ≤ c := by
      rw [hcost]
      interval_cases L <;> split_ifs <;> decide
    omega

open getFixedPrefixLength in
/-- Witness of C17 (amended) on the statistics of scenario S2. -/
theorem planner_S2_witness :
    keyStatS2.prefix_m_cnt_sum = 3 ∧ keyStatS2.sumKeyLen = 24 ∧
      (getFixedPrefixLength keyStatS2
        (commonPrefixLen keyStatS2.minKey keyStatS2.maxKey)).type ≠ .asc_few_one_64 :=
  ⟨rfl, rfl, (planner_S2 keyStatS2 rfl rfl rfl rfl rfl rfl).2.2⟩

open CompositeIndexFactoryBase in
/-- C18, evaluated on the code. For the statistics of scenario S4 no uint head
wins, `Build` builds a `CompositeIndexNestLoudsTriePrefix` over
`NestLoudsTrieDAWG_SE_512_64_FL`, and the combination it assembles is not in the
registry: `GetFactoryByCombinName` returns `NULL`. The same holds for every
`KeyStat` whose plan has `key_length` 0, and `Build` finds a factory only when
the plan is of type `asc_il_256`. -/
theorem Build_combination_not_registered :
    (getFixedPrefixLength keyStatS4
        (commonPrefixLen keyStatS4.minKey keyStatS4.maxKey)).key_length = 0 ∧
    (Build keyStatS4).map (fun parts => (parts.prefixName, parts.suffixName)) =
      some (.NestLoudsTrie .NestLoudsTrieDAWG_SE_512_64_FL, .Empty) ∧
    BuildFactory keyStatS4 = none ∧
    (∀ ks : KeyStat,
      (getFixedPrefixLength ks (commonPrefixLen ks.minKey ks.maxKey)).key_length = 0 →
        BuildFactory ks = none) ∧
    (∀ ks : KeyStat, BuildFactory ks ≠ none →
      (getFixedPrefixLength ks (commonPrefixLen ks.minKey ks.maxKey)).type = .asc_il_256) := by
  refine ⟨by decide, by decide, by decide, ?_, ?_⟩
  · intro ks h
    unfold BuildFactory CompositeIndexFactoryBase.Build
    simp only [h, lt_irrefl, if_false]
    split_ifs <;> rfl
  · intro ks h
    unfold BuildFactory CompositeIndexFactoryBase.Build at h
    simp only at h
    cases ht : (getFixedPrefixLength ks (commonPrefixLen ks.minKey ks.maxKey)).type <;>
      first
        | rfl
        | (exfalso
           apply h
           rw [ht]
           simp only [fullKeyPrefixName, splitPrefixName]
           split_ifs <;> rfl)

open CompositeIndexFactoryBase in
/-- C19. When no uint head length wins (the plan has `key_length` 0) and the
statistics fit 64-bit arithmetic, `Build` chooses the trie layout by first
match: the fixed-tail split (`FixSuffixPrefixInputBuffer` and
`FixSuffixInputBuffer`) iff
`sumKeyLen - minSuffixLen * N < floor(5 * prefix.total_key_len / 4)`; otherwise
the minimal-prefix split (`MinimizePrefixInputBuffer` and
`MinimizePrefixRemainingInputBuffer`) iff
`prefix.total_key_len < floor(31 * sumKeyLen / 32)`; otherwise the full-key
trie (`DefaultInputBuffer`) with the empty suffix. -/
theorem Build_trie_choice (ks : KeyStat)
    (h0 : (getFixedPrefixLength ks (commonPrefixLen ks.minKey ks.maxKey)).key_length = 0)
    (hfit : ks.FitsTrieChoice) :
    ∃ parts, Build ks = some parts ∧
      parts.prefixName = .NestLoudsTrie .NestLoudsTrieDAWG_SE_512_64_FL ∧
      (parts.prefixInput = .FixSuffixPrefix ∧ parts.suffixInput = some .FixSuffix ↔
        ks.sumKeyLen - ks.minSuffixLen * ks.prefix_m_cnt_sum <
          5 * ks.prefix_m_total_key_len / 4) ∧
      (parts.prefixInput = .MinimizePrefix ∧
          parts.suffixInput = some .MinimizePrefixRemaining ↔
        ¬ ks.sumKeyLen - ks.minSuffixLen * ks.prefix_m_cnt_sum <
            5 * ks.prefix_m_total_key_len / 4 ∧
          ks.prefix_m_total_key_len < 31 * ks.sumKeyLen / 32) ∧
      (parts.prefixInput = .Default ∧ parts.suffixInput = none ∧
          parts.suffixObject = .Empty ↔
        ¬ ks.sumKeyLen - ks.minSuffixLen * ks.prefix_m_cnt_sum <
            5 * ks.prefix_m_total_key_len / 4 ∧
          ¬ ks.prefix_m_total_key_len < 31 * ks.sumKeyLen / 32) := by
  obtain ⟨hf1, hf2, hf3⟩ := hfit
  have e1 : sub64 ks.sumKeyLen (mul64 ks.minSuffixLen ks.prefix_m_cnt_sum) =
      ks.sumKeyLen - ks.minSuffixLen * ks.prefix_m_cnt_sum := by
    have : mul64 ks.minSuffixLen ks.prefix_m_cnt_sum = ks.minSuffixLen * ks.prefix_m_cnt_sum :=
      Nat.mod_eq_of_lt (by omega)
    rw [this, sub64_eq hf1 (by omega)]
  have e2 : mul64 ks.prefix_m_total_key_len 5 / 4 = 5 * ks.prefix_m_total_key_len / 4 := by
    unfold mul64
    rw [Nat.mod_eq_of_lt hf3, Nat.mul_comm]
  have e3 : mul64 ks.sumKeyLen 31 / 32 = 31 * ks.sumKeyLen / 32 := by
    unfold mul64
    rw [Nat.mod_eq_of_lt hf2, Nat.mul_comm]
  unfold CompositeIndexFactoryBase.Build
  simp only [h0, lt_irrefl, if_false, e1, e2, e3]
  by_cases c1 : ks.sumKeyLen - ks.minSuffixLen * ks.prefix_m_cnt_sum <
      5 * ks.prefix_m_total_key_len / 4
  · rw [if_pos c1]
    exact ⟨_, rfl, rfl, by simp [c1], by simp [c1], by simp [c1]⟩
  · rw [if_neg c1]
    by_cases c2 : ks.prefix_m_total_key_len < 31 * ks.sumKeyLen / 32
    · rw [if_pos c2]
      split_ifs <;> exact ⟨_, rfl, rfl, by simp [c1], by simp [c1, c2], by simp [c2]⟩
    · rw [if_neg c2]
      exact ⟨_, rfl, rfl, by simp [c1], by simp [c2], by simp [c1, c2, BuildEmptySuffix]⟩

open CompositeIndexFactoryBase in
/-- Witness of C19 on the statistics of scenario S4. -/
theorem Build_trie_choice_witness :
    (getFixedPrefixLength keyStatS4
        (commonPrefixLen keyStatS4.minKey keyStatS4.maxKey)).key_length = 0 ∧
      keyStatS4.FitsTrieChoice ∧
      ∃ parts, Build keyStatS4 = some parts ∧
        parts.prefixName = .NestLoudsTrie .NestLoudsTrieDAWG_SE_512_64_FL :=
  ⟨by decide, ⟨by decide, by decide, by decide⟩,
    (Build_trie_choice keyStatS4 (by decide) ⟨by decide, by decide, by decide⟩).imp
      fun _ h => ⟨h.1, h.2.1⟩⟩

/-- C20, the claim fails. `SaveMmap` of the index of scenario S1 writes no
block at all, so no 128-byte header, and `LoadMemory` of what was written
returns no index. -/
theorem persistence_counterexample :
    scenarioS1.SaveMmap = [] ∧
    scenarioS1.SaveMmap.flatten.length < 128 ∧
    CompositeIndexFactoryBase.LoadMemory scenarioS1.SaveMmap.flatten = none := by
  decide

/-- C20, amended. Persistence of a composite index is not implemented: for
every composite index `SaveMmap` writes nothing, `LoadMemory` of the composite
factories returns no index for every input, and so `TerarkIndex::LoadMemory`
returns an index for no input, whatever names are registered. -/
theorem persistence_not_implemented (idx : CompositeIndex) (names : List fstring)
    (mem : fstring) :
    idx.SaveMmap = [] ∧
    CompositeIndexFactoryBase.LoadMemory mem = none ∧
    ∀ loaded, TerarkIndex.LoadMemory names mem ≠ .index loaded := by
  refine ⟨rfl, rfl, fun loaded => ?_⟩
  unfold TerarkIndex.LoadMemory
  simp only [CompositeIndexFactoryBase.LoadMemory]
  cases TerarkIndex.headerClassName mem with
  | none => exact fun h => by cases h
  | some class_name =>
    simp only
    split_ifs <;> exact fun h => by cases h

/-! ## Lemmas on the planner guards and the fills -/

namespace getFixedPrefixLength

theorem classify_guards {info : UintPrefixBuildInfo} {keyCount : Nat} {t : UintPrefixType}
    {c : Nat} (h : classify info keyCount = some (t, c)) :
    t ≠ .fail ∧
    (t.isIL256 = true ∨ t.isSE512 = true →
      info.bit_count0 < 2 ^ 56 ∧ info.bit_count1 < 2 ^ 56 ∧
        (t.isIL256 = true ↔ add64 info.bit_count0 info.bit_count1 ≤ 2 ^ 32 - 1)) ∧
    (t.isFewOne = true → info.bit_count1 < 2 ^ 48) ∧
    (t.isFewZero = true → info.bit_count0 < fewCount info ∧ info.bit_count0 < 2 ^ 48) ∧
    (t.isNonDesc = true → info.entry_count ≠ keyCount) ∧
    (t ≠ .asc_allone → ¬ mul64 info.entry_count 2 < keyCount) := by
  simp only [classify] at h
  split_ifs at h with h1 h2 h3 h4 h5 h6 h7 h8 h9 h10 h11 h12 <;>
    simp only [Option.some.injEq, Prod.mk.injEq, reduceCtorEq] at h <;>
    obtain ⟨rfl, -⟩ := h <;>
    simp_all [UintPrefixType.isIL256, UintPrefixType.isSE512, UintPrefixType.isFewOne,
      UintPrefixType.isFewZero, UintPrefixType.isNonDesc]

theorem candidate_some {ks : KeyStat} {cplen i : Nat} {info : UintPrefixBuildInfo} {c : Nat}
    (h : candidate ks cplen i = some (info, c)) :
    ∃ pc, classify (candidateInfo ks cplen i) ks.prefix_m_cnt_sum = some (info.type, pc) ∧
      info = { candidateInfo ks cplen i with type := info.type } := by
  unfold candidate at h
  split at h
  · cases h
  · rename_i type prefixCost hcl
    simp only [Option.some.injEq, Prod.mk.injEq] at h
    obtain ⟨h1, -⟩ := h
    subst h1
    exact ⟨prefixCost, hcl, rfl⟩

theorem candidateInfo_eq (ks : KeyStat) (cplen i : Nat) :
    ∃ lo hi, lo ≤ hi ∧ hi < 2 ^ 64 ∧
      candidateInfo ks cplen i =
        ⟨i, ks.prefix_m_cnt_sum, entryCnt ks cplen (i - 1),
          if entryCnt ks cplen (i - 1) = ks.prefix_m_cnt_sum then
            add64 (sub64 (hi - lo) ks.prefix_m_cnt_sum) 1
          else if add64 ks.prefix_m_cnt_sum 1 > size_t_max - (hi - lo) then size_t_max
          else add64 (add64 (hi - lo) ks.prefix_m_cnt_sum) 1,
          ks.prefix_m_cnt_sum, lo, hi, .fail⟩ := by
  have h1 : ReadBigEndianUint64 ((ks.minKey.drop cplen).take i) < 2 ^ 64 :=
    Nat.mod_lt _ (by norm_num)
  have h2 : ReadBigEndianUint64 ((ks.maxKey.drop cplen).take i) < 2 ^ 64 :=
    Nat.mod_lt _ (by norm_num)
  by_cases h : ReadBigEndianUint64 ((ks.minKey.drop cplen).take i) >
      ReadBigEndianUint64 ((ks.maxKey.drop cplen).take i)
  · refine ⟨_, _, Nat.le_of_lt h, h1, ?_⟩
    simp only [candidateInfo, h, if_true]
  · refine ⟨_, _, Nat.le_of_not_lt h, h2, ?_⟩
    simp only [candidateInfo, h, if_false]

/-- The zero count of a candidate that is not ascending and not skipped for
collisions: the sentinel `size_t(-1)`, or `diff + keyCount + 1` without
wrap-around. -/
theorem candidateInfo_non_desc (ks : KeyStat) (cplen i : Nat)
    (hN : ks.prefix_m_cnt_sum < 2 ^ 64)
    (h1 : (candidateInfo ks cplen i).entry_count ≠ ks.prefix_m_cnt_sum)
    (h2 : ¬ mul64 (candidateInfo ks cplen i).entry_count 2 < ks.prefix_m_cnt_sum) :
    (candidateInfo ks cplen i).bit_count1 = ks.prefix_m_cnt_sum ∧
    ((candidateInfo ks cplen i).bit_count0 = size_t_max ∨
      ((candidateInfo ks cplen i).bit_count0 =
          (candidateInfo ks cplen i).max_value - (candidateInfo ks cplen i).min_value +
            ks.prefix_m_cnt_sum + 1 ∧
        (candidateInfo ks cplen i).max_value - (candidateInfo ks cplen i).min_value +
            ks.prefix_m_cnt_sum + 1 < 2 ^ 64)) := by
  have hodd : ks.prefix_m_cnt_sum ≠ 2 ^ 64 - 1 := by
    intro e
    apply h2
    unfold mul64
    rw [e]
    omega
  obtain ⟨lo, hi, hle, hhi, e⟩ := candidateInfo_eq ks cplen i
  rw [e] at h1 h2 ⊢
  simp only at h1 h2 ⊢
  refine ⟨trivial, ?_⟩
  rw [if_neg h1]
  have e1 : add64 ks.prefix_m_cnt_sum 1 = ks.prefix_m_cnt_sum + 1 := add64_eq (by omega)
  rw [e1]
  unfold size_t_max
  by_cases h3 : ks.prefix_m_cnt_sum + 1 > 2 ^ 64 - 1 - (hi - lo)
  · left
    rw [if_pos h3]
  · right
    have e2 : add64 (hi - lo) ks.prefix_m_cnt_sum = hi - lo + ks.prefix_m_cnt_sum :=
      add64_eq (by omega)
    have e3 : add64 (hi - lo + ks.prefix_m_cnt_sum) 1 = hi - lo + ks.prefix_m_cnt_sum + 1 :=
      add64_eq (by omega)
    rw [if_neg h3, e2, e3]
    exact ⟨rfl, by omega⟩

end getFixedPrefixLength

theorem replicate_set_true (m g : Nat) (h : g < m) :
    (List.replicate m false).set g true =
      List.replicate g false ++ true :: List.replicate (m - g - 1) false := by
  induction g generalizing m with
  | zero =>
    obtain ⟨m, rfl⟩ : ∃ k, m = k + 1 := ⟨m - 1, by omega⟩
    simp [List.replicate_succ]
  | succ g ih =>
    obtain ⟨m, rfl⟩ : ∃ k, m = k + 1 := ⟨m - 1, by omega⟩
    rw [List.replicate_succ, List.set_cons_succ, ih m (by omega), List.replicate_succ]
    simp

theorem append_replicate_set_true (pre : List Bool) (m g : Nat) (h : g < m) :
    (pre ++ List.replicate m false).set (pre.length + g) true =
      (pre ++ (List.replicate g false ++ [true])) ++ List.replicate (m - g - 1) false := by
  rw [List.set_append]
  rw [if_neg (by omega), Nat.add_sub_cancel_left, replicate_set_true m g h]
  simp

theorem chain_le_getLast (heads : List Nat) : ∀ last : Nat,
    List.Chain (fun a b => a ≤ b) last heads →
    last ≤ (last :: heads).getLast (List.cons_ne_nil _ _) := by
  induction heads with
  | nil => intro last _; simp
  | cons h t ih =>
    intro last hc
    rw [List.chain_cons] at hc
    rw [List.getLast_cons (List.cons_ne_nil h t)]
    exact le_trans hc.1 (ih h hc.2)

theorem nonDescendingBitmap_length (heads : List Nat) : ∀ last : Nat,
    List.Chain (fun a b => a ≤ b) last heads →
    (nonDescendingBitmap last heads).length =
      (last :: heads).getLast (List.cons_ne_nil _ _) - last + heads.length + 1 := by
  induction heads with
  | nil => intro last _; simp [nonDescendingBitmap]
  | cons h t ih =>
    intro last hc
    rw [List.chain_cons] at hc
    have hl := chain_le_getLast t h hc.2
    simp only [nonDescendingBitmap, List.length_append, List.length_replicate, List.length_cons,
      ih h hc.2, List.getLast_cons (List.cons_ne_nil h t)]
    omega

/-- The ascending loop of `NonDescendingUintPrefixFillRankSelect`, started on a
bitmap whose bits from `pos` on are zero: it writes the spec's encoding of the
heads at `pos`, and stops one bit before the end of that encoding. -/
theorem fill_foldl (input : List fstring) : ∀ (pre : List Bool) (m last : Nat),
    List.Chain (fun a b => a ≤ b) last (input.map ReadBigEndianUint64) →
    (nonDescendingBitmap last (input.map ReadBigEndianUint64)).length ≤ m →
    pre.length + m < 2 ^ 64 → last < 2 ^ 64 →
    (input.foldl
        (fun (st : List Bool × Nat × Nat) key =>
          let cur := ReadBigEndianUint64 key
          let pos := add64 st.2.1 (sub64 cur st.2.2)
          (st.1.set pos true, add64 pos 1, cur))
        (pre ++ List.replicate m false, pre.length, last)).1 =
      pre ++ nonDescendingBitmap last (input.map ReadBigEndianUint64) ++
        List.replicate (m - (nonDescendingBitmap last (input.map ReadBigEndianUint64)).length)
          false ∧
    (input.foldl
        (fun (st : List Bool × Nat × Nat) key =>
          let cur := ReadBigEndianUint64 key
          let pos := add64 st.2.1 (sub64 cur st.2.2)
          (st.1.set pos true, add64 pos 1, cur))
        (pre ++ List.replicate m false, pre.length, last)).2.1 =
      pre.length + (nonDescendingBitmap last (input.map ReadBigEndianUint64)).length - 1 := by
  induction input with
  | nil =>
    intro pre m last _ hm _ _
    simp only [List.map_nil, nonDescendingBitmap, List.length_singleton, List.foldl_nil] at hm ⊢
    refine ⟨?_, by omega⟩
    obtain ⟨m, rfl⟩ : ∃ k, m = k + 1 := ⟨m - 1, by omega⟩
    simp [List.replicate_succ]
  | cons key rest ih =>
    intro pre m last hc hm hlt hlast
    simp only [List.map_cons, List.chain_cons] at hc
    have hcur : ReadBigEndianUint64 key < 2 ^ 64 := Nat.mod_lt _ (by norm_num)
    simp only [List.map_cons, nonDescendingBitmap, List.length_append, List.length_replicate,
      List.length_cons] at hm ⊢
    have e1 : sub64 (ReadBigEndianUint64 key) last = ReadBigEndianUint64 key - last :=
      sub64_eq hc.1 hcur
    have e2 : add64 pre.length (ReadBigEndianUint64 key - last) =
        pre.length + (ReadBigEndianUint64 key - last) := add64_eq (by omega)
    have e3 : add64 (pre.length + (ReadBigEndianUint64 key - last)) 1 =
        pre.length + (ReadBigEndianUint64 key - last) + 1 := add64_eq (by omega)
    simp only [List.foldl_cons, e1, e2, e3]
    rw [append_replicate_set_true pre m _ (by omega)]
    have hlen : (pre ++ (List.replicate (ReadBigEndianUint64 key - last) false ++ [true])).length =
        pre.length + (ReadBigEndianUint64 key - last) + 1 := by
      simp; omega
    rw [← hlen]
    obtain ⟨i1, i2⟩ := ih (pre ++ (List.replicate (ReadBigEndianUint64 key - last) false ++ [true]))
      (m - (ReadBigEndianUint64 key - last) - 1) (ReadBigEndianUint64 key) hc.2 (by omega)
      (by rw [hlen]; omega) hcur
    rw [i1, i2]
    refine ⟨?_, by rw [hlen]; omega⟩
    simp only [List.append_assoc, List.singleton_append]
    congr 4
    omega

theorem CompositeIndexFillKeyVector_FixPrefixRemaining (n : Nat) (keys : List fstring) :
    CompositeIndexFactoryBase.CompositeIndexFillKeyVector
        (CompositeIndexFactoryBase.FixPrefixRemainingInputBuffer.next n) keys.length keys =
      some (keys.map (fun k => k.drop n)) := by
  induction keys with
  | nil => rfl
  | cons k rest ih =>
    simp only [List.length_cons, CompositeIndexFactoryBase.CompositeIndexFillKeyVector,
      CompositeIndexFactoryBase.FixPrefixRemainingInputBuffer.next, ih, Option.map_some',
      List.map_cons]

/-- The ascending branch of `NonDescendingUintPrefixFillRankSelect` on a plan
with `bit_count0 = (max_value - min_value) + N + 1` and `bit_count1 = N`: the
spec's encoding of the heads followed by `N` more zeros, and the final `pos`. -/
theorem NonDescendingUintPrefixFillRankSelect_eq (info : UintPrefixBuildInfo) (ks : KeyStat) (input : List fstring)
    (hord : ¬ fstring_lt ks.maxKey ks.minKey = true)
    (hlen : input.length = info.key_count) (hpos : 0 < info.key_count)
    (hb0 : info.bit_count0 = info.max_value - info.min_value + info.key_count + 1)
    (hb1 : info.bit_count1 = info.key_count)
    (hfit : info.max_value - info.min_value + 2 * info.key_count + 1 < 2 ^ 64)
    (hmin : info.min_value < 2 ^ 64)
    (hchain : List.Chain (fun a b => a ≤ b) info.min_value (input.map ReadBigEndianUint64))
    (hlast : (input.map ReadBigEndianUint64).getLast? = some info.max_value) :
    NonDescendingUintPrefixFillRankSelect info ks input =
      (nonDescendingBitmap info.min_value (input.map ReadBigEndianUint64) ++
          List.replicate info.key_count false,
        info.max_value - info.min_value + info.key_count) := by
  have hbc : add64 info.bit_count0 info.bit_count1 =
      info.max_value - info.min_value + 2 * info.key_count + 1 := by
    rw [hb0, hb1]
    exact (add64_eq (by omega)).trans (by omega)
  have hgl : (info.min_value :: input.map ReadBigEndianUint64).getLast (List.cons_ne_nil _ _) =
      info.max_value := by
    cases hin : input.map ReadBigEndianUint64 with
    | nil =>
      have : input.length = 0 := by
        have := congrArg List.length hin
        simpa using this
      omega
    | cons a t =>
      rw [hin] at hlast
      rw [List.getLast_cons (List.cons_ne_nil a t)]
      rw [List.getLast?_eq_getLast _ (List.cons_ne_nil a t)] at hlast
      exact Option.some.inj hlast
  have hL := nonDescendingBitmap_length (input.map ReadBigEndianUint64) info.min_value hchain
  rw [hgl, List.length_map, hlen] at hL
  obtain ⟨f1, f2⟩ := fill_foldl input [] (info.max_value - info.min_value + 2 * info.key_count + 1)
    info.min_value hchain (by omega) (by simpa using hfit) hmin
  rw [List.nil_append, List.nil_append, hL] at f1
  rw [List.length_nil, Nat.zero_add, hL] at f2
  have hk : info.max_value - info.min_value + 2 * info.key_count + 1 -
      (info.max_value - info.min_value + info.key_count + 1) = info.key_count := by omega
  have hp : info.max_value - info.min_value + info.key_count + 1 - 1 =
      info.max_value - info.min_value + info.key_count := by omega
  rw [hk] at f1
  rw [hp] at f2
  unfold NonDescendingUintPrefixFillRankSelect
  dsimp only
  rw [if_pos hord, hbc, ← hlen, List.take_length]
  rw [← hlen] at f1 f2
  exact Prod.ext f1 f2

/-! ## The claims on loading, the header, the fills and the planner guards -/

/-- C21. `TerarkIndex::LoadMemory` on an artifact whose header holds a
NUL-terminated `class_name` (the C string that starts at offset 20 ends inside
the artifact) that is not a registered wire name throws
`std::invalid_argument`: it returns no index, and it neither reads past the end
of the artifact, nor dereferences a null pointer, nor loops. -/
theorem LoadMemory_unknown_class_name (names : List fstring) (mem class_name : fstring)
    (hname : TerarkIndex.headerClassName mem = some class_name) (h : class_name ∉ names) :
    TerarkIndex.LoadMemory names mem = .invalid_argument ∧
    (∀ idx, TerarkIndex.LoadMemory names mem ≠ .index idx) ∧
    TerarkIndex.LoadMemory names mem ≠ .null ∧
    TerarkIndex.LoadMemory names mem ≠ .null_dereference ∧
    TerarkIndex.LoadMemory names mem ≠ .no_return ∧
    TerarkIndex.LoadMemory names mem ≠ .out_of_bounds_read := by
  have e : TerarkIndex.LoadMemory names mem = .invalid_argument := by
    unfold TerarkIndex.LoadMemory
    rw [hname]
    simp only
    rw [if_pos h]
  rw [e]
  exact ⟨rfl, fun idx h => (by cases h), fun h => (by cases h), fun h => (by cases h),
    fun h => (by cases h), fun h => (by cases h)⟩

/-- Witness of C21: the only registered name is "A", the header of the
112-byte artifact names the class "B". -/
theorem LoadMemory_unknown_class_name_witness :
    TerarkIndex.headerClassName (List.replicate 20 0 ++ [66] ++ List.replicate 91 0) =
        some [66] ∧
      [66] ∉ [([65] : fstring)] ∧
      TerarkIndex.LoadMemory [[65]] (List.replicate 20 0 ++ [66] ++ List.replicate 91 0) =
        .invalid_argument :=
  ⟨by decide, by decide,
    (LoadMemory_unknown_class_name [[65]] (List.replicate 20 0 ++ [66] ++ List.replicate 91 0)
      [66] (by decide) (by decide)).1⟩

/-- C22, the claim fails. `struct TerarkIndexHeader` as declared occupies 112
bytes, not 128: its last member `reserved_102_24` is one `uint64_t`, 8 bytes
from offset 104, not 24 bytes. -/
theorem TerarkIndexHeader_not_128_bytes :
    TerarkIndexHeader.sizeof ≠ 128 ∧
    TerarkIndexHeader.memberSize .reserved_102_24 ≠ 24 ∧
    TerarkIndexHeader.offsetof .reserved_102_24 +
      TerarkIndexHeader.memberSize .reserved_102_24 = 112 := by
  decide

/-- C22, amended. `struct TerarkIndexHeader` occupies exactly 112 bytes, with
`magic_len` at offset 0, `magic` at 1, `class_name` at 20, `header_size` at 84,
`version` at 88, `file_size` at 96 and 8 reserved bytes from offset 104. -/
theorem TerarkIndexHeader_layout :
    TerarkIndexHeader.sizeof = 112 ∧
    TerarkIndexHeader.offsetof .magic_len = 0 ∧
    TerarkIndexHeader.offsetof .magic = 1 ∧
    TerarkIndexHeader.offsetof .class_name = 20 ∧
    TerarkIndexHeader.offsetof .header_size = 84 ∧
    TerarkIndexHeader.offsetof .version = 88 ∧
    TerarkIndexHeader.offsetof .file_size = 96 ∧
    TerarkIndexHeader.offsetof .reserved_102_24 = 104 ∧
    TerarkIndexHeader.memberSize .reserved_102_24 = 8 := by
  decide

open CompositeIndexFactoryBase in
/-- C23, the claim fails. For the four 3-byte keys `00 FE x`, `00 FF y`,
`01 00 z`, `01 01 w` the planner picks the 2-byte head (`asc_il_256`), shorter
than the key. `Build` reads the tails "x", "y", "z", "w" in order into a local
vector, but the suffix it creates is a `CompositeIndexBlobStoreSuffix` that
holds no record, under the name of `CompositeIndexEmptySuffix`: it is not a
fixed-length string suffix and has no record for any id. -/
theorem Build_fixed_length_tails_counterexample :
    getFixedPrefixLength keyStatFixedTails
        (commonPrefixLen keyStatFixedTails.minKey keyStatFixedTails.maxKey) =
      ⟨2, 4, 4, 0, 4, 254, 257, .asc_il_256⟩ ∧
    keyStatFixedTails.minKeyLen = keyStatFixedTails.maxKeyLen ∧
    Build keyStatFixedTails =
      some ⟨.FixPrefix, .AscendingUint .IL_256_32, some .FixPrefixRemaining, .Empty,
        .BlobStoreDictZip⟩ ∧
    BuildBlobStoreSuffix.keyVec (FixPrefixRemainingInputBuffer.next 2) keysFixedTails 4 =
      some [[120], [121], [122], [119]] ∧
    BuildFixedStringSuffix.object (FixPrefixRemainingInputBuffer.next 2) keysFixedTails 4 =
      some ⟨[]⟩ ∧
    (∀ suffix, BuildFixedStringSuffix.object (FixPrefixRemainingInputBuffer.next 2)
        keysFixedTails 4 = some suffix → ∀ i, i < 4 → suffix.store_.get? i = none) := by
  refine ⟨by decide, by decide, by decide, by decide, by decide, ?_⟩
  intro suffix h i _
  have e : suffix = ⟨[]⟩ := by
    have h2 : BuildFixedStringSuffix.object (FixPrefixRemainingInputBuffer.next 2)
        keysFixedTails 4 = some ⟨[]⟩ := by decide
    rw [h2] at h
    cases h
    rfl
  rw [e]
  rfl

open CompositeIndexFactoryBase in
/-- C23, amended. For fixed-length keys where a uint head of length `L`
shorter than the remaining key wins, `Build` reads the suffix through
`FixPrefixRemainingInputBuffer`; every key's tail `key_i[cplen + L ..]` is read
in input order into a local vector only, and the suffix `Build` creates is a
`CompositeIndexBlobStoreSuffix<DictZipBlobStore>` that holds no record, under
the name of `CompositeIndexEmptySuffix`. -/
theorem Build_fixed_length_tails (ks : KeyStat) (keys : List fstring)
    (hL : 0 < (getFixedPrefixLength ks (commonPrefixLen ks.minKey ks.maxKey)).key_length)
    (hfix : ks.minKeyLen = ks.maxKeyLen) (hlen : ks.maxKeyLen < 2 ^ 64)
    (hshort : commonPrefixLen ks.minKey ks.maxKey +
      (getFixedPrefixLength ks (commonPrefixLen ks.minKey ks.maxKey)).key_length <
        ks.maxKeyLen)
    (hN : keys.length = ks.prefix_m_cnt_sum) :
    (getFixedPrefixLength ks (commonPrefixLen ks.minKey ks.maxKey)).key_count = keys.length ∧
    (∀ parts, Build ks = some parts →
      parts.prefixInput = .FixPrefix ∧ parts.suffixInput = some .FixPrefixRemaining ∧
        parts.suffixName = .Empty ∧ parts.suffixObject = .BlobStoreDictZip) ∧
    BuildBlobStoreSuffix.keyVec
        (FixPrefixRemainingInputBuffer.next
          (add64 (commonPrefixLen ks.minKey ks.maxKey)
            (getFixedPrefixLength ks (commonPrefixLen ks.minKey ks.maxKey)).key_length))
        keys (getFixedPrefixLength ks (commonPrefixLen ks.minKey ks.maxKey)).key_count =
      some (keys.map (fun k => k.drop (commonPrefixLen ks.minKey ks.maxKey +
        (getFixedPrefixLength ks (commonPrefixLen ks.minKey ks.maxKey)).key_length))) ∧
    BuildFixedStringSuffix.object
        (FixPrefixRemainingInputBuffer.next
          (add64 (commonPrefixLen ks.minKey ks.maxKey)
            (getFixedPrefixLength ks (commonPrefixLen ks.minKey ks.maxKey)).key_length))
        keys (getFixedPrefixLength ks (commonPrefixLen ks.minKey ks.maxKey)).key_count =
      some ⟨[]⟩ := by
  have hadd : add64 (commonPrefixLen ks.minKey ks.maxKey)
      (getFixedPrefixLength ks (commonPrefixLen ks.minKey ks.maxKey)).key_length =
      commonPrefixLen ks.minKey ks.maxKey +
        (getFixedPrefixLength ks (commonPrefixLen ks.minKey ks.maxKey)).key_length :=
    add64_eq (by omega)
  have hcount : (getFixedPrefixLength ks (commonPrefixLen ks.minKey ks.maxKey)).key_count =
      keys.length := by
    rcases getFixedPrefixLength_cases ks (commonPrefixLen ks.minKey ks.maxKey) with
      h | ⟨-, -, c, hc, -⟩
    · rw [h] at hL
      exact absurd hL (Nat.lt_irrefl 0)
    · obtain ⟨pc, -, hinfo⟩ := getFixedPrefixLength.candidate_some hc
      rw [hinfo, hN]
      rfl
  have hvec := CompositeIndexFillKeyVector_FixPrefixRemaining
    (commonPrefixLen ks.minKey ks.maxKey +
      (getFixedPrefixLength ks (commonPrefixLen ks.minKey ks.maxKey)).key_length) keys
  refine ⟨hcount, ?_, ?_, ?_⟩
  · intro parts hparts
    unfold CompositeIndexFactoryBase.Build at hparts
    simp only [hadd] at hparts
    rw [if_pos hL, if_neg (fun h => by omega)] at hparts
    split at hparts
    · cases hparts
    · rw [if_pos hfix] at hparts
      cases hparts
      exact ⟨rfl, rfl, rfl, rfl⟩
  · rw [hadd, hcount]
    exact hvec
  · unfold BuildFixedStringSuffix.object BuildBlobStoreSuffix.object
    rw [hadd, hcount]
    unfold BuildBlobStoreSuffix.keyVec
    rw [hvec]
    rfl

open CompositeIndexFactoryBase in
/-- Witness of C23 (amended) on the four keys `00 FE x`, `00 FF y`, `01 00 z`,
`01 01 w`. -/
theorem Build_fixed_length_tails_witness :
    keysFixedTails.length = keyStatFixedTails.prefix_m_cnt_sum ∧
      BuildFixedStringSuffix.object
          (FixPrefixRemainingInputBuffer.next
            (add64 (commonPrefixLen keyStatFixedTails.minKey keyStatFixedTails.maxKey)
              (getFixedPrefixLength keyStatFixedTails
                (commonPrefixLen keyStatFixedTails.minKey keyStatFixedTails.maxKey)).key_length))
          keysFixedTails
          (getFixedPrefixLength keyStatFixedTails
            (commonPrefixLen keyStatFixedTails.minKey keyStatFixedTails.maxKey)).key_count =
        some ⟨[]⟩ :=
  ⟨by decide,
    (Build_fixed_length_tails keyStatFixedTails keysFixedTails (by decide) (by decide)
      (by decide) (by decide) (by decide)).2.2.2⟩

open CompositeIndexFactoryBase in
/-- C24, evaluated on the code. For the eight keys of `keysPairedHeads` the
planner returns a `non_desc_il_256` plan of head length 4 (`N = 8`,
`max_value - min_value = 5`, `bit_count0 = 14`, `bit_count1 = 8`).
`NonDescendingUintPrefixFillRankSelect` sizes the bitmap with
`bit_count0 + bit_count1 = 22` bits: the spec's 14-bit encoding followed by 8
more zeros. The loop ends with `pos = 13`, so the closing check
`pos == bit_count` fails, and the bit at `size - 2`, which `IterSeekToLast`
asserts to be set, is zero. In general, for a plan with
`bit_count0 = (max_value - min_value) + N + 1`, `bit_count1 = N` and `N`
non-descending heads from `min_value` to `max_value`, the bitmap is the spec's
encoding followed by `N` more zeros, of length
`(max_value - min_value) + 2 N + 1`, and the loop ends with
`pos = (max_value - min_value) + N`, which is not `bit_count`. -/
theorem fill_non_descending_bit_count :
    getFixedPrefixLength keyStatPairedHeads
        (commonPrefixLen keyStatPairedHeads.minKey keyStatPairedHeads.maxKey) =
      ⟨4, 8, 4, 14, 8, 0x00FFFFFD, 0x01000002, .non_desc_il_256⟩ ∧
    CompositeIndexFillKeyVector (FixPrefixInputBuffer.next 0 4) 8 keysPairedHeads =
      some [[0, 255, 255, 253], [0, 255, 255, 253], [0, 255, 255, 254], [0, 255, 255, 254],
        [0, 255, 255, 255], [0, 255, 255, 255], [1, 0, 0, 2], [1, 0, 0, 2]] ∧
    NonDescendingUintPrefixFillRankSelect ⟨4, 8, 4, 14, 8, 0x00FFFFFD, 0x01000002, .non_desc_il_256⟩
        keyStatPairedHeads
        [[0, 255, 255, 253], [0, 255, 255, 253], [0, 255, 255, 254], [0, 255, 255, 254],
          [0, 255, 255, 255], [0, 255, 255, 255], [1, 0, 0, 2], [1, 0, 0, 2]] =
      ([true, true, false, true, true, false, true, true, false, false, false, true, true, false]
          ++ List.replicate 8 false, 13) ∧
    nonDescendingBitmap 0x00FFFFFD
        [0x00FFFFFD, 0x00FFFFFD, 0x00FFFFFE, 0x00FFFFFE, 0x00FFFFFF, 0x00FFFFFF, 0x01000002,
          0x01000002] =
      [true, true, false, true, true, false, true, true, false, false, false, true, true, false] ∧
    (13 : Nat) ≠ add64 14 8 ∧
    rs_get
        ([true, true, false, true, true, false, true, true, false, false, false, true, true,
          false] ++ List.replicate 8 false)
        (sub64 22 2) = false ∧
    (∀ (info : UintPrefixBuildInfo) (ks : KeyStat) (input : List fstring),
      ¬ fstring_lt ks.maxKey ks.minKey = true →
      input.length = info.key_count → 0 < info.key_count →
      info.bit_count0 = info.max_value - info.min_value + info.key_count + 1 →
      info.bit_count1 = info.key_count →
      info.max_value - info.min_value + 2 * info.key_count + 1 < 2 ^ 64 →
      info.min_value < 2 ^ 64 →
      List.Chain (fun a b => a ≤ b) info.min_value (input.map ReadBigEndianUint64) →
      (input.map ReadBigEndianUint64).getLast? = some info.max_value →
      (NonDescendingUintPrefixFillRankSelect info ks input).1 =
          nonDescendingBitmap info.min_value (input.map ReadBigEndianUint64) ++
            List.replicate info.key_count false ∧
        (NonDescendingUintPrefixFillRankSelect info ks input).1.length =
          info.max_value - info.min_value + 2 * info.key_count + 1 ∧
        (NonDescendingUintPrefixFillRankSelect info ks input).2 =
          info.max_value - info.min_value + info.key_count ∧
        (NonDescendingUintPrefixFillRankSelect info ks input).2 ≠
          add64 info.bit_count0 info.bit_count1) := by
  refine ⟨by decide, by decide, by decide, by decide, by decide, by decide, ?_⟩
  intro info ks input hord hlen hpos hb0 hb1 hfit hmin hchain hlast
  have hbc : add64 info.bit_count0 info.bit_count1 =
      info.max_value - info.min_value + 2 * info.key_count + 1 := by
    rw [hb0, hb1]
    exact (add64_eq (by omega)).trans (by omega)
  have hL := nonDescendingBitmap_length (input.map ReadBigEndianUint64) info.min_value hchain
  have hge := chain_le_getLast (input.map ReadBigEndianUint64) info.min_value hchain
  rw [NonDescendingUintPrefixFillRankSelect_eq info ks input hord hlen hpos hb0 hb1 hfit hmin
    hchain hlast, hbc]
  refine ⟨rfl, ?_, rfl, ?_⟩
  · have hgl : (info.min_value :: input.map ReadBigEndianUint64).getLast
        (List.cons_ne_nil _ _) = info.max_value := by
      cases hin : input.map ReadBigEndianUint64 with
      | nil =>
        have : input.length = 0 := by
          have := congrArg List.length hin
          simpa using this
        omega
      | cons a t =>
        rw [hin] at hlast
        rw [List.getLast_cons (List.cons_ne_nil a t)]
        rw [List.getLast?_eq_getLast _ (List.cons_ne_nil a t)] at hlast
        exact Option.some.inj hlast
    rw [hgl, List.length_map, hlen] at hL
    simp only [List.length_append, List.length_replicate, hL]
    omega
  · simp only
    omega

open CompositeIndexFactoryBase in
/-- C25, evaluated on the code. For the key "bandage" with `cplen = 1` and
`suffixSize = 2`, `FixSuffixPrefixInputBuffer` yields "anda" and
`FixSuffixInputBuffer` yields "nd", the bytes `[2, 4)` of the key, not its last
two bytes "ge": the two slices do not make up `k[cplen ..]`. In general, for
`|k| ≥ cplen + suffixSize`, the prefix view is `k[cplen .. |k| - suffixSize)`
and the suffix view is `k[suffixSize .. 2 suffixSize)`. -/
theorem FixSuffixInputBuffer_not_the_tail :
    FixSuffixPrefixInputBuffer.next 1 2 [[98, 97, 110, 100, 97, 103, 101]] =
      some ([97, 110, 100, 97], []) ∧
    FixSuffixInputBuffer.next 2 [[98, 97, 110, 100, 97, 103, 101]] = some ([110, 100], []) ∧
    ([98, 97, 110, 100, 97, 103, 101] : fstring).drop (7 - 2) = [103, 101] ∧
    ([97, 110, 100, 97] : fstring) ++ [110, 100] ≠
      ([98, 97, 110, 100, 97, 103, 101] : fstring).drop 1 ∧
    (∀ (k : fstring) (cplen suffixSize : Nat) (reader : List fstring),
      cplen + suffixSize ≤ k.length →
      FixSuffixPrefixInputBuffer.next cplen suffixSize (k :: reader) =
          some ((k.take (k.length - suffixSize)).drop cplen, reader) ∧
        FixSuffixInputBuffer.next suffixSize (k :: reader) =
          some ((k.drop suffixSize).take suffixSize, reader)) := by
  refine ⟨by decide, by decide, by decide, by decide, ?_⟩
  intro k cplen suffixSize reader h
  refine ⟨?_, rfl⟩
  simp only [FixSuffixPrefixInputBuffer.next, Option.some.injEq, Prod.mk.injEq, and_true]
  rw [List.drop_take]
  congr 1
  omega

open CompositeIndexFactoryBase in
/-- C26, evaluated on the code. On the keys of scenario S4 ("apple", "banana",
"band", "bandage", "cat", `cplen = 0`) the five calls of
`MinimizePrefixInputBuffer::next` return "b", "band", "banda", "cat", "c", not
the minimal discriminating prefixes "a", "bana", "band", "banda", "c": `next`
swaps the record just read into `last` before it returns, so the call for `k_i`
returns a slice of `k_{i+1}`. The five calls of
`MinimizePrefixRemainingInputBuffer::next` return "anana", "", "ge", "", "at",
not "pple", "na", "", "ge", "at". In general, with at least two keys, the first
call returns the first `min(|k_1|, m_0 + 1)` bytes of the second key. -/
theorem MinimizePrefixInputBuffer_returns_next_key :
    (MinimizePrefixInputBuffer.new keysS4 0 5).bind
        (CompositeIndexFillKeyVector MinimizePrefixInputBuffer.next 5) =
      some [[98], [98, 97, 110, 100], [98, 97, 110, 100, 97], [99, 97, 116], [99]] ∧
    (List.range 5).map (fun i => (keysS4.getD i []).take (discriminatingLen keysS4 i)) =
      [[97], [98, 97, 110, 97], [98, 97, 110, 100], [98, 97, 110, 100, 97], [99]] ∧
    (MinimizePrefixInputBuffer.new keysS4 0 5).bind
        (CompositeIndexFillKeyVector MinimizePrefixRemainingInputBuffer.next 5) =
      some [[97, 110, 97, 110, 97], [], [103, 101], [], [97, 116]] ∧
    (List.range 5).map (fun i => (keysS4.getD i []).drop (discriminatingLen keysS4 i)) =
      [[112, 112, 108, 101], [110, 97], [], [103, 101], [97, 116]] ∧
    (∀ (k₀ k₁ : fstring) (rest : List fstring) (cplen keyCount : Nat),
      2 ≤ keyCount → keyCount < 2 ^ 64 →
      ((MinimizePrefixInputBuffer.new (k₀ :: k₁ :: rest) cplen keyCount).bind
          MinimizePrefixInputBuffer.next).map Prod.fst =
        some ((k₁.take (min (add64 (commonPrefixLen k₁ k₀) 1) k₁.length)).drop cplen)) := by
  refine ⟨by decide, by decide, by decide, by decide, ?_⟩
  intro k₀ k₁ rest cplen keyCount h2 hlt
  have e : sub64 keyCount 1 = keyCount - 1 := sub64_eq (by omega) hlt
  have e2 : ¬ keyCount - 1 = 0 := by omega
  rw [MinimizePrefixInputBuffer.new, Option.some_bind, MinimizePrefixInputBuffer.next,
    MinimizePrefixInputBuffer.advance]
  dsimp only
  rw [e, if_neg e2]
  dsimp only [Option.map_some']
  rw [Nat.max_eq_left (Nat.zero_le _)]

open getFixedPrefixLength in
/-- C27. For every `KeyStat` with `minKeyLen ≥ cplen` (and `minKeyLen` a
`size_t`), the plan of `getFixedPrefixLength` has either type `fail` and
`key_length` 0, or `1 ≤ key_length ≤ min(8, minKeyLen - cplen)`,
`key_count = N`, `min_value ≤ max_value` and a type other than `fail`. -/
theorem planner_key_length_bounded (ks : KeyStat) (cplen : Nat) (h1 : cplen ≤ ks.minKeyLen)
    (h2 : ks.minKeyLen < 2 ^ 64) :
    ((getFixedPrefixLength ks cplen).type = .fail ∧
      (getFixedPrefixLength ks cplen).key_length = 0) ∨
    (1 ≤ (getFixedPrefixLength ks cplen).key_length ∧
      (getFixedPrefixLength ks cplen).key_length ≤ min 8 (ks.minKeyLen - cplen) ∧
      (getFixedPrefixLength ks cplen).key_count = ks.prefix_m_cnt_sum ∧
      (getFixedPrefixLength ks cplen).min_value ≤ (getFixedPrefixLength ks cplen).max_value ∧
      (getFixedPrefixLength ks cplen).type ≠ .fail) := by
  rcases getFixedPrefixLength_cases ks cplen with h | ⟨hL1, hL2, c, hc, -⟩
  · left
    rw [h]
    exact ⟨rfl, rfl⟩
  · right
    obtain ⟨pc, hcl, hinfo⟩ := candidate_some hc
    have hmax : maxPrefixLen ks cplen = min 8 (ks.minKeyLen - cplen) := by
      unfold maxPrefixLen
      rw [sub64_eq h1 h2]
    rw [hmax] at hL2
    refine ⟨hL1, hL2, ?_, ?_, (classify_guards hcl).1⟩
    · rw [hinfo]; rfl
    · obtain ⟨lo, hi, hle, -, e⟩ :=
        candidateInfo_eq ks cplen (getFixedPrefixLength ks cplen).key_length
      rw [hinfo, e]
      exact hle

open getFixedPrefixLength in
/-- Witness of C27 on the statistics of `keysPairedHeads`, whose plan has head
length 4. -/
theorem planner_key_length_bounded_witness :
    0 ≤ keyStatPairedHeads.minKeyLen ∧ keyStatPairedHeads.minKeyLen < 2 ^ 64 ∧
      (getFixedPrefixLength keyStatPairedHeads 0).key_length ≤
        min 8 (keyStatPairedHeads.minKeyLen - 0) :=
  ⟨by decide, by decide,
    (planner_key_length_bounded keyStatPairedHeads 0 (by decide) (by decide)).elim
      (fun h => by rw [h.2]; decide) (fun h => h.2.1)⟩

open getFixedPrefixLength in
/-- C28. On every plan that `getFixedPrefixLength` returns (for a key count
that is a `size_t`): an `il_256` or `se_512` plan has `bit_count0 < 2^56` and
`bit_count1 < 2^56`; a `few_one` plan has `bit_count1 < 2^48`; a `few_zero`
plan has `bit_count0 < 2^48` and is ascending (`entry_count = key_count`). -/
theorem planner_size_guards (ks : KeyStat) (cplen : Nat) (hN : ks.prefix_m_cnt_sum < 2 ^ 64) :
    ((getFixedPrefixLength ks cplen).type.isIL256 = true ∨
        (getFixedPrefixLength ks cplen).type.isSE512 = true →
      (getFixedPrefixLength ks cplen).bit_count0 < 2 ^ 56 ∧
        (getFixedPrefixLength ks cplen).bit_count1 < 2 ^ 56) ∧
    ((getFixedPrefixLength ks cplen).type.isFewOne = true →
      (getFixedPrefixLength ks cplen).bit_count1 < 2 ^ 48) ∧
    ((getFixedPrefixLength ks cplen).type.isFewZero = true →
      (getFixedPrefixLength ks cplen).bit_count0 < 2 ^ 48 ∧
        (getFixedPrefixLength ks cplen).entry_count =
          (getFixedPrefixLength ks cplen).key_count) := by
  rcases getFixedPrefixLength_cases ks cplen with h | ⟨-, -, c, hc, -⟩
  · rw [h]
    refine ⟨fun h => ?_, fun h => ?_, fun h => ?_⟩
    · rcases h with h | h <;> cases h
    · cases h
    · cases h
  · obtain ⟨pc, hcl, hinfo⟩ := candidate_some hc
    obtain ⟨-, g1, g2, g3, -, g5⟩ := classify_guards hcl
    generalize getFixedPrefixLength ks cplen = plan at *
    generalize plan.key_length = L at *
    have hb0 : plan.bit_count0 = (candidateInfo ks cplen L).bit_count0 := by rw [hinfo]
    have hb1 : plan.bit_count1 = (candidateInfo ks cplen L).bit_count1 := by rw [hinfo]
    have he : plan.entry_count = (candidateInfo ks cplen L).entry_count := by rw [hinfo]
    have hk : plan.key_count = ks.prefix_m_cnt_sum := by rw [hinfo]; rfl
    rw [hb0, hb1, he, hk]
    refine ⟨fun h => ⟨(g1 h).1, (g1 h).2.1⟩, g2, fun h => ⟨(g3 h).2, ?_⟩⟩
    by_contra hne
    have hna : plan.type ≠ .asc_allone := by
      intro e; rw [e] at h; cases h
    obtain ⟨e1, e0⟩ := candidateInfo_non_desc ks cplen L hN hne (g5 hna)
    obtain ⟨f1, f2⟩ := g3 h
    rw [fewCount_eq _ (candidateInfo_bit_count0_lt ks cplen L) (by rw [e1]; exact hN), e1] at f1
    rcases e0 with e0 | ⟨e0, -⟩
    · rw [e0] at f2; unfold size_t_max at f2; omega
    · omega

open getFixedPrefixLength in
/-- Witness of C28 on the statistics of `keysPairedHeads`, whose plan is of
type `non_desc_il_256`. -/
theorem planner_size_guards_witness :
    keyStatPairedHeads.prefix_m_cnt_sum < 2 ^ 64 ∧
      (getFixedPrefixLength keyStatPairedHeads 0).type.isIL256 = true ∧
      (getFixedPrefixLength keyStatPairedHeads 0).bit_count0 < 2 ^ 56 ∧
      (getFixedPrefixLength keyStatPairedHeads 0).bit_count1 < 2 ^ 56 :=
  ⟨by decide, by decide,
    (planner_size_guards keyStatPairedHeads 0 (by decide)).1 (Or.inl (by decide))⟩

open getFixedPrefixLength in
/-- C29, the claim fails. For the statistics of `2^31` distinct four-byte keys
from `be4(0)` to `be4(2^32 - 1)` the planner returns the candidate of head
length 4 with `bit_count0 = bit_count1 = 2^31`: its total bit count is exactly
`2^32`, and its type is `asc_se_512`, not an `il_256` type. -/
theorem planner_dense_choice_counterexample :
    getFixedPrefixLength keyStatDense32
        (commonPrefixLen keyStatDense32.minKey keyStatDense32.maxKey) =
      ⟨4, 2 ^ 31, 2 ^ 31, 2 ^ 31, 2 ^ 31, 0, 2 ^ 32 - 1, .asc_se_512⟩ ∧
    (2 : Nat) ^ 31 + 2 ^ 31 ≤ 2 ^ 32 ∧
    UintPrefixType.asc_se_512.isIL256 = false := by
  decide

open getFixedPrefixLength in
/-- C29, amended. Among the dense bitmap variants the planner picks `il_256`
when the total bit count `bit_count0 + bit_count1` is at most `2^32 - 1` and
`se_512` when it is `2^32` or more; both counts are below `2^56`. -/
theorem planner_dense_choice (ks : KeyStat) (cplen i : Nat) (info : UintPrefixBuildInfo)
    (c : Nat) (h : candidate ks cplen i = some (info, c))
    (hd : info.type.isIL256 = true ∨ info.type.isSE512 = true) :
    info.bit_count0 < 2 ^ 56 ∧ info.bit_count1 < 2 ^ 56 ∧
    (info.type.isIL256 = true ↔ info.bit_count0 + info.bit_count1 ≤ 2 ^ 32 - 1) ∧
    (info.type.isSE512 = true ↔ 2 ^ 32 ≤ info.bit_count0 + info.bit_count1) := by
  obtain ⟨pc, hcl, hinfo⟩ := candidate_some h
  obtain ⟨-, g1, -⟩ := classify_guards hcl
  obtain ⟨b0, b1, hiff⟩ := g1 hd
  have hb0 : info.bit_count0 = (candidateInfo ks cplen i).bit_count0 := by rw [hinfo]
  have hb1 : info.bit_count1 = (candidateInfo ks cplen i).bit_count1 := by rw [hinfo]
  rw [hb0, hb1]
  rw [add64_eq (by omega)] at hiff
  refine ⟨b0, b1, hiff, ?_⟩
  have hx : info.type.isSE512 = true ↔ ¬ info.type.isIL256 = true := by
    generalize info.type = t at hd
    revert hd
    cases t <;> decide
  rw [hx, hiff]
  omega

open getFixedPrefixLength in
/-- Witness of C29 (amended) on the candidate of head length 4 of
`keysPairedHeads`: 22 bits in all, type `non_desc_il_256`. -/
theorem planner_dense_choice_witness :
    candidate keyStatPairedHeads 0 4 =
        some (⟨4, 8, 4, 14, 8, 0x00FFFFFD, 0x01000002, .non_desc_il_256⟩, 32) ∧
      (14 : Nat) + 8 ≤ 2 ^ 32 - 1 :=
  ⟨by decide,
    ((planner_dense_choice keyStatPairedHeads 0 4
      ⟨4, 8, 4, 14, 8, 0x00FFFFFD, 0x01000002, .non_desc_il_256⟩ 32 (by decide)
      (Or.inl (by decide))).2.2.1).1 (by decide)⟩

open getFixedPrefixLength in
/-- C30, evaluated on the code. For the six keys of `keysFullRange` the 8-byte
heads run from 0 to `2^64 - 1` and two pairs of keys share a head, so the true
zero count `(max_value - min_value) + N + 1` does not fit in 64 bits. The
planner sets `bit_count0 = size_t(-1)` and still returns this candidate, as a
`non_desc_few_one_64` plan: the `few_one` test looks at `bit_count1` only. On
that plan `bit_count0` is not `(max_value - min_value) + N + 1` and
`bit_count0 + bit_count1` wraps. The guard does hold for the dense types: every
returned `non_desc_il_256` or `non_desc_se_512` plan has
`bit_count0 = (max_value - min_value) + N + 1` and
`bit_count0 + bit_count1 < 2^64`. -/
theorem planner_non_desc_overflow :
    getFixedPrefixLength keyStatFullRange
        (commonPrefixLen keyStatFullRange.minKey keyStatFullRange.maxKey) =
      ⟨8, 6, 4, 2 ^ 64 - 1, 6, 0, 2 ^ 64 - 1, .non_desc_few_one_64⟩ ∧
    UintPrefixType.non_desc_few_one_64.isNonDesc = true ∧
    ¬ ((2 ^ 64 - 1 - 0) + 6 + 1 < 2 ^ 64) ∧
    (2 : Nat) ^ 64 - 1 ≠ (2 ^ 64 - 1 - 0) + 6 + 1 ∧
    ¬ ((2 : Nat) ^ 64 - 1 + 6 < 2 ^ 64) ∧
    (∀ (ks : KeyStat) (cplen : Nat), ks.prefix_m_cnt_sum < 2 ^ 64 →
      (getFixedPrefixLength ks cplen).type = .non_desc_il_256 ∨
        (getFixedPrefixLength ks cplen).type = .non_desc_se_512 →
      (getFixedPrefixLength ks cplen).bit_count0 =
          (getFixedPrefixLength ks cplen).max_value - (getFixedPrefixLength ks cplen).min_value +
            ks.prefix_m_cnt_sum + 1 ∧
        (getFixedPrefixLength ks cplen).bit_count0 + (getFixedPrefixLength ks cplen).bit_count1 <
          2 ^ 64) := by
  refine ⟨by decide, by decide, by decide, by decide, by decide, ?_⟩
  intro ks cplen hN ht
  rcases getFixedPrefixLength_cases ks cplen with h | ⟨-, -, c, hc, -⟩
  · rw [h] at ht
    rcases ht with ht | ht <;> cases ht
  · obtain ⟨pc, hcl, hinfo⟩ := candidate_some hc
    obtain ⟨-, g1, -, -, g4, g5⟩ := classify_guards hcl
    generalize getFixedPrefixLength ks cplen = plan at *
    generalize plan.key_length = L at *
    have hd : plan.type.isIL256 = true ∨ plan.type.isSE512 = true := by
      rcases ht with ht | ht <;> rw [ht]
      · left; rfl
      · right; rfl
    have hnd : plan.type.isNonDesc = true := by
      rcases ht with ht | ht <;> rw [ht] <;> rfl
    have hna : plan.type ≠ .asc_allone := by
      rcases ht with ht | ht <;> rw [ht] <;> decide
    obtain ⟨e1, e0⟩ := candidateInfo_non_desc ks cplen L hN (g4 hnd) (g5 hna)
    obtain ⟨b0, b1, -⟩ := g1 hd
    have hb0 : plan.bit_count0 = (candidateInfo ks cplen L).bit_count0 := by rw [hinfo]
    have hb1 : plan.bit_count1 = (candidateInfo ks cplen L).bit_count1 := by rw [hinfo]
    have hlo : plan.min_value = (candidateInfo ks cplen L).min_value := by rw [hinfo]
    have hhi : plan.max_value = (candidateInfo ks cplen L).max_value := by rw [hinfo]
    rw [hb0, hb1, hlo, hhi]
    rcases e0 with e0 | ⟨e0, -⟩
    · rw [e0] at b0; unfold size_t_max at b0; omega
    · exact ⟨e0, by omega⟩

/-! ## Lemmas on runs of bits -/

theorem takeWhile_not_getD (l : List Bool) (i : Nat)
    (h : i < (l.takeWhile (fun b => !b)).length) : l.getD i false = false := by
  induction l generalizing i with
  | nil => simp at h
  | cons b l ih =>
    cases b with
    | true => simp at h
    | false =>
      cases i with
      | zero => rfl
      | succ i =>
        simp only [List.takeWhile_cons, Bool.not_false, if_true, List.length_cons] at h
        simp only [List.getD_cons_succ]
        exact ih i (by omega)

theorem takeWhile_not_length_eq (l : List Bool) (k : Nat) (hk : l.getD k false = true)
    (hz : ∀ i, i < k → l.getD i false = false) :
    (l.takeWhile (fun b => !b)).length = k := by
  induction l generalizing k with
  | nil => simp at hk
  | cons b l ih =>
    cases b with
    | true =>
      cases k with
      | zero => simp
      | succ k => have := hz 0 (by omega); simp at this
    | false =>
      cases k with
      | zero => simp at hk
      | succ k =>
        simp only [List.takeWhile_cons, Bool.not_false, if_true, List.length_cons]
        rw [ih k (by simpa using hk) (fun i hi => by simpa using hz (i + 1) (by omega))]

theorem takeWhile_id_le_iff (l : List Bool) (c : Nat) :
    c ≤ (l.takeWhile (fun b => b)).length ↔ ∀ j, j < c → l.getD j false = true := by
  induction l generalizing c with
  | nil =>
    simp only [List.takeWhile_nil, List.length_nil, Nat.le_zero]
    constructor
    · intro h j hj; omega
    · intro h
      by_contra hc
      have := h 0 (by omega)
      simp at this
  | cons b l ih =>
    cases b with
    | false =>
      simp only [List.takeWhile_cons, Bool.false_eq_true, if_false, List.length_nil, Nat.le_zero]
      constructor
      · intro h j hj; omega
      · intro h
        by_contra hc
        have := h 0 (by omega)
        simp at this
    | true =>
      simp only [List.takeWhile_cons, if_true, List.length_cons]
      cases c with
      | zero => simp
      | succ c =>
        rw [Nat.succ_le_succ_iff, ih c]
        constructor
        · intro h j hj
          cases j with
          | zero => rfl
          | succ j => simpa using h j (by omega)
        · intro h j hj
          simpa using h (j + 1) (by omega)

theorem zero_seq_len_zeros (rs : List Bool) (a j : Nat) (h1 : a ≤ j)
    (h2 : j < a + zero_seq_len rs a) : rs_get rs j = false := by
  have := takeWhile_not_getD (rs.drop a) (j - a) (by unfold zero_seq_len at h2; omega)
  rw [rs_get_drop] at this
  rw [← this]
  congr 1
  omega

theorem zero_seq_len_eq (rs : List Bool) (a b : Nat) (hab : a ≤ b) (hb : rs_get rs b = true)
    (hz : ∀ j, a ≤ j → j < b → rs_get rs j = false) : zero_seq_len rs a = b - a := by
  unfold zero_seq_len
  apply takeWhile_not_length_eq
  · rw [rs_get_drop]
    rw [← hb]
    congr 1
    omega
  · intro i hi
    rw [rs_get_drop]
    exact hz _ (by omega) (by omega)

theorem one_seq_len_le_iff (rs : List Bool) (a c : Nat) :
    c ≤ one_seq_len rs a ↔ ∀ j, j < c → rs_get rs (a + j) = true := by
  unfold one_seq_len
  rw [takeWhile_id_le_iff]
  constructor
  · intro h j hj
    rw [← rs_get_drop]
    exact h j hj
  · intro h j hj
    rw [rs_get_drop]
    exact h j hj

theorem getD_reverse_take (rs : List Bool) (pos i : Nat) (hpos : pos ≤ rs.length) (hi : i < pos) :
    ((rs.take pos).reverse).getD i false = rs_get rs (pos - 1 - i) := by
  unfold rs_get
  rw [List.getD_eq_getElem?_getD, List.getD_eq_getElem?_getD,
    List.getElem?_reverse (by simp; omega)]
  simp only [List.length_take, Nat.min_eq_left hpos]
  rw [List.getElem?_take_of_lt (by omega)]

theorem zero_seq_revlen_eq (rs : List Bool) (q pos : Nat) (hq : q < pos)
    (hpos : pos ≤ rs.length) (hb : rs_get rs q = true)
    (hz : ∀ j, q < j → j < pos → rs_get rs j = false) :
    zero_seq_revlen rs pos = pos - q - 1 := by
  unfold zero_seq_revlen
  apply takeWhile_not_length_eq
  · rw [getD_reverse_take rs pos _ hpos (by omega), ← hb]
    congr 1
    omega
  · intro i hi
    rw [getD_reverse_take rs pos _ hpos (by omega)]
    exact hz _ (by omega) (by omega)

/-- The one bit before a position of positive rank. -/
theorem exists_one_before (rs : List Bool) (pos : Nat) (h : 0 < rank1 rs pos) :
    ∃ q, q < pos ∧ rs_get rs q = true ∧ (∀ j, q < j → j < pos → rs_get rs j = false) ∧
      rank1 rs q + 1 = rank1 rs pos := by
  induction pos with
  | zero => simp [rank1] at h
  | succ pos ih =>
    rw [rank1_succ] at h ⊢
    cases hb : rs_get rs pos with
    | true =>
      refine ⟨pos, by omega, hb, fun j h1 h2 => by omega, ?_⟩
      simp
    | false =>
      rw [hb] at h
      simp only [Bool.false_eq_true, if_false, Nat.add_zero] at h ⊢
      obtain ⟨q, h1, h2, h3, h4⟩ := ih h
      refine ⟨q, by omega, h2, fun j hj1 hj2 => ?_, h4⟩
      rcases Nat.eq_or_lt_of_le (Nat.le_of_lt_succ hj2) with e | e
      · rw [e]; exact hb
      · exact h3 j hj1 e

theorem select1_rank1 (rs : List Bool) (pos : Nat) (h : rs_get rs pos = true) :
    select1 rs (rank1 rs pos) = pos := by
  induction rs generalizing pos with
  | nil => simp [rs_get] at h
  | cons b rs ih =>
    cases pos with
    | zero =>
      have hb : b = true := by simpa [rs_get] using h
      subst hb
      rfl
    | succ pos =>
      have h' : rs_get rs pos = true := by simpa [rs_get] using h
      cases b with
      | true =>
        have e : rank1 (true :: rs) (pos + 1) = rank1 rs pos + 1 := by
          simp [rank1]
        rw [e]
        simp only [select1]
        rw [ih pos h']
      | false =>
        have e : rank1 (false :: rs) (pos + 1) = rank1 rs pos := by
          simp [rank1]
        rw [e]
        cases hr : rank1 rs pos with
        | zero =>
          simp only [select1]
          rw [← hr, ih pos h']
        | succ k =>
          simp only [select1]
          rw [← hr, ih pos h']

theorem rank0_succ (rs : List Bool) (i : Nat) :
    rank0 rs (i + 1) = rank0 rs i + if rs_get rs i = true then 0 else if i < rs.length then 1 else 0 := by
  unfold rank0 rs_get
  by_cases hi : i < rs.length
  · rw [List.take_succ, List.count_append, List.getD_eq_getElem?_getD,
      List.getElem?_eq_getElem hi]
    cases rs[i] <;> simp [hi]
  · have h1 : rs.length ≤ i := by omega
    rw [List.take_of_length_le (by omega), List.take_of_length_le h1,
      List.getD_eq_getElem?_getD, List.getElem?_eq_none h1]
    simp [hi]

theorem rank0_add_ones (rs : List Bool) (a k : Nat)
    (h : ∀ j, j < k → rs_get rs (a + j) = true) : rank0 rs (a + k) = rank0 rs a := by
  induction k with
  | zero => rfl
  | succ k ih =>
    rw [← Nat.add_assoc, rank0_succ, h k (by omega), if_pos rfl, Nat.add_zero]
    exact ih (fun j hj => h j (by omega))

/-! ## Lemmas on the cursor of the ascending prefix -/

theorem SaveAsBigEndianUint64_length (beg : fstring) (len value : Nat) (h : len ≤ beg.length) :
    (SaveAsBigEndianUint64 beg len value).length = beg.length := by
  unfold SaveAsBigEndianUint64
  rw [List.length_append, beBytes_length, List.length_drop]
  omega

theorem SaveAsBigEndianUint64_twice (beg : fstring) (len v w : Nat) :
    SaveAsBigEndianUint64 (SaveAsBigEndianUint64 beg len v) len w =
      SaveAsBigEndianUint64 beg len w := by
  unfold SaveAsBigEndianUint64
  rw [List.drop_append_of_le_length (by rw [beBytes_length]),
    List.drop_of_length_le (by rw [beBytes_length]), List.nil_append]

theorem SaveAsBigEndianUint64_same (beg : fstring) (len v : Nat)
    (h : beg.take len = beBytes len v) : SaveAsBigEndianUint64 beg len v = beg := by
  unfold SaveAsBigEndianUint64
  rw [← h, List.take_append_drop]

/-- One step of the loop of `IterNext` from a cursor on a key that is not the
last one. -/
theorem asc_next_position (rs : List Bool) (pos : Nat) (hbit : rs_get rs pos = true)
    (hnext : rank1 rs pos + 1 < max_rank1 rs) :
    rs_get rs (pos + 1 + zero_seq_len rs (pos + 1)) = true ∧
      rank1 rs (pos + 1 + zero_seq_len rs (pos + 1)) = rank1 rs pos + 1 ∧
      pos + 1 + zero_seq_len rs (pos + 1) < rs.length := by
  have hsucc := rank1_succ rs pos
  rw [hbit, if_pos rfl] at hsucc
  have hz := zero_seq_len_spec rs (pos + 1) (exists_one_after (by omega))
  exact ⟨hz.1, by rw [hz.2, hsucc], rs_get_lt hz.1⟩

open CompositeIndexAscendingUintPrefix in
theorem asc_IterNextLoop_spec (p : CompositeIndexAscendingUintPrefix)
    (hlen : p.rank_select.length < 2 ^ 64) (count : Nat) : ∀ (id pos : Nat),
    rs_get p.rank_select pos = true → rank1 p.rank_select pos = id →
    (id + count < max_rank1 p.rank_select →
      (p.IterNextLoop count id pos).1 = true ∧ (p.IterNextLoop count id pos).2.1 = id + count ∧
        rs_get p.rank_select (p.IterNextLoop count id pos).2.2 = true ∧
        rank1 p.rank_select (p.IterNextLoop count id pos).2.2 = id + count) ∧
    (max_rank1 p.rank_select ≤ id + count →
      (p.IterNextLoop count id pos).1 = false ∧
        (p.IterNextLoop count id pos).2.1 = size_t_max) := by
  have hN : max_rank1 p.rank_select < 2 ^ 64 :=
    lt_of_le_of_lt (max_rank1_le_length _) hlen
  induction count with
  | zero =>
    intro id pos hbit hrank
    have := rank1_lt_max hbit
    refine ⟨fun _ => ⟨rfl, rfl, hbit, hrank⟩, fun h => by omega⟩
  | succ count ih =>
    intro id pos hbit hrank
    have hlt := rank1_lt_max hbit
    have hsub : sub64 (max_rank1 p.rank_select) 1 = max_rank1 p.rank_select - 1 :=
      sub64_eq (by omega) hN
    by_cases hend : id = max_rank1 p.rank_select - 1
    · have e : p.IterNextLoop (count + 1) id pos = (false, size_t_max, pos) := by
        simp only [IterNextLoop, hsub]
        rw [if_pos hend]
      rw [e]
      exact ⟨fun h => by omega, fun _ => ⟨rfl, rfl⟩⟩
    · obtain ⟨n1, n2, n3⟩ := asc_next_position p.rank_select pos hbit (by omega)
      have hposlt := rs_get_lt hbit
      have e1 : add64 pos 1 = pos + 1 := add64_eq (by omega)
      have e2 : add64 pos (zero_seq_len p.rank_select (pos + 1)) =
          pos + zero_seq_len p.rank_select (pos + 1) := add64_eq (by omega)
      have e3 : add64 (pos + zero_seq_len p.rank_select (pos + 1)) 1 =
          pos + 1 + zero_seq_len p.rank_select (pos + 1) := by
        rw [add64_eq (by omega)]; omega
      have e4 : add64 id 1 = id + 1 := add64_eq (by omega)
      have e : p.IterNextLoop (count + 1) id pos =
          p.IterNextLoop count (id + 1) (pos + 1 + zero_seq_len p.rank_select (pos + 1)) := by
        simp only [IterNextLoop, hsub, e1, e2, e3, e4]
        rw [if_neg hend]
      rw [e]
      have := ih (id + 1) _ n1 (by rw [n2, hrank])
      have e5 : id + 1 + count = id + (count + 1) := by omega
      rw [e5] at this
      exact this

/-- The position that `IterPrev` moves to from a cursor on a key that is not
the first one. -/
theorem prev_position (rs : List Bool) (pos : Nat) (hbit : rs_get rs pos = true)
    (hpos : 0 < rank1 rs pos) :
    zero_seq_revlen rs pos < pos ∧
      rs_get rs (pos - zero_seq_revlen rs pos - 1) = true ∧
      rank1 rs (pos - zero_seq_revlen rs pos - 1) + 1 = rank1 rs pos ∧
      zero_seq_len rs (pos - zero_seq_revlen rs pos - 1 + 1) = zero_seq_revlen rs pos := by
  obtain ⟨q, h1, h2, h3, h4⟩ := exists_one_before rs pos hpos
  have hlt := rs_get_lt hbit
  have e := zero_seq_revlen_eq rs q pos h1 (by omega) h2 h3
  have e2 : pos - zero_seq_revlen rs pos - 1 = q := by omega
  rw [e2]
  refine ⟨by omega, h2, h4, ?_⟩
  rw [zero_seq_len_eq rs (q + 1) pos (by omega) hbit (fun j hj1 hj2 => h3 j (by omega) hj2)]
  omega

/-- After a step of `IterNext`, `zero_seq_revlen` at the new position is the
run of zeros that the step jumped over. -/
theorem zero_seq_revlen_next (rs : List Bool) (pos : Nat) (hbit : rs_get rs pos = true)
    (hnext : rank1 rs pos + 1 < max_rank1 rs) :
    zero_seq_revlen rs (pos + 1 + zero_seq_len rs (pos + 1)) = zero_seq_len rs (pos + 1) := by
  obtain ⟨n1, n2, n3⟩ := asc_next_position rs pos hbit hnext
  rw [zero_seq_revlen_eq rs pos _ (by omega) (by omega) hbit
    (fun j hj1 hj2 => zero_seq_len_zeros rs (pos + 1) j (by omega) (by omega))]
  omega

/-! ## Lemmas on the trie prefix, the seek order and the AllOne build -/

theorem lower_bound_not_lt (rows : List fstring) (t : fstring) (n : Nat) : ∀ lo : Nat,
    lower_bound rows t n lo < lo + n →
      fstring_lt (rows.getD (lower_bound rows t n lo) []) t = false := by
  induction n with
  | zero => intro lo h; simp only [lower_bound] at h; omega
  | succ n ih =>
    intro lo h
    simp only [lower_bound] at h ⊢
    by_cases hlt : fstring_lt (rows.getD lo []) t = true
    · rw [if_pos hlt] at h ⊢
      exact ih (lo + 1) (by omega)
    · rw [if_neg hlt]
      exact Bool.eq_false_iff.mpr hlt

theorem commonPrefixLen_comm (a b : fstring) : commonPrefixLen a b = commonPrefixLen b a := by
  induction a generalizing b with
  | nil => cases b <;> rfl
  | cons x xs ih =>
    cases b with
    | nil => rfl
    | cons y ys =>
      simp only [commonPrefixLen]
      by_cases h : x = y
      · rw [if_pos h, if_pos h.symm, ih]
      · rw [if_neg h, if_neg (fun e => h e.symm)]

theorem fstring_lt_self_append (c r : fstring) (h : r ≠ []) : fstring_lt c (c ++ r) = true := by
  induction c with
  | nil =>
    cases r with
    | nil => exact absurd rfl h
    | cons _ _ => rfl
  | cons x xs ih =>
    simp only [List.cons_append, fstring_lt, lt_irrefl, if_false]
    exact ih

theorem fstring_lt_antisymm : ∀ (a b : fstring),
    fstring_lt a b = false → fstring_lt b a = false → a = b
  | [], [], _, _ => rfl
  | [], _ :: _, h, _ => by simp [fstring_lt] at h
  | _ :: _, [], _, h => by simp [fstring_lt] at h
  | x :: xs, y :: ys, h1, h2 => by
    simp only [fstring_lt] at h1 h2
    by_cases hxy : x < y
    · rw [if_pos hxy] at h1; cases h1
    · by_cases hyx : y < x
      · rw [if_pos hyx] at h2; cases h2
      · rw [if_neg hxy, if_neg hyx] at h1
        rw [if_neg hyx, if_neg hxy] at h2
        have e : x = y := le_antisymm (not_lt.mp hyx) (not_lt.mp hxy)
        rw [e, fstring_lt_antisymm xs ys h1 h2]

theorem max_rank1_replicate_true (n : Nat) : max_rank1 (List.replicate n true) = n := by
  unfold max_rank1
  simp

open getFixedPrefixLength in
theorem classify_allone {info : UintPrefixBuildInfo} {keyCount pc : Nat}
    (h : classify info keyCount = some (.asc_allone, pc)) :
    info.entry_count = info.max_value - info.min_value := by
  by_contra hne
  simp only [classify, if_neg hne] at h
  split_ifs at h <;> simp at h

/-! ## Lemmas on the cursor of the non-descending prefix -/

open CompositeIndexNonDescendingUintPrefix in
/-- One call `IterNext(id, 1, iter)` from a cursor on a key that is not the
last one. -/
theorem nonDesc_IterNext_one (p : CompositeIndexNonDescendingUintPrefix)
    (hlen : p.rank_select.length < 2 ^ 64) (id : Nat) (iter : IteratorStorage)
    (hbit : rs_get p.rank_select iter.pos = true) (hrank : rank1 p.rank_select iter.pos = id)
    (hnext : id + 1 < max_rank1 p.rank_select) :
    p.IterNext id 1 iter =
      (true, id + 1,
        if zero_seq_len p.rank_select (iter.pos + 1) > 0 then
          p.UpdateBuffer
            { iter with pos := iter.pos + 1 + zero_seq_len p.rank_select (iter.pos + 1) }
        else { iter with pos := iter.pos + 1 + zero_seq_len p.rank_select (iter.pos + 1) }) := by
  have hN : max_rank1 p.rank_select < 2 ^ 64 :=
    lt_of_le_of_lt (max_rank1_le_length _) hlen
  obtain ⟨n1, n2, n3⟩ := asc_next_position p.rank_select iter.pos hbit (by omega)
  have hposlt := rs_get_lt hbit
  have e1 : add64 id 1 = id + 1 := add64_eq (by omega)
  have e2 : add64 iter.pos 1 = iter.pos + 1 := add64_eq (by omega)
  have e3 : add64 (zero_seq_len p.rank_select (iter.pos + 1)) 1 =
      zero_seq_len p.rank_select (iter.pos + 1) + 1 := add64_eq (by omega)
  have e4 : add64 iter.pos (zero_seq_len p.rank_select (iter.pos + 1) + 1) =
      iter.pos + 1 + zero_seq_len p.rank_select (iter.pos + 1) := by
    rw [add64_eq (by omega)]; omega
  simp only [IterNext, e1, e2, e3, e4]
  rw [if_neg (by omega)]
  simp

open CompositeIndexNonDescendingUintPrefix in
/-- Successive single steps inside a run of ones. -/
theorem nonDesc_IterNextTimes_run (p : CompositeIndexNonDescendingUintPrefix)
    (hlen : p.rank_select.length < 2 ^ 64) (k : Nat) : ∀ (id : Nat) (iter : IteratorStorage),
    rs_get p.rank_select iter.pos = true → rank1 p.rank_select iter.pos = id →
    id + k < max_rank1 p.rank_select →
    (∀ j, 1 ≤ j → j ≤ k → rs_get p.rank_select (iter.pos + j) = true) →
    p.IterNextTimes k id iter = (true, id + k, { iter with pos := iter.pos + k }) := by
  induction k with
  | zero => intro id iter _ _ _ _; rfl
  | succ k ih =>
    intro id iter hbit hrank hk hones
    have h1 := hones 1 (by omega) (by omega)
    have hz : zero_seq_len p.rank_select (iter.pos + 1) = 0 := by
      rw [zero_seq_len_eq p.rank_select (iter.pos + 1) (iter.pos + 1) (le_refl _) h1
        (fun j a b => by omega)]
      omega
    have hstep := nonDesc_IterNext_one p hlen id iter hbit hrank (by omega)
    rw [hz] at hstep
    simp only [gt_iff_lt, Nat.lt_irrefl, if_false, Nat.add_zero] at hstep
    have hsucc := rank1_succ p.rank_select iter.pos
    rw [hbit, if_pos rfl, hrank] at hsucc
    have := ih (id + 1) { iter with pos := iter.pos + 1 } h1 hsucc (by omega)
      (fun j hj1 hj2 => by
        have := hones (j + 1) (by omega) (by omega)
        rw [show iter.pos + 1 + j = iter.pos + (j + 1) by omega]
        exact this)
    simp only [IterNextTimes, hstep, if_true]
    rw [this]
    simp only [Prod.mk.injEq, true_and]
    exact ⟨by omega, by rw [show iter.pos + 1 + k = iter.pos + (k + 1) by omega]⟩

open CompositeIndexNonDescendingUintPrefix in
/-- Successive single steps in general: the cursor ends on the key `id + k`,
and either the steps stayed inside a run of ones or the key buffer was
rewritten with the head at the final position. -/
theorem nonDesc_IterNextTimes_spec (p : CompositeIndexNonDescendingUintPrefix)
    (hlen : p.rank_select.length < 2 ^ 64) (k : Nat) : ∀ (id : Nat) (iter : IteratorStorage),
    rs_get p.rank_select iter.pos = true → rank1 p.rank_select iter.pos = id →
    id + k < max_rank1 p.rank_select →
    (p.IterNextTimes k id iter).1 = true ∧ (p.IterNextTimes k id iter).2.1 = id + k ∧
      rs_get p.rank_select (p.IterNextTimes k id iter).2.2.pos = true ∧
      rank1 p.rank_select (p.IterNextTimes k id iter).2.2.pos = id + k ∧
      ((∀ j, 1 ≤ j → j ≤ k → rs_get p.rank_select (iter.pos + j) = true) ∨
        (p.IterNextTimes k id iter).2.2.buffer =
          SaveAsBigEndianUint64 iter.buffer p.key_length
            (add64 (rank0 p.rank_select (p.IterNextTimes k id iter).2.2.pos) p.min_value)) := by
  induction k with
  | zero =>
    intro id iter hbit hrank _
    exact ⟨rfl, rfl, hbit, hrank, Or.inl (fun j a b => by omega)⟩
  | succ k ih =>
    intro id iter hbit hrank hk
    obtain ⟨n1, n2, n3⟩ := asc_next_position p.rank_select iter.pos hbit (by omega)
    have hstep := nonDesc_IterNext_one p hlen id iter hbit hrank (by omega)
    have e : p.IterNextTimes (k + 1) id iter =
        p.IterNextTimes k (id + 1)
          (if zero_seq_len p.rank_select (iter.pos + 1) > 0 then
            p.UpdateBuffer
              { iter with pos := iter.pos + 1 + zero_seq_len p.rank_select (iter.pos + 1) }
          else { iter with pos := iter.pos + 1 + zero_seq_len p.rank_select (iter.pos + 1) }) := by
      simp only [IterNextTimes, hstep, if_true]
    rw [e]
    by_cases hz : zero_seq_len p.rank_select (iter.pos + 1) > 0
    · rw [if_pos hz]
      have hv : rs_get p.rank_select (p.UpdateBuffer
          { iter with pos := iter.pos + 1 + zero_seq_len p.rank_select (iter.pos + 1) }).pos =
          true := n1
      have hr : rank1 p.rank_select (p.UpdateBuffer
          { iter with pos := iter.pos + 1 + zero_seq_len p.rank_select (iter.pos + 1) }).pos =
          id + 1 := by rw [← hrank]; exact n2
      obtain ⟨a1, a2, a3, a4, a5⟩ := ih (id + 1) _ hv hr (by omega)
      refine ⟨a1, by rw [a2]; omega, a3, by rw [a4]; omega, Or.inr ?_⟩
      rcases a5 with a5 | a5
      · have hrun := nonDesc_IterNextTimes_run p hlen k (id + 1) _ hv hr (by omega) a5
        rw [hrun]
        simp only [UpdateBuffer]
        rw [rank0_add_ones p.rank_select _ k (fun j hj => by
          rcases Nat.eq_zero_or_pos j with e0 | e0
          · rw [e0]; exact n1
          · exact a5 j e0 (by omega))]
      · rw [a5]
        simp only [UpdateBuffer]
        rw [SaveAsBigEndianUint64_twice]
    · rw [if_neg hz]
      have hz0 : zero_seq_len p.rank_select (iter.pos + 1) = 0 := by omega
      rw [hz0, Nat.add_zero] at n1 n2 ⊢
      obtain ⟨a1, a2, a3, a4, a5⟩ := ih (id + 1) { iter with pos := iter.pos + 1 } n1
        (by rw [← hrank]; exact n2) (by omega)
      refine ⟨a1, by rw [a2]; omega, a3, by rw [a4]; omega, ?_⟩
      rcases a5 with a5 | a5
      · left
        intro j hj1 hj2
        rcases Nat.eq_or_lt_of_le hj1 with e1 | e1
        · rw [← e1]; exact n1
        · have := a5 (j - 1) (by omega) (by omega)
          rw [show iter.pos + j = iter.pos + 1 + (j - 1) by omega]
          exact this
      · right
        exact a5

/-! ## The claims on the cursors, the trie prefix, the AllOne build and the cursor storage -/

open CompositeIndexAscendingUintPrefix in
/-- C31. On a well-formed ascending uint prefix (first and last bit of the
bitmap set): `IterSeekToFirst` and `IterSeekToLast` succeed, and they and every
successful `IterSeek`, `IterNext` (any `count ≥ 1`, from a cursor on a key) and
`IterPrev` (from a cursor on a key) leave the cursor on a key: `rs[pos] = 1`,
`rank1(pos) = id`, and the first `key_length` bytes of the buffer are the
big-endian encoding of `pos + min_value`; every failing `IterSeek`, `IterNext`
or `IterPrev` sets `id` to `size_t(-1)`; and the buffer keeps its 8 bytes. -/
theorem ascending_cursor_invariant (p : CompositeIndexAscendingUintPrefix) (hwf : p.WellFormed)
    (iter : IteratorStorage) :
    ((p.IterSeekToFirst iter).1 = true ∧
      p.OnKey ⟨(p.IterSeekToFirst iter).2.1, (p.IterSeekToFirst iter).2.2⟩) ∧
    ((p.IterSeekToLast iter).1 = true ∧
      p.OnKey ⟨(p.IterSeekToLast iter).2.1, (p.IterSeekToLast iter).2.2⟩) ∧
    (∀ (count : Nat) (target : fstring),
      ((p.IterSeek count target iter).1 = true →
        p.OnKey ⟨(p.IterSeek count target iter).2.1, (p.IterSeek count target iter).2.2.2⟩) ∧
      ((p.IterSeek count target iter).1 = false →
        (p.IterSeek count target iter).2.1 = size_t_max)) ∧
    (∀ id count : Nat, 1 ≤ count → rs_get p.rank_select iter.pos = true →
      rank1 p.rank_select iter.pos = id →
      ((p.IterNext id count iter).1 = true →
        p.OnKey ⟨(p.IterNext id count iter).2.1, (p.IterNext id count iter).2.2⟩) ∧
      ((p.IterNext id count iter).1 = false → (p.IterNext id count iter).2.1 = size_t_max)) ∧
    (∀ id : Nat, rs_get p.rank_select iter.pos = true → rank1 p.rank_select iter.pos = id →
      ((p.IterPrev id iter).1 = true →
        p.OnKey ⟨(p.IterPrev id iter).2.1, (p.IterPrev id iter).2.2⟩) ∧
      ((p.IterPrev id iter).1 = false → (p.IterPrev id iter).2.1 = size_t_max)) ∧
    (iter.buffer.length = 8 →
      (p.IterSeekToFirst iter).2.2.buffer.length = 8 ∧
      (p.IterSeekToLast iter).2.2.buffer.length = 8 ∧
      (∀ (count : Nat) (target : fstring),
        (p.IterSeek count target iter).2.2.2.buffer.length = 8) ∧
      (∀ id count : Nat, (p.IterNext id count iter).2.2.buffer.length = 8) ∧
      (∀ id : Nat, (p.IterPrev id iter).2.2.buffer.length = 8)) := by
  have hN : max_rank1 p.rank_select < 2 ^ 64 :=
    lt_of_le_of_lt (max_rank1_le_length _) hwf.size_lt
  have hsz := hwf.size_eq
  have hszlt := hwf.size_lt
  have hlast : rs_get p.rank_select (p.rank_select.length - 1) = true := by
    have e : p.rank_select.length - 1 = p.max_value - p.min_value := by omega
    rw [e]; exact hwf.last_set
  refine ⟨⟨rfl, onKey_update p hwf _ _ _ hwf.first_set rfl⟩, ⟨rfl, ?_⟩, ?_, ?_, ?_, ?_⟩
  · -- IterSeekToLast
    have e1 : sub64 p.rank_select.length 1 = p.rank_select.length - 1 :=
      sub64_eq (by omega) hszlt
    have hr := rank1_succ p.rank_select (p.rank_select.length - 1)
    rw [hlast, if_pos rfl, Nat.sub_add_cancel (by omega), rank1_length] at hr
    have e2 : sub64 (max_rank1 p.rank_select) 1 = max_rank1 p.rank_select - 1 :=
      sub64_eq (by omega) hN
    simp only [IterSeekToLast, e1, e2]
    exact onKey_update p hwf _ _ _ hlast (by omega)
  · -- IterSeek
    intro count target
    rcases asc_SeekImpl_spec p hwf target iter.pos with ⟨h1, h2, h3, h4⟩ | ⟨h1, h2, -⟩
    · simp only [IterSeek, h1, Bool.not_true, Bool.false_eq_true, if_false, true_implies]
      exact ⟨onKey_update p hwf _ _ _ h3 (by rw [h4, h2]), fun h => (by cases h)⟩
    · simp only [IterSeek, h1, Bool.not_false, if_true]
      exact ⟨fun h => (by cases h), fun _ => h2⟩
  · -- IterNext
    intro id count hcount hbit hrank
    obtain ⟨s1, s2⟩ := asc_IterNextLoop_spec p hszlt count id iter.pos hbit hrank
    by_cases hc : id + count < max_rank1 p.rank_select
    · obtain ⟨a1, a2, a3, a4⟩ := s1 hc
      simp only [IterNext, a1, if_true, true_implies]
      exact ⟨onKey_update p hwf _ _ _ a3 (by rw [a4, a2]), fun h => (by cases h)⟩
    · obtain ⟨a1, a2⟩ := s2 (by omega)
      simp only [IterNext, a1, Bool.false_eq_true, if_false]
      exact ⟨fun h => (by cases h), fun _ => a2⟩
  · -- IterPrev
    intro id hbit hrank
    by_cases h0 : id = 0
    · simp only [IterPrev, h0, if_true]
      exact ⟨fun h => (by cases h), fun _ => trivial⟩
    · obtain ⟨q1, q2, q3, -⟩ := prev_position p.rank_select iter.pos hbit (by omega)
      have hposlt := rs_get_lt hbit
      have e1 : sub64 iter.pos (zero_seq_revlen p.rank_select iter.pos) =
          iter.pos - zero_seq_revlen p.rank_select iter.pos := sub64_eq (by omega) (by omega)
      have e2 : sub64 (iter.pos - zero_seq_revlen p.rank_select iter.pos) 1 =
          iter.pos - zero_seq_revlen p.rank_select iter.pos - 1 :=
        sub64_eq (by omega) (by omega)
      have hid := rank1_lt_max hbit
      have e3 : sub64 id 1 = id - 1 := sub64_eq (by omega) (by omega)
      simp only [IterPrev, h0, if_false, e1, e2, e3, true_implies]
      exact ⟨onKey_update p hwf _ _ _ q2 (by omega), fun h => (by cases h)⟩
  · -- the buffer keeps its 8 bytes
    intro hbuf
    have hL := hwf.key_length_le
    have hU : ∀ st : IteratorStorage, st.buffer.length = 8 →
        (p.UpdateBuffer st).buffer.length = 8 := by
      intro st hst
      simp only [UpdateBuffer]
      rw [SaveAsBigEndianUint64_length _ _ _ (by omega), hst]
    refine ⟨hU _ hbuf, hU _ hbuf, fun count target => ?_, fun id count => ?_, fun id => ?_⟩
    · simp only [IterSeek]
      split_ifs
      · exact hbuf
      · exact hU _ hbuf
    · simp only [IterNext]
      split_ifs
      · exact hU _ hbuf
      · exact hbuf
    · simp only [IterPrev]
      split_ifs
      · exact hbuf
      · exact hU _ hbuf

open CompositeIndexAscendingUintPrefix in
theorem ascending_cursor_invariant_witness :
    gapPrefix.WellFormed ∧
      gapPrefix.OnKey ⟨(gapPrefix.IterSeekToLast freshIterator.prefix_storage).2.1,
        (gapPrefix.IterSeekToLast freshIterator.prefix_storage).2.2⟩ ∧
      (gapPrefix.IterSeek 0 [4] freshIterator.prefix_storage).2.1 = size_t_max :=
  ⟨gapPrefix_wellFormed,
    (ascending_cursor_invariant gapPrefix gapPrefix_wellFormed
      freshIterator.prefix_storage).2.1.2,
    ((ascending_cursor_invariant gapPrefix gapPrefix_wellFormed
      freshIterator.prefix_storage).2.2.1 0 [4]).2 (by decide)⟩

/-- C32, evaluated on the code. The non-descending prefix of scenario S3 has
the spec-encoded bitmap `1 1 0 1 0` of the heads "AAA", "AAA", "AAB". For the
target "AAAw" and every incoming `count` and cursor storage, `IterSeek`
succeeds and leaves `pos = 2`, `id = 2` and `count = 0`: the bit at `pos` is a
zero, no key shares a head there, and the key buffer holds "AAA", while the key
of id 2 is "AABa". -/
theorem nonDescending_IterSeek_off_key :
    scenarioS3Prefix.rank_select = nonDescendingBitmap 0x414141 [0x414141, 0x414141, 0x414142] ∧
    ∀ (count : Nat) (iter : IteratorStorage),
      (scenarioS3Prefix.IterSeek count [65, 65, 65, 119] iter).1 = true ∧
      (scenarioS3Prefix.IterSeek count [65, 65, 65, 119] iter).2.1 = 2 ∧
      (scenarioS3Prefix.IterSeek count [65, 65, 65, 119] iter).2.2.1 = 0 ∧
      (scenarioS3Prefix.IterSeek count [65, 65, 65, 119] iter).2.2.2.pos = 2 ∧
      rs_get scenarioS3Prefix.rank_select
        (scenarioS3Prefix.IterSeek count [65, 65, 65, 119] iter).2.2.2.pos = false ∧
      scenarioS3Prefix.IterGetKey
        (scenarioS3Prefix.IterSeek count [65, 65, 65, 119] iter).2.2.2 = [65, 65, 65] := by
  refine ⟨by decide, fun count iter => ?_⟩
  have e : scenarioS3Prefix.SeekImpl [65, 65, 65, 119] count iter.pos =
      ((true, false), 2, 0, 2) := by
    simp only [CompositeIndexNonDescendingUintPrefix.SeekImpl]
    rw [if_neg (by decide), if_neg (by decide), if_neg (by decide), if_neg (by decide)]
    decide
  simp only [CompositeIndexNonDescendingUintPrefix.IterSeek, e, Bool.not_true,
    Bool.false_eq_true, if_false]
  refine ⟨trivial, trivial, trivial, rfl, rfl, ?_⟩
  rw [CompositeIndexNonDescendingUintPrefix.IterGetKey,
    CompositeIndexNonDescendingUintPrefix.UpdateBuffer]
  simp only
  rw [SaveAsBigEndianUint64_take]
  decide

open CompositeIndexNestLoudsTriePrefix in
/-- C34, evaluated on the code. The trie prefix over the heads "a", "b" with
the tails "x", "y" stores the keys "ax" (id 0) and "by" (id 1); `Find` returns
`size_t(-1)` for both. In general `Find` with a suffix seeks the lower bound of
the whole key among the heads and then requires the head found to be a prefix
of the key, so it returns `size_t(-1)` for every key that is not itself a
head. -/
theorem trie_Find_with_suffix_misses :
    (trieAB.Find [97, 120] (some (.FixedString [[120], [121]])) = size_t_max ∧
      trieAB.Find [98, 121] (some (.FixedString [[120], [121]])) = size_t_max ∧
      trieAB.Find [97] none = 0 ∧ trieAB.Find [98] none = 1) ∧
    ∀ (p : CompositeIndexNestLoudsTriePrefix) (suffix : Suffix) (key : fstring),
      key ∉ p.heads → p.Find key (some suffix) = size_t_max := by
  refine ⟨by decide, fun p suffix key hkey => ?_⟩
  simp only [Find, Seek]
  by_cases hend : lower_bound p.heads key p.heads.length 0 = p.heads.length
  · rw [if_pos hend]
  · rw [if_neg hend]
    simp only
    have hle : ∀ n lo, lower_bound p.heads key n lo ≤ lo + n := by
      intro n
      induction n with
      | zero => intro lo; simp [lower_bound]
      | succ n ih =>
        intro lo
        simp only [lower_bound]
        split_ifs
        · have := ih (lo + 1); omega
        · omega
    have hlt : lower_bound p.heads key p.heads.length 0 < p.heads.length := by
      have := hle p.heads.length 0
      omega
    have hnl := lower_bound_not_lt p.heads key p.heads.length 0 (by omega)
    rw [if_pos]
    intro hc
    rw [commonPrefixLen_comm] at hc
    have happ := eq_append_of_commonPrefixLen hc
    simp only [GetKey] at happ hnl hc
    by_cases hr : key.drop (p.heads.getD (lower_bound p.heads key p.heads.length 0) []).length = []
    · rw [hr, List.append_nil] at happ
      apply hkey
      rw [happ, List.getD_eq_getElem _ _ hlt]
      exact List.getElem_mem _
    · have := fstring_lt_self_append
        (p.heads.getD (lower_bound p.heads key p.heads.length 0) []) _ hr
      rw [← happ, hnl] at this
      cases this

open CompositeIndexAscendingUintPrefix CompositeIndexIterator in
/-- C35, evaluated on the code. On the index of the keys `[1]` and `[3]` the
seek of the target `[2]` succeeds with the cursor on the key `[3]`, and
`[3] <= [2]` is false: `assert(prefix_key <= target)` does not hold. In general
a successful `IterSeek` of a well-formed ascending prefix leaves a cursor key
that is not smaller than the target, so the asserted order holds only when the
cursor key equals the target. -/
theorem Seek_assertion_not_valid :
    ((gapPrefix.IterSeek 0 [2] freshIterator.prefix_storage).1 = true ∧
      gapPrefix.IterGetKey (gapPrefix.IterSeek 0 [2] freshIterator.prefix_storage).2.2.2 = [3] ∧
      fstring_le [3] [2] = false ∧
      (Seek gapIndex freshIterator [2] 0).1 = true) ∧
    ∀ (p : CompositeIndexAscendingUintPrefix), p.WellFormed →
      ∀ (count : Nat) (target : fstring) (iter : IteratorStorage),
        (p.IterSeek count target iter).1 = true →
          fstring_lt (p.IterGetKey (p.IterSeek count target iter).2.2.2) target = false ∧
          (fstring_le (p.IterGetKey (p.IterSeek count target iter).2.2.2) target = true →
            p.IterGetKey (p.IterSeek count target iter).2.2.2 = target) := by
  refine ⟨by decide, fun p hwf count target iter hok => ?_⟩
  have hsz := hwf.size_eq
  have hmm := hwf.min_le_max
  have hmax := hwf.max_lt
  have hmax64 := lt_of_lt_of_le hwf.max_lt (pow256_le hwf.key_length_le)
  have key : fstring_lt (p.IterGetKey (p.IterSeek count target iter).2.2.2) target = false := by
    rcases asc_SeekImpl_spec p hwf target iter.pos with ⟨h1, h2, h3, h4⟩ | ⟨h1, -, -⟩
    · simp only [IterSeek, h1, Bool.not_true, Bool.false_eq_true, if_false]
      rw [asc_IterGetKey_UpdateBuffer]
      have hlt := rs_get_lt h3
      simp only
      rw [add64_eq (by omega)]
      rw [Bool.eq_false_iff]
      intro hc
      rw [fstring_lt_beBytes_iff p target (by omega)] at hc
      unfold targetRank at h4
      exact not_lt_of_rank1_eq h3 (le_of_eq h4.symm) (by omega)
    · simp only [IterSeek, h1, Bool.not_false, if_true] at hok
      cases hok
  refine ⟨key, fun hle => ?_⟩
  unfold fstring_le at hle
  exact fstring_lt_antisymm _ _ key (by simpa using hle)

open getFixedPrefixLength CompositeIndexFactoryBase in
/-- C37, evaluated on the code. For the three keys `[1]`, `[2]`, `[4]` the
planner returns an `asc_allone` plan (`entry_count = 3 = max_value - min_value`)
and the AllOne prefix built from it reports `KeyCount() = 4`, and finds the key
`[3]`, which is not stored, at id 2. In general the planner chooses
`asc_allone` when `entry_count == max_value - min_value`, while the bitmap has
`max_value - min_value + 1` ones: the built prefix reports
`KeyCount() = entry_count + 1` (as a `size_t`). -/
theorem allone_KeyCount_off_by_one :
    ((getFixedPrefixLength keyStatOneGap 0).type = .asc_allone ∧
      (getFixedPrefixLength keyStatOneGap 0).key_count = 3 ∧
      (getFixedPrefixLength keyStatOneGap 0).entry_count = 3 ∧
      (getFixedPrefixLength keyStatOneGap 0).min_value = 1 ∧
      (getFixedPrefixLength keyStatOneGap 0).max_value = 4 ∧
      (BuildAscendingUintPrefix.allone (getFixedPrefixLength keyStatOneGap 0)).KeyCount = 4 ∧
      (BuildAscendingUintPrefix.allone (getFixedPrefixLength keyStatOneGap 0)).Find [3] none =
        2) ∧
    ∀ (ks : KeyStat) (cplen : Nat),
      (getFixedPrefixLength ks cplen).type = .asc_allone →
        (BuildAscendingUintPrefix.allone (getFixedPrefixLength ks cplen)).KeyCount =
          add64 (getFixedPrefixLength ks cplen).entry_count 1 := by
  refine ⟨by decide, fun ks cplen ht => ?_⟩
  rcases getFixedPrefixLength_cases ks cplen with h | ⟨-, -, c, hc, -⟩
  · rw [h] at ht; cases ht
  · obtain ⟨pc, hcl, hinfo⟩ := candidate_some hc
    rw [ht] at hcl
    have hec := classify_allone hcl
    obtain ⟨lo, hi, hle, hhi, e⟩ :=
      candidateInfo_eq ks cplen (getFixedPrefixLength ks cplen).key_length
    generalize getFixedPrefixLength ks cplen = plan at *
    rw [e] at hec hinfo
    simp only at hec
    rw [hinfo]
    simp only [BuildAscendingUintPrefix.allone, AscendingUintPrefixFillRankSelect.allone,
      CompositeIndexAscendingUintPrefix.KeyCount, max_rank1_replicate_true]
    rw [sub64_eq hle hhi, hec]

open composite_index_detail.IteratorStorage in
/-- C39, evaluated on the code. For an ascending uint prefix over
`rank_select_il_256_32` (per-cursor storage of 24 bytes: `buffer[8]`, `pos`,
`hint`) with the empty suffix (0 bytes), `GetIteratorStorageSize` is 3, the
number of `size_t` words, and `AllocIteratorStorage_` allocates 3 bytes; the
suffix region starts 3 bytes after the prefix region. In general, for a prefix
that needs `p ≥ 2` bytes the size is below `p + s` and the offset of the suffix
region is below `p`. -/
theorem GetIteratorStorageSize_counts_words :
    (CompositeIndexUintPrefixIteratorStorage.sizeof true = 24 ∧
      GetIteratorStorageSize (CompositeIndexUintPrefixIteratorStorage.sizeof true) 0 = 3 ∧
      suffixStorageOffset (CompositeIndexUintPrefixIteratorStorage.sizeof true) = 3 ∧
      GetIteratorStorageSize (CompositeIndexUintPrefixIteratorStorage.sizeof false) 0 = 2) ∧
    ∀ p s : Nat, 2 ≤ p → p < 2 ^ 63 → s < 2 ^ 63 →
      GetIteratorStorageSize p s < p + s ∧ suffixStorageOffset p < p ∧
      GetIteratorStorageSize p s = (p + 7) / 8 + (s + 7) / 8 := by
  refine ⟨by decide, fun p s hp hp63 hs63 => ?_⟩
  have e1 : add64 p 8 = p + 8 := add64_eq (by omega)
  have e2 : sub64 (p + 8) 1 = p + 7 := by rw [sub64_eq (by omega) (by omega)]; omega
  have e3 : add64 s 8 = s + 8 := add64_eq (by omega)
  have e4 : sub64 (s + 8) 1 = s + 7 := by rw [sub64_eq (by omega) (by omega)]; omega
  have e5 : add64 0 ((p + 7) / 8) = (p + 7) / 8 := by rw [add64_eq (by omega)]; omega
  have e6 : add64 ((p + 7) / 8) ((s + 7) / 8) = (p + 7) / 8 + (s + 7) / 8 :=
    add64_eq (by omega)
  have h1 : (p + 7) / 8 < p := by omega
  have h2 : (s + 7) / 8 ≤ s := by omega
  simp only [GetIteratorStorageSize, suffixStorageOffset, e1, e2, e3, e4, e5, e6]
  exact ⟨by omega, h1, trivial⟩

/-! ## Lemmas on single steps of the cursors -/

open CompositeIndexAscendingUintPrefix in
/-- One call `IterNext(id, 1, iter)` of an ascending prefix from a cursor on a
key: it fails on the last key and moves to the next one bit otherwise. -/
theorem asc_IterNext_one (p : CompositeIndexAscendingUintPrefix)
    (hlen : p.rank_select.length < 2 ^ 64) (id : Nat) (iter : IteratorStorage)
    (hbit : rs_get p.rank_select iter.pos = true) (hrank : rank1 p.rank_select iter.pos = id) :
    (id + 1 < max_rank1 p.rank_select →
      p.IterNext id 1 iter =
        (true, id + 1,
          p.UpdateBuffer
            { iter with pos := iter.pos + 1 + zero_seq_len p.rank_select (iter.pos + 1) })) ∧
    (¬ id + 1 < max_rank1 p.rank_select → (p.IterNext id 1 iter).1 = false) := by
  have hN : max_rank1 p.rank_select < 2 ^ 64 :=
    lt_of_le_of_lt (max_rank1_le_length _) hlen
  have hid := rank1_lt_max hbit
  rw [hrank] at hid
  have eN : sub64 (max_rank1 p.rank_select) 1 = max_rank1 p.rank_select - 1 :=
    sub64_eq (by omega) hN
  have hposlt := rs_get_lt hbit
  constructor
  · intro hnext
    obtain ⟨n1, n2, n3⟩ := asc_next_position p.rank_select iter.pos hbit (by omega)
    have e1 : add64 id 1 = id + 1 := add64_eq (by omega)
    have e2 : add64 iter.pos 1 = iter.pos + 1 := add64_eq (by omega)
    have e3 : add64 iter.pos (zero_seq_len p.rank_select (iter.pos + 1)) =
        iter.pos + zero_seq_len p.rank_select (iter.pos + 1) := add64_eq (by omega)
    have e4 : add64 (iter.pos + zero_seq_len p.rank_select (iter.pos + 1)) 1 =
        iter.pos + 1 + zero_seq_len p.rank_select (iter.pos + 1) := by
      rw [add64_eq (by omega)]; omega
    simp only [IterNext, IterNextLoop, eN, e1, e2, e3, e4]
    rw [if_neg (show ¬ id = max_rank1 p.rank_select - 1 by omega)]
    simp
  · intro hlast
    simp only [IterNext, IterNextLoop, eN]
    rw [if_pos (show id = max_rank1 p.rank_select - 1 by omega)]
    simp

open CompositeIndexAscendingUintPrefix in
/-- One call `IterPrev(id, iter)` of an ascending prefix from a cursor on a key
that is not the first one. -/
theorem asc_IterPrev_one (p : CompositeIndexAscendingUintPrefix)
    (hlen : p.rank_select.length < 2 ^ 64) (id : Nat) (iter : IteratorStorage)
    (hbit : rs_get p.rank_select iter.pos = true) (hrank : rank1 p.rank_select iter.pos = id)
    (hpos : 0 < id) :
    p.IterPrev id iter =
      (true, id - 1,
        p.UpdateBuffer
          { iter with pos := iter.pos - zero_seq_revlen p.rank_select iter.pos - 1 }) := by
  obtain ⟨q1, -, -, -⟩ := prev_position p.rank_select iter.pos hbit (by omega)
  have hposlt := rs_get_lt hbit
  have hid := rank1_lt_max hbit
  have hN : max_rank1 p.rank_select < 2 ^ 64 :=
    lt_of_le_of_lt (max_rank1_le_length _) hlen
  have e1 : sub64 iter.pos (zero_seq_revlen p.rank_select iter.pos) =
      iter.pos - zero_seq_revlen p.rank_select iter.pos := sub64_eq (by omega) (by omega)
  have e2 : sub64 (iter.pos - zero_seq_revlen p.rank_select iter.pos) 1 =
      iter.pos - zero_seq_revlen p.rank_select iter.pos - 1 :=
    sub64_eq (by omega) (by omega)
  have e3 : sub64 id 1 = id - 1 := sub64_eq (by omega) (by omega)
  simp only [IterPrev, e1, e2, e3]
  rw [if_neg (show ¬ id = 0 by omega)]

open CompositeIndexNonDescendingUintPrefix in
/-- The call `IterNext(id, 1, iter)` of a non-descending prefix fails on the
last key. -/
theorem nonDesc_IterNext_last (p : CompositeIndexNonDescendingUintPrefix)
    (hlen : p.rank_select.length < 2 ^ 64) (id : Nat) (iter : IteratorStorage)
    (hbit : rs_get p.rank_select iter.pos = true) (hrank : rank1 p.rank_select iter.pos = id)
    (hlast : ¬ id + 1 < max_rank1 p.rank_select) : (p.IterNext id 1 iter).1 = false := by
  have hN : max_rank1 p.rank_select < 2 ^ 64 :=
    lt_of_le_of_lt (max_rank1_le_length _) hlen
  have hid := rank1_lt_max hbit
  rw [hrank] at hid
  have e1 : add64 id 1 = id + 1 := add64_eq (by omega)
  simp only [IterNext, e1]
  rw [if_pos (show id + 1 ≥ max_rank1 p.rank_select by omega)]

open CompositeIndexNonDescendingUintPrefix in
/-- One call `IterPrev(id, iter)` of a non-descending prefix from a cursor on a
key that is not the first one. -/
theorem nonDesc_IterPrev_one (p : CompositeIndexNonDescendingUintPrefix)
    (hlen : p.rank_select.length < 2 ^ 64) (id : Nat) (iter : IteratorStorage)
    (hbit : rs_get p.rank_select iter.pos = true) (hrank : rank1 p.rank_select iter.pos = id)
    (hpos : 0 < id) :
    p.IterPrev id iter =
      (true, id - 1,
        if zero_seq_revlen p.rank_select iter.pos > 0 then
          p.UpdateBuffer
            { iter with pos := iter.pos - zero_seq_revlen p.rank_select iter.pos - 1 }
        else { iter with pos := iter.pos - zero_seq_revlen p.rank_select iter.pos - 1 }) := by
  obtain ⟨q1, -, -, -⟩ := prev_position p.rank_select iter.pos hbit (by omega)
  have hposlt := rs_get_lt hbit
  have hid := rank1_lt_max hbit
  have hN : max_rank1 p.rank_select < 2 ^ 64 :=
    lt_of_le_of_lt (max_rank1_le_length _) hlen
  have e1 : add64 (zero_seq_revlen p.rank_select iter.pos) 1 =
      zero_seq_revlen p.rank_select iter.pos + 1 := add64_eq (by omega)
  have e2 : sub64 iter.pos (zero_seq_revlen p.rank_select iter.pos + 1) =
      iter.pos - zero_seq_revlen p.rank_select iter.pos - 1 := by
    rw [sub64_eq (by omega) (by omega)]; omega
  have e3 : sub64 id 1 = id - 1 := sub64_eq (by omega) (by omega)
  simp only [IterPrev, e1, e2, e3]
  rw [if_neg (show ¬ id = 0 by omega)]

/-! ## The claims on stepping the cursors -/

open CompositeIndexNonDescendingUintPrefix in
/-- C33. On a non-descending uint prefix, from a cursor on a key
(`rs[pos] = 1`, `rank1(pos) = id`) and for `count ≥ 1` (with `id + count` a
`size_t`): when `id + count < N`, `IterNext(id, count)` succeeds with the same
`id` (`id + count`), `pos` and key buffer as `count` successive calls
`IterNext(id, 1)`; when `id + count ≥ N` it returns false with
`id = size_t(-1)`. -/
theorem nonDescending_IterNext_count (p : CompositeIndexNonDescendingUintPrefix)
    (id count : Nat) (iter : IteratorStorage)
    (hlen : p.rank_select.length < 2 ^ 64)
    (hbit : rs_get p.rank_select iter.pos = true) (hrank : rank1 p.rank_select iter.pos = id)
    (hcount : 1 ≤ count) (hfit : id + count < 2 ^ 64) :
    (id + count < max_rank1 p.rank_select →
      p.IterNext id count iter = p.IterNextTimes count id iter ∧
        (p.IterNext id count iter).1 = true ∧ (p.IterNext id count iter).2.1 = id + count) ∧
    (max_rank1 p.rank_select ≤ id + count →
      (p.IterNext id count iter).1 = false ∧ (p.IterNext id count iter).2.1 = size_t_max) := by
  have e0 : add64 id count = id + count := add64_eq hfit
  have hposlt := rs_get_lt hbit
  have e1 : add64 iter.pos 1 = iter.pos + 1 := add64_eq (by omega)
  constructor
  · intro hlt
    obtain ⟨t1, t2, t3, t4, t5⟩ := nonDesc_IterNextTimes_spec p hlen count id iter hbit hrank hlt
    have key : p.IterNext id count iter = p.IterNextTimes count id iter := by
      by_cases hc1 : count = 1
      · subst hc1
        simp only [IterNextTimes]
        rw [nonDesc_IterNext_one p hlen id iter hbit hrank hlt]
        simp
      · simp only [IterNext, e0, e1]
        rw [if_neg (show ¬ id + count ≥ max_rank1 p.rank_select by omega)]
        rw [if_neg hc1]
        by_cases hrun : count ≤ one_seq_len p.rank_select (iter.pos + 1)
        · rw [if_pos hrun]
          have hones := (one_seq_len_le_iff p.rank_select (iter.pos + 1) count).mp hrun
          have hlast := rs_get_lt (hones (count - 1) (by omega))
          rw [add64_eq (by omega)]
          rw [nonDesc_IterNextTimes_run p hlen count id iter hbit hrank hlt
            (fun j hj1 hj2 => by
              have := hones (j - 1) (by omega)
              rw [show iter.pos + j = iter.pos + 1 + (j - 1) by omega]
              exact this)]
        · rw [if_neg hrun]
          rcases t5 with t5 | t5
          · exfalso
            apply hrun
            rw [one_seq_len_le_iff]
            intro j hj
            have := t5 (j + 1) (by omega) (by omega)
            rw [show iter.pos + 1 + j = iter.pos + (j + 1) by omega]
            exact this
          · have hsel := select1_rank1 p.rank_select _ t3
            rw [t4] at hsel
            rw [hsel]
            apply Prod.ext
            · exact t1.symm
            · apply Prod.ext
              · exact t2.symm
              · simp only [UpdateBuffer]
                rw [← t5]
    refine ⟨key, ?_, ?_⟩
    · rw [key]; exact t1
    · rw [key]; exact t2
  · intro hge
    simp only [IterNext, e0]
    rw [if_pos (show id + count ≥ max_rank1 p.rank_select by omega)]
    exact ⟨rfl, rfl⟩

theorem nonDescending_IterNext_count_witness :
    rs_get scenarioS3Prefix.rank_select 0 = true ∧
      scenarioS3Prefix.IterNext 0 2 ⟨[65, 65, 65, 0, 0, 0, 0, 0], 0⟩ =
        scenarioS3Prefix.IterNextTimes 2 0 ⟨[65, 65, 65, 0, 0, 0, 0, 0], 0⟩ ∧
      (scenarioS3Prefix.IterNext 0 2 ⟨[65, 65, 65, 0, 0, 0, 0, 0], 0⟩).2.2 =
        ⟨[65, 65, 66, 0, 0, 0, 0, 0], 3⟩ ∧
      (scenarioS3Prefix.IterNext 0 3 ⟨[65, 65, 65, 0, 0, 0, 0, 0], 0⟩).2.1 = size_t_max :=
  ⟨by decide,
    ((nonDescending_IterNext_count scenarioS3Prefix 0 2 ⟨[65, 65, 65, 0, 0, 0, 0, 0], 0⟩
      (by decide) (by decide) (by decide) (by decide) (by decide)).1 (by decide)).1,
    by decide,
    ((nonDescending_IterNext_count scenarioS3Prefix 0 3 ⟨[65, 65, 65, 0, 0, 0, 0, 0], 0⟩
      (by decide) (by decide) (by decide) (by decide) (by decide)).2 (by decide)).2⟩

/-- C36. Next and Prev are inverse on both uint prefixes. From a cursor of an
ascending prefix on a key (`rs[pos] = 1`, `rank1(pos) = id`, the buffer holds
the head at `pos`; the bitmap size and the heads are `uint64_t`): if
`IterNext(id, 1)` succeeds, the following `IterPrev` succeeds and restores
`id`, `pos` and the buffer; if `IterPrev` succeeds, the following
`IterNext(id, 1)` succeeds and restores them. The same holds from a cursor of a
non-descending prefix on a key. -/
theorem Next_Prev_inverse (pa : CompositeIndexAscendingUintPrefix)
    (pn : CompositeIndexNonDescendingUintPrefix) (ida idn : Nat) (itera itern : IteratorStorage)
    (hla : pa.rank_select.length < 2 ^ 64)
    (hha : pa.rank_select.length + pa.min_value ≤ 2 ^ 64)
    (hva : pa.OnKey ⟨ida, itera⟩)
    (hln : pn.rank_select.length < 2 ^ 64)
    (hvn : pn.OnKey idn itern) :
    ((pa.IterNext ida 1 itera).1 = true →
      pa.IterPrev (pa.IterNext ida 1 itera).2.1 (pa.IterNext ida 1 itera).2.2 =
        (true, ida, itera)) ∧
    ((pa.IterPrev ida itera).1 = true →
      pa.IterNext (pa.IterPrev ida itera).2.1 1 (pa.IterPrev ida itera).2.2 =
        (true, ida, itera)) ∧
    ((pn.IterNext idn 1 itern).1 = true →
      pn.IterPrev (pn.IterNext idn 1 itern).2.1 (pn.IterNext idn 1 itern).2.2 =
        (true, idn, itern)) ∧
    ((pn.IterPrev idn itern).1 = true →
      pn.IterNext (pn.IterPrev idn itern).2.1 1 (pn.IterPrev idn itern).2.2 =
        (true, idn, itern)) := by
  obtain ⟨abit, arank, abuf⟩ := hva
  obtain ⟨nbit, nrank, nbuf⟩ := hvn
  simp only at abit arank abuf
  have aposlt := rs_get_lt abit
  have nposlt := rs_get_lt nbit
  have aid := rank1_lt_max abit
  have nid := rank1_lt_max nbit
  rw [arank] at aid
  rw [nrank] at nid
  have asame : SaveAsBigEndianUint64 itera.buffer pa.key_length (add64 itera.pos pa.min_value) =
      itera.buffer := by
    apply SaveAsBigEndianUint64_same
    rw [add64_eq (by omega)]
    exact abuf
  have nsame : SaveAsBigEndianUint64 itern.buffer pn.key_length
      (add64 (rank0 pn.rank_select itern.pos) pn.min_value) = itern.buffer :=
    SaveAsBigEndianUint64_same _ _ _ nbuf
  refine ⟨fun hok => ?_, fun hok => ?_, fun hok => ?_, fun hok => ?_⟩
  · -- ascending, Next then Prev
    obtain ⟨s1, s2⟩ := asc_IterNext_one pa hla ida itera abit arank
    by_cases hnext : ida + 1 < max_rank1 pa.rank_select
    · obtain ⟨n1, n2, n3⟩ := asc_next_position pa.rank_select itera.pos abit (by omega)
      have hrev := zero_seq_revlen_next pa.rank_select itera.pos abit (by omega)
      rw [s1 hnext]
      rw [asc_IterPrev_one pa hla (ida + 1) _ n1 (by rw [← arank]; exact n2) (by omega)]
      simp only [CompositeIndexAscendingUintPrefix.UpdateBuffer, hrev,
        SaveAsBigEndianUint64_twice]
      have e : itera.pos + 1 + zero_seq_len pa.rank_select (itera.pos + 1) -
          zero_seq_len pa.rank_select (itera.pos + 1) - 1 = itera.pos := by omega
      rw [e, asame]
      rfl
    · rw [s2 hnext] at hok; cases hok
  · -- ascending, Prev then Next
    by_cases h0 : ida = 0
    · simp only [CompositeIndexAscendingUintPrefix.IterPrev, h0, if_true] at hok
      cases hok
    · obtain ⟨q1, q2, q3, q4⟩ := prev_position pa.rank_select itera.pos abit (by omega)
      rw [asc_IterPrev_one pa hla ida itera abit arank (by omega)]
      rw [(asc_IterNext_one pa hla (ida - 1) _ q2 (by
        simp only [CompositeIndexAscendingUintPrefix.UpdateBuffer]; omega)).1 (by omega)]
      simp only [CompositeIndexAscendingUintPrefix.UpdateBuffer, q4,
        SaveAsBigEndianUint64_twice]
      have e : itera.pos - zero_seq_revlen pa.rank_select itera.pos - 1 + 1 +
          zero_seq_revlen pa.rank_select itera.pos = itera.pos := by omega
      rw [e, asame, Nat.sub_add_cancel (by omega)]
  · -- non-descending, Next then Prev
    by_cases hnext : idn + 1 < max_rank1 pn.rank_select
    · obtain ⟨n1, n2, n3⟩ := asc_next_position pn.rank_select itern.pos nbit (by omega)
      have hrev := zero_seq_revlen_next pn.rank_select itern.pos nbit (by omega)
      have e : itern.pos + 1 + zero_seq_len pn.rank_select (itern.pos + 1) -
          zero_seq_len pn.rank_select (itern.pos + 1) - 1 = itern.pos := by omega
      rw [nonDesc_IterNext_one pn hln idn itern nbit nrank hnext]
      by_cases hz : zero_seq_len pn.rank_select (itern.pos + 1) > 0
      · rw [if_pos hz]
        rw [nonDesc_IterPrev_one pn hln (idn + 1) _ n1 (by rw [← nrank]; exact n2) (by omega)]
        simp only [CompositeIndexNonDescendingUintPrefix.UpdateBuffer, hrev, if_pos hz,
          SaveAsBigEndianUint64_twice]
        rw [e, nsame]
        rfl
      · rw [if_neg hz]
        rw [nonDesc_IterPrev_one pn hln (idn + 1) _ n1 (by rw [← nrank]; exact n2) (by omega)]
        simp only [hrev, if_neg hz]
        rw [e]
        rfl
    · rw [nonDesc_IterNext_last pn hln idn itern nbit nrank hnext] at hok; cases hok
  · -- non-descending, Prev then Next
    by_cases h0 : idn = 0
    · simp only [CompositeIndexNonDescendingUintPrefix.IterPrev, h0, if_true] at hok
      cases hok
    · obtain ⟨q1, q2, q3, q4⟩ := prev_position pn.rank_select itern.pos nbit (by omega)
      have e : itern.pos - zero_seq_revlen pn.rank_select itern.pos - 1 + 1 +
          zero_seq_revlen pn.rank_select itern.pos = itern.pos := by omega
      rw [nonDesc_IterPrev_one pn hln idn itern nbit nrank (by omega)]
      by_cases hz : zero_seq_revlen pn.rank_select itern.pos > 0
      · rw [if_pos hz]
        rw [nonDesc_IterNext_one pn hln (idn - 1) _ q2 (by
          simp only [CompositeIndexNonDescendingUintPrefix.UpdateBuffer]; omega) (by omega)]
        simp only [CompositeIndexNonDescendingUintPrefix.UpdateBuffer, q4, if_pos hz,
          SaveAsBigEndianUint64_twice]
        rw [e, nsame, Nat.sub_add_cancel (by omega)]
      · rw [if_neg hz]
        rw [nonDesc_IterNext_one pn hln (idn - 1) _ q2 (by simp only; omega) (by omega)]
        simp only [q4, if_neg hz]
        rw [e, Nat.sub_add_cancel (by omega)]

theorem Next_Prev_inverse_witness :
    gapPrefix.OnKey ⟨0, ⟨[1, 0, 0, 0, 0, 0, 0, 0], 0⟩⟩ ∧
      scenarioS3Prefix.OnKey 1 ⟨[65, 65, 65, 0, 0, 0, 0, 0], 1⟩ ∧
      (gapPrefix.IterNext 0 1 ⟨[1, 0, 0, 0, 0, 0, 0, 0], 0⟩).2.2.pos = 2 ∧
      gapPrefix.IterPrev (gapPrefix.IterNext 0 1 ⟨[1, 0, 0, 0, 0, 0, 0, 0], 0⟩).2.1
          (gapPrefix.IterNext 0 1 ⟨[1, 0, 0, 0, 0, 0, 0, 0], 0⟩).2.2 =
        (true, 0, ⟨[1, 0, 0, 0, 0, 0, 0, 0], 0⟩) ∧
      (scenarioS3Prefix.IterNext 1 1 ⟨[65, 65, 65, 0, 0, 0, 0, 0], 1⟩).2.2.pos = 3 ∧
      scenarioS3Prefix.IterPrev
          (scenarioS3Prefix.IterNext 1 1 ⟨[65, 65, 65, 0, 0, 0, 0, 0], 1⟩).2.1
          (scenarioS3Prefix.IterNext 1 1 ⟨[65, 65, 65, 0, 0, 0, 0, 0], 1⟩).2.2 =
        (true, 1, ⟨[65, 65, 65, 0, 0, 0, 0, 0], 1⟩) :=
  ⟨⟨by decide, by decide, by decide⟩, ⟨by decide, by decide, by decide⟩, by decide,
    (Next_Prev_inverse gapPrefix scenarioS3Prefix 0 1 ⟨[1, 0, 0, 0, 0, 0, 0, 0], 0⟩
      ⟨[65, 65, 65, 0, 0, 0, 0, 0], 1⟩ (by decide) (by decide)
      ⟨by decide, by decide, by decide⟩ (by decide) ⟨by decide, by decide, by decide⟩).1
      (by decide),
    by decide,
    (Next_Prev_inverse gapPrefix scenarioS3Prefix 0 1 ⟨[1, 0, 0, 0, 0, 0, 0, 0], 0⟩
      ⟨[65, 65, 65, 0, 0, 0, 0, 0], 1⟩ (by decide) (by decide)
      ⟨by decide, by decide, by decide⟩ (by decide) ⟨by decide, by decide, by decide⟩).2.2.1
      (by decide)⟩

/-! ## Lemmas on the planner without the target test -/

namespace getFixedPrefixLength

theorem loopWithoutTarget_succ (ks : KeyStat) (cplen n : Nat) :
    loopWithoutTarget ks cplen (n + 1) =
      stepWithoutTarget ks cplen (loopWithoutTarget ks cplen n) (1 + n) := by
  unfold loopWithoutTarget
  rw [List.range'_concat, List.foldl_append, Nat.one_mul]
  rfl

theorem bestCost_le_targetCost (ks : KeyStat) (cplen : Nat)
    (h : bestCost₀ ks cplen * 10 < 2 ^ 64) : bestCost₀ ks cplen ≤ targetCost ks cplen := by
  unfold targetCost mul64
  rw [Nat.mod_eq_of_lt h]
  omega

theorem loop_cost_le (ks : KeyStat) (cplen n : Nat) :
    (loop ks cplen n).2 ≤ bestCost₀ ks cplen := by
  rcases inv_loop ks cplen n with ⟨h1, -⟩ | ⟨-, -, -, -, h5, -⟩
  · rw [h1]
  · exact Nat.le_of_lt h5

theorem step_eq_stepWithoutTarget (ks : KeyStat) (cplen : Nat)
    (h : bestCost₀ ks cplen * 10 < 2 ^ 64) (st : UintPrefixBuildInfo × Nat)
    (hst : st.2 ≤ bestCost₀ ks cplen) (i : Nat) :
    stepWithoutTarget ks cplen st i = step ks cplen st i := by
  have ht := bestCost_le_targetCost ks cplen h
  unfold stepWithoutTarget step
  cases candidate ks cplen i with
  | none => rfl
  | some r =>
    obtain ⟨info, c⟩ := r
    simp only
    by_cases hc : c < st.2
    · rw [if_pos hc, if_pos ⟨hc, by omega⟩]
    · rw [if_neg hc, if_neg (fun e => hc e.1)]

theorem loopWithoutTarget_eq (ks : KeyStat) (cplen : Nat)
    (h : bestCost₀ ks cplen * 10 < 2 ^ 64) (n : Nat) :
    loopWithoutTarget ks cplen n = loop ks cplen n := by
  induction n with
  | zero => rfl
  | succ n ih =>
    rw [loopWithoutTarget_succ, loop_succ, ih]
    exact step_eq_stepWithoutTarget ks cplen h _ (loop_cost_le ks cplen n) _

end getFixedPrefixLength

/-! ## The claim on the target test -/

open getFixedPrefixLength in
/-- C38. Every plan the planner returns with `key_length > 0` is the candidate
of its head length, with an estimated cost strictly below the no-prefix
baseline `bestCost₀`. When `bestCost₀ * 10` does not overflow, a candidate
whose cost is below the running `bestCost` (after any number of passes) is
also below `targetCost = bestCost₀ * 10 / 6`, and the planner without the
target test returns the same plan. -/
theorem target_test_redundant (ks : KeyStat) (cplen : Nat)
    (h : bestCost₀ ks cplen * 10 < 2 ^ 64) :
    (0 < (getFixedPrefixLength ks cplen).key_length →
      ∃ c, candidate ks cplen (getFixedPrefixLength ks cplen).key_length =
          some (getFixedPrefixLength ks cplen, c) ∧
        c < bestCost₀ ks cplen) ∧
    (∀ (n i : Nat) (info : UintPrefixBuildInfo) (c : Nat),
      candidate ks cplen i = some (info, c) → c < (loop ks cplen n).2 →
        c < targetCost ks cplen) ∧
    (∀ n : Nat, loopWithoutTarget ks cplen n = loop ks cplen n) ∧
    getFixedPrefixLengthWithoutTarget ks cplen = getFixedPrefixLength ks cplen := by
  refine ⟨fun hk => ?_, fun n i info c _ hc => ?_, loopWithoutTarget_eq ks cplen h, ?_⟩
  · rcases getFixedPrefixLength_cases ks cplen with e | ⟨-, -, c, hc, hlt⟩
    · rw [e] at hk; cases hk
    · exact ⟨c, hc, hlt⟩
  · have h1 := loop_cost_le ks cplen n
    have h2 := bestCost_le_targetCost ks cplen h
    omega
  · unfold getFixedPrefixLengthWithoutTarget getFixedPrefixLength
    rw [loopWithoutTarget_eq ks cplen h]

open getFixedPrefixLength in
theorem target_test_redundant_witness :
    bestCost₀ keyStatOneGap 0 * 10 < 2 ^ 64 ∧
      0 < (getFixedPrefixLength keyStatOneGap 0).key_length ∧
      getFixedPrefixLengthWithoutTarget keyStatOneGap 0 = getFixedPrefixLength keyStatOneGap 0 :=
  ⟨by decide, by decide, (target_test_redundant keyStatOneGap 0 (by decide)).2.2.2⟩

end TerarkZipIndex
